import Mathlib

set_option maxHeartbeats 1000000

/-!
Verification of the solace-public-workflows CI helper scripts.

The Python sources are shallowly embedded over `List Char` (a Python `str`
is a sequence of unicode code points; we model the ASCII character classes
used by the regexes involved).  Regular-expression operations are embedded
by specialised recursive matchers that implement the leftmost /
greedy-with-backtracking semantics of Python's `re` module for the exact
patterns appearing in the sources.
-/

/-! ### Character classes: ASCII models of Python `\w`, `\d`, `\s` -/

def isWordChar (c : Char) : Bool := c.isAlphanum || c == '_'

def isDigitChar (c : Char) : Bool := c.isDigit

def isSpaceChar (c : Char) : Bool :=
  c == ' ' || c == '\t' || c == '\n' || c == '\r' || c == '\x0b' || c == '\x0c'

/-! ### `parse_commit_message` (generate-github-release-notes.py, lines 371-385)

Format 1 regex: `^(\w+)\(([^)]+)\): (.+?)(?:\s+\(#(\d+)\))?$`
Format 2 regex: `^(\w+): (.+?)(?:\s+\(#(\d+)\))?$`

`prTail` recognises the optional suffix `\s+\(#(\d+)\)$` (whole remainder);
`lazyTextSplit` implements the lazy group `(.+?)` followed by the optional
suffix: it scans for the shortest non-empty text prefix after which either
the PR suffix matches the entire remainder, or the remainder is empty. -/

def prTail (l : List Char) : Option (List Char) :=
  if (l.takeWhile isSpaceChar).isEmpty then none else
  match l.dropWhile isSpaceChar with
  | c1 :: c2 :: r2 =>
    if c1 = '(' ∧ c2 = '#' then
      if (r2.takeWhile isDigitChar).isEmpty then none
      else if r2.dropWhile isDigitChar = [')'] then some (r2.takeWhile isDigitChar)
      else none
    else none
  | _ => none

def lazyTextSplit : List Char → List Char → Option (List Char × Option (List Char))
  | _, [] => none
  | acc, c :: rest =>
    match prTail rest with
    | some ds => some (acc ++ [c], some ds)
    | none =>
      if rest.isEmpty then some (acc ++ [c], none)
      else lazyTextSplit (acc ++ [c]) rest

def matchScoped (s : List Char) :
    Option (List Char × List Char × List Char × Option (List Char)) :=
  if (s.takeWhile isWordChar).isEmpty then none else
  match s.dropWhile isWordChar with
  | c0 :: r2 =>
    if c0 = '(' then
      if (r2.takeWhile (fun c => !(c == ')'))).isEmpty then none else
      match r2.dropWhile (fun c => !(c == ')')) with
      | c1 :: c2 :: c3 :: r4 =>
        if c1 = ')' ∧ c2 = ':' ∧ c3 = ' ' then
          (lazyTextSplit [] r4).map
            (fun tp => (s.takeWhile isWordChar, r2.takeWhile (fun c => !(c == ')')), tp.1, tp.2))
        else none
      | _ => none
    else none
  | _ => none

def matchUnscoped (s : List Char) :
    Option (List Char × List Char × Option (List Char)) :=
  if (s.takeWhile isWordChar).isEmpty then none else
  match s.dropWhile isWordChar with
  | c1 :: c2 :: r2 =>
    if c1 = ':' ∧ c2 = ' ' then
      (lazyTextSplit [] r2).map (fun tp => (s.takeWhile isWordChar, tp.1, tp.2))
    else none
  | _ => none

structure ParsedMsg where
  ptype : Option (List Char)
  scope : Option (List Char)
  subj : List Char
  prNum : Option (List Char)
deriving Repr, DecidableEq

def parse_commit_message (s : List Char) : ParsedMsg :=
  match matchScoped s with
  | some (t, sc, x, pr) => ⟨some t, some sc, x, pr⟩
  | none =>
    match matchUnscoped s with
    | some (t, x, pr) => ⟨some t, none, x, pr⟩
    | none => ⟨none, none, s, none⟩

/-! ### Spec-side shapes for claim C1

These predicates are written from the specification's wording: a subject
"matches `type(scope): text (#N)`" (suffix optional) or "matches
`type: text (#N)`".  They are compared against the embedded parser. -/

def AllWord (l : List Char) : Prop := ∀ c ∈ l, isWordChar c = true

def AllDigit (l : List Char) : Prop := ∀ c ∈ l, isDigitChar c = true

def AllSpace (l : List Char) : Prop := ∀ c ∈ l, isSpaceChar c = true

def SuffixFor (pr : Option (List Char)) (rest0 text : List Char) : Prop :=
  match pr with
  | none => rest0 = text
  | some n => ∃ sp, sp ≠ [] ∧ AllSpace sp ∧ n ≠ [] ∧ AllDigit n ∧
      rest0 = text ++ sp ++ '(' :: '#' :: (n ++ [')'])

def ScopedShape (s ty sc text : List Char) (pr : Option (List Char)) : Prop :=
  ty ≠ [] ∧ AllWord ty ∧ sc ≠ [] ∧ (∀ c ∈ sc, c ≠ ')') ∧ text ≠ [] ∧
  ∃ rest0, SuffixFor pr rest0 text ∧
    s = ty ++ '(' :: (sc ++ ')' :: ':' :: ' ' :: rest0)

def UnscopedShape (s ty text : List Char) (pr : Option (List Char)) : Prop :=
  ty ≠ [] ∧ AllWord ty ∧ text ≠ [] ∧
  ∃ rest0, SuffixFor pr rest0 text ∧ s = ty ++ ':' :: ' ' :: rest0

def lastDigitsRun (l : List Char) : List Char :=
  ((l.reverse.tail).takeWhile isDigitChar).reverse

/-! ### Configuration model (.versionrc.json, loaded by `load_version_config`)

`bumpCommitPattern` values are arbitrary user-supplied regexes matched with
`re.search(..., re.IGNORECASE)`; the embedding abstracts each such pattern as
a matcher function `List Char → Bool` (`none` models a falsy/empty pattern,
which `_is_custom_bump_commit` treats as disabled).  The `.get` defaults of
`_get_custom_sections_config` are baked into the record fields. -/

structure TypeEntry where
  ctype : List Char
  sectionTitle : List Char
deriving Repr, DecidableEq

structure RawCustomSection where
  enabled : Bool
  tagPref : List Char
  pathPatterns : List (List Char)
  bumpMatcher : Option (List Char → Bool)

structure VersionConfig where
  types : List TypeEntry
  issuePrefixes : Option (List (List Char))
  issueUrlFormat : Option (List Char)
  uiChanges : Option RawCustomSection
  customSections : List (List Char × RawCustomSection)

/-! ### `extract_issue_numbers` (generate-github-release-notes.py, lines 388-403)

For each configured prefix the code runs
`re.findall(re.escape(prefix) + r"\d+", text)` — the leftmost,
non-overlapping, greedy scan — then concatenates all matches and
deduplicates them through `list(set(...))` (whose iteration order CPython
leaves unspecified; the embedding uses `List.dedup` and all theorems about
the result are membership statements). -/

def stripPref : List Char → List Char → Option (List Char)
  | [], l => some l
  | _ :: _, [] => none
  | p :: ps, c :: cs => if p = c then stripPref ps cs else none

def matchIssueAt (p l : List Char) : Option (List Char × List Char) :=
  match stripPref p l with
  | none => none
  | some r =>
    if (r.takeWhile isDigitChar).isEmpty then none
    else some (p ++ r.takeWhile isDigitChar, r.dropWhile isDigitChar)

def findAllAux (p : List Char) : Nat → List Char → List (List Char)
  | 0, _ => []
  | _ + 1, [] => []
  | fuel + 1, c :: cs =>
    match matchIssueAt p (c :: cs) with
    | some (m, rest) => m :: findAllAux p fuel rest
    | none => findAllAux p fuel cs

def pyFindAll (p l : List Char) : List (List Char) := findAllAux p l.length l

def extract_issue_numbers (cfg : VersionConfig) (text : List Char) : List (List Char) :=
  match cfg.issuePrefixes with
  | none => []
  | some ps =>
    if ps.isEmpty then []
    else ((ps.map (fun p => pyFindAll p text)).flatten).dedup

/-! ### Claim C5: `extract_issue_numbers` -/

/-- Spec-side reading of C5: `x` is an occurrence of `<prefix><digits>`
inside `t` (a substring formed by a configured prefix immediately followed
by one or more digits). -/
def IssueOcc (ps : List (List Char)) (t x : List Char) : Prop :=
  ∃ p ∈ ps, ∃ ds u v, ds ≠ [] ∧ AllDigit ds ∧ x = p ++ ds ∧ t = u ++ x ++ v

/-- Occurrence whose digit run is maximal (the next character, if any, is not
a digit) — what the greedy regex scan actually returns. -/
def MaxIssueOcc (ps : List (List Char)) (t x : List Char) : Prop :=
  ∃ p ∈ ps, ∃ ds u v, ds ≠ [] ∧ AllDigit ds ∧ x = p ++ ds ∧ t = u ++ x ++ v ∧
    (∀ c, v.head? = some c → isDigitChar c = false)

/-- The concrete configuration used by the C5 counterexample: a single
configured issue prefix "1". -/
def cfgPrefixOne : VersionConfig :=
  ⟨[], some [("1".toList)], none, none, []⟩

/-- Concrete configuration with the single issue prefix "A", used by the C5
witness. -/
def cfgPrefixA : VersionConfig :=
  ⟨[], some [("A".toList)], none, none, []⟩

/-! ### A regex engine for the fixed patterns of `clean_subject`
(generate-github-release-notes.py, lines 406-447)

`clean_subject` applies seven `re.sub` passes whose patterns are built from
the configured issue prefixes, then whitespace collapsing, punctuation
stripping and `str.strip()`.  The engine below implements Python's
backtracking semantics (ordered alternation, greedy character-class
star/plus) for exactly the constructs those patterns use. -/

inductive RE where
  | chr (p : Char → Bool)
  | lit (cs : List Char)
  | alts (css : List (List Char))
  | star (p : Char → Bool)
  | plus (p : Char → Bool)
  | seq (a b : RE)

def starGreedy (p : Char → Bool) (k : List Char → Option (List Char)) :
    List Char → Option (List Char)
  | [] => k []
  | c :: rest =>
    if p c then
      match starGreedy p k rest with
      | some r => some r
      | none => k (c :: rest)
    else k (c :: rest)

def altsTry (k : List Char → Option (List Char)) (l : List Char) :
    List (List Char) → Option (List Char)
  | [] => none
  | cs :: css =>
    match stripPref cs l with
    | none => altsTry k l css
    | some r =>
      match k r with
      | some out => some out
      | none => altsTry k l css

def mat : RE → List Char → (List Char → Option (List Char)) → Option (List Char)
  | .chr _, [], _ => none
  | .chr p, c :: l, k => if p c then k l else none
  | .lit cs, l, k =>
    match stripPref cs l with
    | none => none
    | some r => k r
  | .alts css, l, k => altsTry k l css
  | .star p, l, k => starGreedy p k l
  | .plus _, [], _ => none
  | .plus p, c :: l, k => if p c then starGreedy p k l else none
  | .seq a b, l, k => mat a l (fun r => mat b r k)

def matchAt (r : RE) (l : List Char) : Option (List Char) := mat r l some

def matchAtEnd (r : RE) (l : List Char) : Option (List Char) :=
  mat r l (fun rem => if rem = [] ∨ rem = ['\n'] then some rem else none)

/-- The matching relation: `Matches r cs` says the text `cs` is matched by
the pattern `r`. -/
inductive Matches : RE → List Char → Prop where
  | chr {p : Char → Bool} {c : Char} : p c = true → Matches (.chr p) [c]
  | lit {cs : List Char} : Matches (.lit cs) cs
  | alts {css : List (List Char)} {cs : List Char} : cs ∈ css → Matches (.alts css) cs
  | star {p : Char → Bool} {cs : List Char} :
      (∀ c ∈ cs, p c = true) → Matches (.star p) cs
  | plus {p : Char → Bool} {cs : List Char} :
      cs ≠ [] → (∀ c ∈ cs, p c = true) → Matches (.plus p) cs
  | seq {a b : RE} {ca cb : List Char} :
      Matches a ca → Matches b cb → Matches (.seq a b) (ca ++ cb)

/-- Global `re.sub`: scan left to right, replacing each leftmost match and
continuing after it.  `fuel` bounds the recursion (callers pass the string
length); the length guard on `rem` is unreachable for the patterns used here,
all of which consume at least one character. -/
def subAllF (M : List Char → Option (List Char)) (repl : List Char) :
    Nat → List Char → List Char
  | 0, l => l
  | _ + 1, [] =>
    match M [] with
    | some _ => repl
    | none => []
  | fuel + 1, c :: cs =>
    match M (c :: cs) with
    | some rem =>
      if rem.length < (c :: cs).length then repl ++ subAllF M repl fuel rem
      else c :: subAllF M repl fuel cs
    | none => c :: subAllF M repl fuel cs

def subAll (M : List Char → Option (List Char)) (repl l : List Char) : List Char :=
  subAllF M repl l.length l

/-- `re.sub` with a `^`-anchored pattern (no MULTILINE): at most one
replacement, at the start of the string. -/
def subAnchor (M : List Char → Option (List Char)) (repl l : List Char) : List Char :=
  match M l with
  | some rem => repl ++ rem
  | none => l

/-- Python `str.strip()` restricted to the modelled whitespace class. -/
def pyStrip (l : List Char) : List Char :=
  ((l.dropWhile isSpaceChar).reverse.dropWhile isSpaceChar).reverse

/-- `re.search`: does the pattern match at any position? -/
def searchB (M : List Char → Option (List Char)) : List Char → Bool
  | [] => (M []).isSome
  | c :: cs => (M (c :: cs)).isSome || searchB M cs

def colonChar (c : Char) : Bool := c == ':'

def dashChar (c : Char) : Bool := c == '-'

def punctChar (c : Char) : Bool := c == ',' || c == '-' || c == ':'

/-- `({prefixes})\d+` — the issue pattern of `clean_subject` and its guard. -/
def issueRE (ps : List (List Char)) : RE := .seq (.alts ps) (.plus isDigitChar)

/-- Pattern 1: `^({prefixes})\d+:\s*`. -/
def pat1 (ps : List (List Char)) : RE :=
  .seq (issueRE ps) (.seq (.chr colonChar) (.star isSpaceChar))

/-- Pattern 2: `^and\s+({prefixes})\d+\s*`. -/
def pat2 (ps : List (List Char)) : RE :=
  .seq (.lit ("and".toList)) (.seq (.plus isSpaceChar)
    (.seq (issueRE ps) (.star isSpaceChar)))

/-- Pattern 3: `^and\s+({prefixes})\d+\s*-\s*`. -/
def pat3 (ps : List (List Char)) : RE :=
  .seq (.lit ("and".toList)) (.seq (.plus isSpaceChar)
    (.seq (issueRE ps) (.seq (.star isSpaceChar)
      (.seq (.chr dashChar) (.star isSpaceChar)))))

/-- Pattern 4: `\s+and\s+({prefixes})\d+\s*`. -/
def pat4 (ps : List (List Char)) : RE :=
  .seq (.plus isSpaceChar) (.seq (.lit ("and".toList)) (.seq (.plus isSpaceChar)
    (.seq (issueRE ps) (.star isSpaceChar))))

/-- Pattern 5: `({prefixes})\d+\s*-\s*`. -/
def pat5 (ps : List (List Char)) : RE :=
  .seq (issueRE ps) (.seq (.star isSpaceChar)
    (.seq (.chr dashChar) (.star isSpaceChar)))

/-- Pattern 6: `({prefixes})\d+:\s*`. -/
def pat6 (ps : List (List Char)) : RE :=
  .seq (issueRE ps) (.seq (.chr colonChar) (.star isSpaceChar))

/-- Pattern 7: `\s*({prefixes})\d+\s*`. -/
def pat7 (ps : List (List Char)) : RE :=
  .seq (.star isSpaceChar) (.seq (issueRE ps) (.star isSpaceChar))

/-- `\s+` (whitespace collapsing). -/
def collapseRE : RE := .plus isSpaceChar

/-- `\s*[,\-:]\s*` (leading/trailing punctuation stripping; the trailing
variant carries the `$` anchor through `matchAtEnd`). -/
def punctRE : RE :=
  .seq (.star isSpaceChar) (.seq (.chr punctChar) (.star isSpaceChar))

/-- The body of `clean_subject` once an issue reference was found:
the seven substitutions followed by the cleanup passes and `strip()`. -/
def cleanPipeline (ps : List (List Char)) (s0 : List Char) : List Char :=
  pyStrip (subAll (matchAtEnd punctRE) []
    (subAnchor (matchAt punctRE) []
      (subAll (matchAt collapseRE) [' ']
        (subAll (matchAt (pat7 ps)) [' ']
          (subAll (matchAt (pat6 ps)) []
            (subAll (matchAt (pat5 ps)) []
              (subAll (matchAt (pat4 ps)) [' ']
                (subAnchor (matchAt (pat3 ps)) []
                  (subAnchor (matchAt (pat2 ps)) []
                    (subAnchor (matchAt (pat1 ps)) [] s0))))))))))

/-- `clean_subject` (generate-github-release-notes.py, lines 406-447). -/
def clean_subject (cfg : VersionConfig) (subject : List Char) : List Char :=
  match cfg.issuePrefixes with
  | none => subject
  | some ps =>
    if ps.isEmpty then subject
    else if searchB (matchAt (issueRE ps)) subject then cleanPipeline ps subject
    else subject

/-- The configuration of the C2 counterexample: one issue prefix "A B"
containing a space. -/
def cfgAB : VersionConfig :=
  ⟨[], some [("A B".toList)], none, none, []⟩

/-! ### Claim C2: idempotence machinery -/

/-- The text contains an occurrence of `<prefix><digits>`. -/
def HasOcc (ps : List (List Char)) (l : List Char) : Prop :=
  ∃ u p ds v, p ∈ ps ∧ ds ≠ [] ∧ AllDigit ds ∧ l = u ++ (p ++ ds) ++ v

/-- Every configured prefix is free of whitespace characters. -/
def SpaceFree (ps : List (List Char)) : Prop :=
  ∀ p ∈ ps, ∀ c ∈ p, isSpaceChar c = false

/-! ### Commit processing (generate-github-release-notes.py, lines 450-691)

Commits are the dicts built by `get_commits_between_refs`; Python dicts
keyed by strings are modelled as insertion-ordered association lists with
dict-assignment upsert semantics. -/

structure Commit where
  chash : List Char
  fullHash : List Char
  subject : List Char
  author : List Char
  prNumber : Option (List Char)
deriving Repr, DecidableEq

def ciSkipMarker : List Char := "[ci skip]".toList

/-- Python `needle in haystack` substring containment. -/
def containsSub (p : List Char) : List Char → Bool
  | [] => p.isEmpty
  | c :: cs => p.isPrefixOf (c :: cs) || containsSub p cs

/-- Dict assignment `d[k] = v`: replace the value at an existing key in
place, otherwise append the new binding. -/
def upsertA {β : Type} : List (List Char × β) → List Char → β → List (List Char × β)
  | [], nm, v => [(nm, v)]
  | (k, w) :: rest, nm, v =>
    if k = nm then (k, v) :: rest else (k, w) :: upsertA rest nm v

/-- Python `key in d`. -/
def hasKey {β : Type} : List (List Char × β) → List Char → Bool
  | [], _ => false
  | (k, _) :: rest, t => k = t || hasKey rest t

/-- `_get_custom_sections_config` (lines 450-475): the legacy `uiChanges`
entry first (with its defaults already applied to the raw section), then
every enabled entry of `customSections` in order. -/
def get_custom_sections_config (cfg : VersionConfig) : List (List Char × RawCustomSection) :=
  let base : List (List Char × RawCustomSection) :=
    match cfg.uiChanges with
    | some ui => if ui.enabled then [(("UI Changes".toList), ui)] else []
    | none => []
  cfg.customSections.foldl
    (fun acc e => if e.2.enabled then upsertA acc e.1 e.2 else acc) base

def dotChar (c : Char) : Bool := c == '.'

def nonSpaceChar (c : Char) : Bool := !(isSpaceChar c)

/-- `{re.escape(tag_prefix)}([0-9]+\.[0-9]+\.[0-9]+[^\s]*)` (line 489). -/
def verRE (pref : List Char) : RE :=
  .seq (.lit pref) (.seq (.plus isDigitChar) (.seq (.chr dotChar)
    (.seq (.plus isDigitChar) (.seq (.chr dotChar)
      (.seq (.plus isDigitChar) (.star nonSpaceChar))))))

/-- `re.search` for the version pattern, returning the whole matched text
(`tag_prefix + group(1)`) of the leftmost match. -/
def searchExtract (pref : List Char) : List Char → Option (List Char)
  | [] =>
    match matchAt (verRE pref) [] with
    | some _ => some []
    | none => none
  | c :: cs =>
    match matchAt (verRE pref) (c :: cs) with
    | some rem => some (List.take ((c :: cs).length - rem.length) (c :: cs))
    | none => searchExtract pref cs

/-- `_is_custom_bump_commit` (lines 478-498).  The user-supplied
`bumpCommitPattern` regex (searched with `re.IGNORECASE`) is abstracted as
a Boolean predicate on the subject; `none` stands for a missing or empty
pattern. -/
def is_custom_bump_commit (c : Commit) (sc : RawCustomSection) : Option (List Char) :=
  match sc.bumpMatcher with
  | none => none
  | some m =>
    if m c.subject then
      if sc.tagPref.isEmpty then some ("version".toList)
      else searchExtract sc.tagPref c.subject
    else none

/-- One iteration of the loop of `_process_section_commits` together with
the body of `_process_custom_bump_commit` (lines 504-532, 554-563). -/
def pscStep (commits : List Commit) (sc : RawCustomSection)
    (acc : List Commit × List (List Char)) (i : Nat) :
    List Commit × List (List Char) :=
  match commits.get? i with
  | none => acc
  | some commit =>
    match is_custom_bump_commit commit sc with
    | none => acc
    | some version =>
      ((if 0 < i then
          match commits.get? (i - 1) with
          | some change =>
            if change ∈ acc.1 ∨ (is_custom_bump_commit change sc).isSome
            then acc.1 else acc.1 ++ [change]
          | none => acc.1
        else acc.1), acc.2 ++ [version])

def pscAux (commits : List Commit) (sc : RawCustomSection) :
    List Nat → (List Commit × List (List Char)) → List Commit × List (List Char)
  | [], acc => acc
  | i :: is, acc => pscAux commits sc is (pscStep commits sc acc i)

/-- `_process_section_commits` (lines 547-565). -/
def process_section_commits (commits : List Commit) (sc : RawCustomSection) :
    List Commit × List (List Char) :=
  pscAux commits sc (List.range commits.length) ([], [])

/-- Python string `<` / `list.sort()` ordering: lexicographic on code
points. -/
def lexLe : List Char → List Char → Bool
  | [], _ => true
  | _ :: _, [] => false
  | a :: as, b :: bs => if a = b then lexLe as bs else decide (a < b)

/-- Insertion by `lexLe`; `pySort` below is a sorted permutation, which
(lexLe being total, transitive and antisymmetric) is the unique sorted
arrangement `list.sort()` also produces. -/
def pyInsert (v : List Char) : List (List Char) → List (List Char)
  | [] => [v]
  | w :: ws => if lexLe v w then v :: w :: ws else w :: pyInsert v ws

def pySort : List (List Char) → List (List Char)
  | [] => []
  | v :: vs => pyInsert v (pySort vs)

/-- The literal separator of line 542 — the mojibake bytes committed to the
source decode as U+00E2 U+2020 U+2019, not as an arrow. -/
def versionRangeSep : List Char :=
  [' ', Char.ofNat 0xE2, Char.ofNat 0x2020, Char.ofNat 0x2019, ' ']

/-- `_create_version_range` (lines 535-544): `versions.sort()` is the
lexicographic string sort.  (Python raises IndexError on an empty list; the
function is only called with a nonempty one.) -/
def create_version_range (vs : List (List Char)) : List Char :=
  match pySort vs with
  | [] => []
  | v :: rest =>
    let newest := (v :: rest).getLast (List.cons_ne_nil v rest)
    if v ≠ newest then v ++ versionRangeSep ++ newest
    else ("up to ".toList) ++ newest

/-- `_build_section_title` (lines 568-572). -/
def build_section_title (nm vr : List Char) : List Char :=
  if vr ≠ ("version".toList) then nm ++ [' '] ++ vr else nm

/-- One iteration of the section loop of `_detect_custom_changes`
(lines 598-611). -/
def dccStep (commits : List Commit)
    (acc : List Commit × List (List Char × List Commit))
    (e : List Char × RawCustomSection) :
    List Commit × List (List Char × List Commit) :=
  let r := process_section_commits commits e.2
  if r.1 ≠ [] ∧ r.2 ≠ [] then
    (acc.1 ++ r.1,
      upsertA acc.2 (build_section_title e.1 (create_version_range r.2)) r.1)
  else acc

def dccAux (commits : List Commit) :
    List (List Char × RawCustomSection) →
    (List Commit × List (List Char × List Commit)) →
    List Commit × List (List Char × List Commit)
  | [], acc => acc
  | e :: es, acc => dccAux commits es (dccStep commits acc e)

/-- `_detect_custom_changes` (lines 575-616). -/
def detect_custom_changes (commits : List Commit) (cfg : VersionConfig) :
    List Commit × List (List Char × List Commit) :=
  let cscfg := get_custom_sections_config cfg
  if cscfg.isEmpty then (commits, [])
  else
    let r := dccAux commits cscfg ([], [])
    (commits.filter (fun c => !(List.elem c r.1)), r.2)

/-- The dict returned by `_process_single_commit`, after the `type` key has
been popped off by `_add_commits_to_sections`. -/
structure ProcCommit where
  chash : List Char
  fullHash : List Char
  subject : List Char
  prNumber : Option (List Char)
  issueNumbers : List (List Char)
  author : List Char
deriving Repr, DecidableEq

structure TypeSection where
  sectionTitle : List Char
  commits : List ProcCommit
deriving Repr, DecidableEq

/-- `_create_empty_type_sections` (lines 622-630). -/
def create_empty_type_sections (cfg : VersionConfig) : List (List Char × TypeSection) :=
  cfg.types.foldl (fun acc te => upsertA acc te.ctype ⟨te.sectionTitle, []⟩) []

/-- `_process_single_commit` (lines 633-658): skip `[ci skip]` commits and
commits without a recognised type; otherwise parse, extract issues from
`f"{scope or ''} {subject}"`, clean the subject, and return the processed
dict keyed by the commit type. -/
def process_single_commit (c : Commit) (cfg : VersionConfig) :
    Option (List Char × ProcCommit) :=
  if containsSub ciSkipMarker c.subject then none
  else
    let pm := parse_commit_message c.subject
    match pm.ptype with
    | none => none
    | some t =>
      if t.isEmpty then none
      else
        let scopeText := match pm.scope with | some sc => sc | none => []
        some (t, ⟨c.chash, c.fullHash, clean_subject cfg pm.subj,
          (match pm.prNum with | some p => some p | none => c.prNumber),
          extract_issue_numbers cfg (scopeText ++ [' '] ++ pm.subj), c.author⟩)

/-- `appendTS ts t pc` appends `pc` to the commit list of the binding of
`t` (dict keys are unique, so only the first binding is touched). -/
def appendTS : List (List Char × TypeSection) → List Char → ProcCommit →
    List (List Char × TypeSection)
  | [], _, _ => []
  | (k, v) :: rest, t, pc =>
    if k = t then (k, ⟨v.sectionTitle, v.commits ++ [pc]⟩) :: rest
    else (k, v) :: appendTS rest t pc

/-- `_add_commits_to_sections` (lines 661-670). -/
def add_commits_to_sections (cfg : VersionConfig) :
    List Commit → List (List Char × TypeSection) → List (List Char × TypeSection)
  | [], ts => ts
  | c :: cs, ts =>
    add_commits_to_sections cfg cs
      (match process_single_commit c cfg with
       | none => ts
       | some (t, pc) => if hasKey ts t then appendTS ts t pc else ts)

/-- `process_commits` (lines 673-691). -/
def process_commits (commits : List Commit) (cfg : VersionConfig) :
    List (List Char × TypeSection) × List (List Char × List (List Char × TypeSection)) :=
  let r := detect_custom_changes commits cfg
  (add_commits_to_sections cfg r.1 (create_empty_type_sections cfg),
    r.2.map (fun e =>
      (e.1, add_commits_to_sections cfg e.2 (create_empty_type_sections cfg))))

/-- All processed commits appearing in any binding of a type-sections
dict. -/
def sectionProcCommits (ts : List (List Char × TypeSection)) : List ProcCommit :=
  (ts.map (fun e => e.2.commits)).flatten

/-- All processed commits rendered anywhere in the output of
`process_commits`: the regular sections and every custom section. -/
def allRendered
    (out : List (List Char × TypeSection) ×
      List (List Char × List (List Char × TypeSection))) : List ProcCommit :=
  sectionProcCommits out.1 ++ (out.2.map (fun e => sectionProcCommits e.2)).flatten

def bumpMatch : List Char → Bool := fun s => containsSub ("bump".toList) s

def cmA : Commit := ⟨("h0".toList), ("H0".toList), ("feat: x".toList), ("alice".toList), none⟩

def cmB1 : Commit := ⟨("h1".toList), ("H1".toList), ("bump v1.9.0".toList), ("bot".toList), none⟩

def cmB2 : Commit := ⟨("h2".toList), ("H2".toList), ("bump v1.10.0".toList), ("bot".toList), none⟩

def secSec : RawCustomSection := ⟨true, ("v".toList), [], some bumpMatch⟩

def cfgSec : VersionConfig :=
  ⟨[⟨("feat".toList), ("Features".toList)⟩], none, none, none,
    [(("Sec".toList), secSec)]⟩

def cmSkip : Commit :=
  ⟨("h9".toList), ("H9".toList), ("chore: release 1.2.3 [ci skip]".toList),
    ("bot".toList), none⟩

def pcA : ProcCommit :=
  ⟨("h0".toList), ("H0".toList), ("x".toList), none, [], ("alice".toList)⟩

/-- The predicate characterising membership of the custom partition after
the first `n` loop iterations: `c` is not itself a bump commit and is the
immediate predecessor of some detected bump commit at an index `i < n`. -/
def OccUpTo (commits : List Commit) (sc : RawCustomSection) (n : Nat) (c : Commit) : Prop :=
  is_custom_bump_commit c sc = none ∧
  ∃ i b, i < n ∧ 0 < i ∧ commits.get? i = some b ∧
    (is_custom_bump_commit b sc).isSome = true ∧ commits.get? (i - 1) = some c

/-! ### The paginated GraphQL fetch (generate-github-release-notes.py,
lines 89-368)

One GraphQL round trip is abstracted as an environment function from
(base ref, head ref, cursor) to the validated outcome of
`_validate_graphql_response`: a fatal error (`sys.exit(1)` — missing
repository data or a generic exception), a missing base ref
(`RefNotFoundError(from_ref, is_base_ref=True)`), a null compare
(`RefNotFoundError(to_ref, is_base_ref=False)`), or a page of commit
nodes (already passed through `_extract_commit_from_node`, which maps
one node to one commit dict) with the `hasNextPage`/`endCursor` page
info.  `get_latest_release_tag` is abstracted as an optional tag. -/

inductive PageResult where
  | fatal : PageResult
  | baseMissing : PageResult
  | compareMissing : PageResult
  | page : List Commit → Bool → Option (List Char) → PageResult

structure FetchEnv where
  exec : List Char → List Char → Option (List Char) → PageResult
  latest : Option (List Char)

inductive FetchOutcome where
  | ok : List Commit → FetchOutcome
  | errBase : FetchOutcome
  | errCompare : FetchOutcome
  | errFatal : FetchOutcome
deriving DecidableEq

/-- The `while has_next_page and page_count < 50` loop of
`_get_commits_with_prs_graphql` (lines 246-295).  The fuel is
`50 - page_count`; the returned number counts the executed requests. -/
def fetchAux (env : FetchEnv) (base head : List Char) :
    Nat → Bool → Option (List Char) → List Commit → Nat → FetchOutcome × Nat
  | 0, _, _, acc, count => (.ok acc, count)
  | _ + 1, false, _, acc, count => (.ok acc, count)
  | fuel + 1, true, cursor, acc, count =>
    match env.exec base head cursor with
    | .fatal => (.errFatal, count + 1)
    | .baseMissing => (.errBase, count + 1)
    | .compareMissing => (.errCompare, count + 1)
    | .page nodes hasNext endCursor =>
      fetchAux env base head fuel hasNext endCursor (acc ++ nodes) (count + 1)

/-- `_get_commits_with_prs_graphql` (lines 189-295). -/
def get_commits_with_prs_graphql (env : FetchEnv) (base head : List Char) :
    FetchOutcome × Nat :=
  fetchAux env base head 50 true none [] 0

inductive FinalResult where
  | ok : List Commit → FinalResult
  | exit1 : FinalResult
deriving DecidableEq

structure FetchAttempt where
  base : List Char
  requests : Nat
deriving DecidableEq

/-- The fallback branch of `get_commits_between_refs` (lines 329-356):
look up the latest release tag and retry once with it; any
`RefNotFoundError` (or `sys.exit`) during the retry is fatal. -/
def gcbrRetry (env : FetchEnv) (fromRef toRef : List Char) (n : Nat) :
    FinalResult × List FetchAttempt :=
  match env.latest with
  | none => (.exit1, [⟨fromRef, n⟩])
  | some tag =>
    match get_commits_with_prs_graphql env tag toRef with
    | (.ok commits, m) => (.ok commits, [⟨fromRef, n⟩, ⟨tag, m⟩])
    | (.errBase, m) => (.exit1, [⟨fromRef, n⟩, ⟨tag, m⟩])
    | (.errCompare, m) => (.exit1, [⟨fromRef, n⟩, ⟨tag, m⟩])
    | (.errFatal, m) => (.exit1, [⟨fromRef, n⟩, ⟨tag, m⟩])

/-- `get_commits_between_refs` (lines 309-368), returning the final result
together with the trace of fetch attempts (base ref used and number of
page requests of each attempt). -/
def get_commits_between_refs (env : FetchEnv) (fromRef toRef : List Char) :
    FinalResult × List FetchAttempt :=
  match get_commits_with_prs_graphql env fromRef toRef with
  | (.ok commits, n) => (.ok commits, [⟨fromRef, n⟩])
  | (.errFatal, n) => (.exit1, [⟨fromRef, n⟩])
  | (.errCompare, n) => (.exit1, [⟨fromRef, n⟩])
  | (.errBase, n) => gcbrRetry env fromRef toRef n

def envPage : FetchEnv := ⟨fun _ _ _ => .page [cmA] true none, none⟩

def envComp : FetchEnv := ⟨fun _ _ _ => .compareMissing, none⟩

def envBase : FetchEnv :=
  ⟨fun b _ _ => if b = ("v0".toList) then .baseMissing else .page [cmA] false none,
    some ("v1".toList)⟩

/-! ### Dependency parsing (consolidate_requirements.py lines 15-38,
validate_dependencies.py lines 14-37 — the two functions are identical) -/

/-- ASCII `str.lower()`. -/
def pyLowerChar (c : Char) : Char :=
  if 'A' ≤ c ∧ c ≤ 'Z' then Char.ofNat (c.toNat + 32) else c

def pyLower (s : List Char) : List Char := s.map pyLowerChar

/-- `.lower().replace("_", "-").replace(".", "-")`. -/
def pyNormName (s : List Char) : List Char :=
  s.map (fun c =>
    let lc := pyLowerChar c
    if lc = '_' ∨ lc = '.' then '-' else lc)

/-- Python `str.split(";")`. -/
def splitSemiAux : List Char → List Char → List (List Char)
  | [], cur => [cur.reverse]
  | c :: cs, cur =>
    if c = ';' then cur.reverse :: splitSemiAux cs []
    else splitSemiAux cs (c :: cur)

def pySplitSemi (s : List Char) : List (List Char) := splitSemiAux s []

/-- The character class `[a-zA-Z0-9_.-]` of the dependency regex. -/
def depClassChar (c : Char) : Bool :=
  ('a' ≤ c && c ≤ 'z') || ('A' ≤ c && c ≤ 'Z') || ('0' ≤ c && c ≤ '9') ||
    c == '_' || c == '.' || c == '-'

/-- The operator alternation `(==|>=|<=|>|<|!=|~=)`, tried in order. -/
def opAlts : List (List Char) :=
  [("==".toList), (">=".toList), ("<=".toList), (">".toList), ("<".toList),
    ("!=".toList), ("~=".toList)]

def tryOps : List (List Char) → List Char → Option (List Char × List Char)
  | [], _ => none
  | op :: rest, s =>
    match stripPref op s with
    | some r => some (op, r)
    | none => tryOps rest s

/-- The `(.+)$` tail of the regex: at least one non-newline character, with
`$` matching at the end or before one final newline. -/
def verBody (r : List Char) : Option (List Char) :=
  let r' := if r.getLast? = some '\n' then r.dropLast else r
  if r' ≠ [] ∧ '\n' ∉ r' then some r' else none

structure ParsedDep where
  pkg : List Char
  op : Option (List Char)
  ver : Option (List Char)
  marker : Option (List Char)
deriving Repr, DecidableEq

/-- The un-normalised name `parse_dependency` feeds into
`.lower().replace(...)`: the regex group 1 on a match, the whole
(stripped) dependency part otherwise. -/
def rawDepName (s : List Char) : List Char :=
  let parts := pySplitSemi s
  let dep_part := pyStrip (parts.headD s)
  let nm := dep_part.takeWhile depClassChar
  let rest := dep_part.dropWhile depClassChar
  if nm ≠ [] then
    match tryOps opAlts rest with
    | some (_, r) =>
      match verBody r with
      | some _ => nm
      | none => dep_part
    | none => dep_part
  else dep_part

/-- `parse_dependency`.  The regex `^([a-zA-Z0-9_.-]+)(==|>=|<=|>|<|!=|~=)(.+)$`
matches iff a nonempty maximal run of class characters is followed directly
by one of the operators and a `(.+)$` version tail (no operator begins with
a class character, so the greedy group 1 never backtracks). -/
def parse_dependency (s : List Char) : ParsedDep :=
  let parts := pySplitSemi s
  let dep_part := pyStrip (parts.headD s)
  let marker : Option (List Char) :=
    match parts with
    | _ :: m2 :: _ => some (pyStrip m2)
    | _ => none
  let nm := dep_part.takeWhile depClassChar
  let rest := dep_part.dropWhile depClassChar
  if nm ≠ [] then
    match tryOps opAlts rest with
    | some (op, r) =>
      match verBody r with
      | some body => ⟨pyNormName nm, some op, some (pyStrip body), marker⟩
      | none => ⟨pyNormName dep_part, none, none, marker⟩
    | none => ⟨pyNormName dep_part, none, none, marker⟩
  else ⟨pyNormName dep_part, none, none, marker⟩

/-! ### Profile extraction (consolidate_requirements.py lines 41-87,
validate_dependencies.py lines 40-81)

The parsed pyproject.toml is modelled by the two tables the scripts read;
`none` stands for an absent key. -/

structure PyProject where
  dependencies : Option (List (List Char))
  optionalDependencies : Option (List (List Char × List (List Char)))

def dev_profile_names : List (List Char) :=
  [("dev".toList), ("development".toList), ("develop".toList), ("test".toList),
    ("testing".toList), ("tests".toList), ("lint".toList), ("linting".toList),
    ("format".toList), ("formatting".toList), ("docs".toList),
    ("documentation".toList), ("build".toList), ("ci".toList), ("cd".toList),
    ("debug".toList), ("local".toList)]

/-- `extract_dependencies_by_profile` (consolidate_requirements.py): a
`main` profile always, then every non-dev optional profile mapped to
`main_deps + its deps`. -/
def extract_dependencies_by_profile (pp : PyProject) :
    List (List Char × List (List Char)) :=
  let main_deps := pp.dependencies.getD []
  (pp.optionalDependencies.getD []).foldl
    (fun acc e =>
      if pyLower e.1 ∈ dev_profile_names then acc
      else upsertA acc e.1 (main_deps ++ e.2))
    [(("main".toList), main_deps)]

/-- `extract_dependencies` (validate_dependencies.py): the `main` profile
only when `[project.dependencies]` exists, each non-dev optional profile
with only its own deps. -/
def extract_dependencies (pp : PyProject) :
    List (List Char × List (List Char)) :=
  let base : List (List Char × List (List Char)) :=
    match pp.dependencies with
    | some d => [(("main".toList), d)]
    | none => []
  (pp.optionalDependencies.getD []).foldl
    (fun acc e =>
      if pyLower e.1 ∈ dev_profile_names then acc
      else upsertA acc e.1 e.2)
    base

/-! ### `packaging.version` (third-party, not in this repository)

`version.parse` is modelled for the release segment of PEP 440 — an
optional `v`/`V` prefix followed by dot-separated numeric components —
returning `none` (the `InvalidVersion` branch, which the caller skips)
outside this subset.  Two releases compare componentwise with the shorter
one zero-padded, per PEP 440. -/

def splitDotAux : List Char → List Char → List (List Char)
  | [], cur => [cur.reverse]
  | c :: cs, cur =>
    if c = '.' then cur.reverse :: splitDotAux cs []
    else splitDotAux cs (c :: cur)

def pySplitDot (s : List Char) : List (List Char) := splitDotAux s []

def digitsToNat : List Char → Nat → Nat
  | [], acc => acc
  | c :: cs, acc => digitsToNat cs (acc * 10 + (c.toNat - ('0').toNat))

def parseRelease (s : List Char) : Option (List Nat) :=
  let segs := pySplitDot s
  if segs.all (fun seg => !seg.isEmpty && seg.all isDigitChar) then
    some (segs.map (fun seg => digitsToNat seg 0))
  else none

def pyVersionParse (s : List Char) : Option (List Nat) :=
  match s with
  | 'v' :: rest => parseRelease rest
  | 'V' :: rest => parseRelease rest
  | _ => parseRelease s

def anyPos : List Nat → Bool
  | [] => false
  | b :: bs => if 0 < b then true else anyPos bs

/-- Strict PEP 440 release comparison with zero padding: a missing
component counts as zero. -/
def relLt : List Nat → List Nat → Bool
  | [], bs => anyPos bs
  | _ :: _, [] => false
  | a :: as, b :: bs =>
    if a < b then true else if b < a then false else relLt as bs

/-- Python `max(xs, key=lambda x: x[0])`: the first element with a maximal
key. -/
def pyMaxKey : List (List Nat × List Char) → Option (List Nat × List Char)
  | [] => none
  | x :: xs => some (xs.foldl (fun best y => if relLt best.1 y.1 then y else best) x)

structure DepInfo where
  op : Option (List Char)
  ver : Option (List Char)
  original : List Char
deriving Repr, DecidableEq

/-- Append to the list bound at `k`, preserving dict insertion order. -/
def appendG {β : Type} : List (List Char × List β) → List Char → β →
    List (List Char × List β)
  | [], k, d => [(k, [d])]
  | (k0, l) :: rest, k, d =>
    if k0 = k then (k0, l ++ [d]) :: rest else (k0, l) :: appendG rest k d

/-- The exact-pin extraction of `consolidate_profile_requirements`
(lines 124-133): an `==` pin with a truthy, parseable version yields its
parsed key paired with the original string. -/
def cprExact (d : DepInfo) : Option (List Nat × List Char) :=
  if d.op = some ("==".toList) then
    match d.ver with
    | some v =>
      if v ≠ [] then (pyVersionParse v).map (fun k => (k, d.original))
      else none
    | none => none
  else none

/-- The per-package consolidation (lines 118-140). -/
def cprEntry (ds : List DepInfo) : List Char :=
  match ds with
  | [d] => d.original
  | ds =>
    match pyMaxKey (ds.filterMap cprExact) with
    | some best => best.2
    | none => (ds.headD ⟨none, none, []⟩).original

/-- `consolidate_profile_requirements` (consolidate_requirements.py,
lines 90-142). -/
def consolidate_profile_requirements (deps : List (List Char)) :
    List (List Char × List Char) :=
  let groups := deps.foldl (fun (acc : List (List Char × List DepInfo)) dep =>
    let p := parse_dependency dep
    appendG acc p.pkg ⟨p.op, p.ver, dep⟩) []
  groups.map (fun g => (g.1, cprEntry g.2))

/-! ### `find_conflicts` (validate_dependencies.py, lines 84-165) -/

structure VDep where
  original : List Char
  package : List Char
  op : Option (List Char)
  ver : Option (List Char)
  marker : Option (List Char)
deriving Repr, DecidableEq

structure Conflict where
  package : List Char
  versions : List (List Char × List (List Char × VDep))
  allOccurrences : List (List Char × VDep)
deriving Repr, DecidableEq

def parseProfiles (all_deps : List (List Char × List (List Char))) :
    List (List Char × List VDep) :=
  all_deps.map (fun e => (e.1, e.2.map (fun d =>
    let p := parse_dependency d
    ⟨d, p.pkg, p.op, p.ver, p.marker⟩)))

def buildPkgMap (pd : List (List Char × List VDep)) :
    List (List Char × List (List Char × VDep)) :=
  pd.foldl (fun acc e =>
    e.2.foldl (fun acc2 d => appendG acc2 d.package (e.1, d)) acc) []

def evStep (vacc : List (List Char × List (List Char × VDep)))
    (pd : List Char × VDep) : List (List Char × List (List Char × VDep)) :=
  match pd.2.op, pd.2.ver with
  | some o, some v =>
    if o = ("==".toList) ∧ v ≠ [] then appendG vacc v pd else vacc
  | _, _ => vacc

def exactVersionsOf (occs : List (List Char × VDep)) :
    List (List Char × List (List Char × VDep)) :=
  occs.foldl evStep []

def operatorStringsOf (occs : List (List Char × VDep)) : List (List Char) :=
  (occs.filterMap (fun pd =>
    match pd.2.op, pd.2.ver with
    | some o, some v => if o ≠ [] then some (o ++ v) else none
    | some o, none => if o ≠ [] then some (o ++ ("None".toList)) else none
    | _, _ => none)).dedup

def conflictOf (pkg : List Char) (occs : List (List Char × VDep)) :
    Option Conflict :=
  if occs.length > 1 then
    let versions := exactVersionsOf occs
    if versions.length > 1 then some ⟨pkg, versions, occs⟩
    else
      let operators := operatorStringsOf occs
      if operators.length > 1 then
        let exacts := occs.filter (fun pd => pd.2.op == some ("==".toList))
        if exacts.length > 1 then
          let versionSet := (exacts.filterMap (fun pd => pd.2.ver)).dedup
          if versionSet.length > 1 then
            some ⟨pkg,
              exacts.map (fun pd =>
                (pd.2.ver.getD [], [pd])), occs⟩
          else none
        else none
      else none
  else none

/-- `find_conflicts` (validate_dependencies.py, lines 84-165). -/
def find_conflicts (all_deps : List (List Char × List (List Char))) :
    List Conflict :=
  (buildPkgMap (parseProfiles all_deps)).filterMap
    (fun g => conflictOf g.1 g.2)

def ppW : PyProject :=
  ⟨some [("requests==2.0".toList)],
    some [(("dev".toList), [("pytest==1.0".toList)]),
      (("Docs".toList), [("sphinx==1.0".toList)]),
      (("web".toList), [("flask==1.0".toList)])]⟩

def infoOf (d : List Char) : DepInfo :=
  ⟨(parse_dependency d).op, (parse_dependency d).ver, d⟩

/-- The version key `version.parse` assigns to the pin of dependency
string `d` (defaulting to the empty key when there is none). -/
def keyOf (d : List Char) : List Nat :=
  (pyVersionParse (((parse_dependency d).ver).getD [])).getD []

theorem not_space_of_digit {c : Char} (h : isDigitChar c = true) : isSpaceChar c = false := by
  by_contra hsp
  rw [Bool.not_eq_false] at hsp
  simp only [isSpaceChar, Bool.or_eq_true, beq_iff_eq] at hsp
  rcases hsp with ((((h' | h') | h') | h') | h') | h' <;> subst h' <;> revert h <;> decide

/-! ### Generic list helpers -/

theorem allTakeWhile (p : Char → Bool) : ∀ l : List Char, ∀ c ∈ l.takeWhile p, p c = true := by
  intro l
  induction l with
  | nil => intro c hc; simp [List.takeWhile] at hc
  | cons a t ih =>
    intro c hc
    by_cases hpa : p a = true
    · rw [List.takeWhile_cons_of_pos hpa] at hc
      rcases List.mem_cons.mp hc with h | h
      · subst h; exact hpa
      · exact ih c h
    · rw [List.takeWhile_cons_of_neg hpa] at hc
      simp at hc

theorem dropWhileHead (p : Char → Bool) :
    ∀ l : List Char, ∀ c, (l.dropWhile p).head? = some c → p c = false := by
  intro l
  induction l with
  | nil => intro c hc; simp [List.dropWhile] at hc
  | cons a t ih =>
    intro c hc
    by_cases hpa : p a = true
    · rw [List.dropWhile_cons_of_pos hpa] at hc
      exact ih c hc
    · rw [List.dropWhile_cons_of_neg hpa] at hc
      simp only [List.head?_cons, Option.some.injEq] at hc
      subst hc
      exact Bool.eq_false_iff.mpr hpa

theorem takeWhile_app (p : Char → Bool) :
    ∀ a b : List Char, (∀ c ∈ a, p c = true) →
    (∀ c, b.head? = some c → p c = false) →
    (a ++ b).takeWhile p = a ∧ (a ++ b).dropWhile p = b := by
  intro a
  induction a with
  | nil =>
    intro b _ hb
    cases b with
    | nil => exact ⟨rfl, rfl⟩
    | cons c t =>
      have hc : p c = false := hb c rfl
      have hnc : ¬ p c = true := by simp [hc]
      exact ⟨by rw [List.nil_append, List.takeWhile_cons_of_neg hnc],
             by rw [List.nil_append, List.dropWhile_cons_of_neg hnc]⟩
  | cons x xs ih =>
    intro b ha hb
    have hpx : p x = true := ha x (by simp)
    have hxs : ∀ c ∈ xs, p c = true := fun c hc => ha c (by simp [hc])
    obtain ⟨h1, h2⟩ := ih b hxs hb
    constructor
    · simp only [List.cons_append, List.takeWhile_cons_of_pos hpx, h1]
    · simp only [List.cons_append, List.dropWhile_cons_of_pos hpx, h2]

example : parse_commit_message ("feat(ui): add button (#12)".toList) =
    ⟨some ("feat".toList), some ("ui".toList), "add button".toList, some ("12".toList)⟩ := by
  rfl

example : parse_commit_message ("fix: a  (#2)".toList) =
    ⟨some ("fix".toList), none, "a".toList, some ("2".toList)⟩ := by
  rfl

example : parse_commit_message ("free text".toList) =
    ⟨none, none, "free text".toList, none⟩ := by
  rfl

/-! ### Lemmas about `prTail` and `lazyTextSplit` -/

theorem prTail_sound {l n : List Char} (h : prTail l = some n) :
    ∃ sp, sp ≠ [] ∧ AllSpace sp ∧ n ≠ [] ∧ AllDigit n ∧
      l = sp ++ '(' :: '#' :: (n ++ [')']) := by
  unfold prTail at h
  split at h
  · exact absurd h (by simp)
  · rename_i hspe
    split at h
    · rename_i c1 c2 r2 hE
      split at h
      · rename_i hc
        split at h
        · exact absurd h (by simp)
        · rename_i hde
          split at h
          · rename_i hr3
            have hn : n = r2.takeWhile isDigitChar := by
              cases h; rfl
            have hr2 : r2 = n ++ [')'] := by
              rw [hn, ← hr3]
              exact (List.takeWhile_append_dropWhile isDigitChar r2).symm
            refine ⟨l.takeWhile isSpaceChar, ?_, allTakeWhile isSpaceChar l, ?_,
                    by rw [hn]; exact allTakeWhile isDigitChar r2, ?_⟩
            · simpa [List.isEmpty_iff] using hspe
            · rw [hn]; simpa [List.isEmpty_iff] using hde
            · calc l = l.takeWhile isSpaceChar ++ l.dropWhile isSpaceChar :=
                    (List.takeWhile_append_dropWhile isSpaceChar l).symm
                _ = l.takeWhile isSpaceChar ++ c1 :: c2 :: r2 := by rw [hE]
                _ = l.takeWhile isSpaceChar ++ '(' :: '#' :: (n ++ [')']) := by
                    rw [hc.1, hc.2, hr2]
          · exact absurd h (by simp)
      · exact absurd h (by simp)
    · exact absurd h (by simp)

theorem prTail_complete {sp n : List Char} (hsp : sp ≠ []) (hsps : AllSpace sp)
    (hn : n ≠ []) (hnd : AllDigit n) :
    prTail (sp ++ '(' :: '#' :: (n ++ [')'])) = some n := by
  have hb : ∀ c : Char, ('(' :: '#' :: (n ++ [')'])).head? = some c → isSpaceChar c = false := by
    intro c hc
    simp only [List.head?_cons, Option.some.injEq] at hc
    subst hc; decide
  obtain ⟨h1, h2⟩ := takeWhile_app isSpaceChar sp ('(' :: '#' :: (n ++ [')'])) hsps hb
  have hd : ∀ c : Char, ([')'] : List Char).head? = some c → isDigitChar c = false := by
    intro c hc
    simp only [List.head?_cons, Option.some.injEq] at hc
    subst hc; decide
  obtain ⟨h3, h4⟩ := takeWhile_app isDigitChar n [')'] hnd hd
  have hspe : sp.isEmpty = false := by simpa [List.isEmpty_iff] using hsp
  have hne : n.isEmpty = false := by simpa [List.isEmpty_iff] using hn
  unfold prTail
  rw [h1, h2]
  simp only [hspe, Bool.false_eq_true, if_false]
  rw [h3, h4]
  simp [hspe, hne]

theorem lazyTextSplit_sound :
    ∀ (r acc x : List Char) (pr : Option (List Char)),
    lazyTextSplit acc r = some (x, pr) →
    ∃ x0, x0 ≠ [] ∧ x = acc ++ x0 ∧ SuffixFor pr r x0 := by
  intro r
  induction r with
  | nil => intro acc x pr h; simp [lazyTextSplit] at h
  | cons c rest ih =>
    intro acc x pr h
    unfold lazyTextSplit at h
    rcases hpt : prTail rest with _ | ds
    · rw [hpt] at h
      simp only [] at h
      by_cases hre : rest.isEmpty
      · rw [if_pos hre] at h
        have hrnil : rest = [] := List.isEmpty_iff.mp hre
        cases h
        exact ⟨[c], by simp, rfl, by simp [SuffixFor, hrnil]⟩
      · rw [if_neg hre] at h
        obtain ⟨x0, hx0ne, hx0, hsf⟩ := ih (acc ++ [c]) x pr h
        refine ⟨c :: x0, by simp, by simpa using hx0, ?_⟩
        cases pr with
        | none =>
          simp only [SuffixFor] at hsf ⊢
          rw [hsf]
        | some n =>
          simp only [SuffixFor] at hsf ⊢
          obtain ⟨sp, h1, h2, h3, h4, h5⟩ := hsf
          exact ⟨sp, h1, h2, h3, h4, by rw [h5]; simp⟩
    · rw [hpt] at h
      simp only [Option.some.injEq, Prod.mk.injEq] at h
      obtain ⟨hx, hpr⟩ := h
      obtain ⟨sp, h1, h2, h3, h4, h5⟩ := prTail_sound hpt
      refine ⟨[c], by simp, hx.symm, ?_⟩
      rw [← hpr]
      simp only [SuffixFor]
      exact ⟨sp, h1, h2, h3, h4, by rw [h5]; simp⟩

theorem lazyTextSplit_total :
    ∀ (r acc : List Char), r ≠ [] → ∃ v, lazyTextSplit acc r = some v := by
  intro r
  induction r with
  | nil => intro acc h; exact absurd rfl h
  | cons c rest ih =>
    intro acc _
    unfold lazyTextSplit
    rcases hpt : prTail rest with _ | ds
    · by_cases hre : rest.isEmpty
      · exact ⟨(acc ++ [c], none), by rw [if_pos hre]⟩
      · obtain ⟨v, hv⟩ := ih (acc ++ [c]) (by simpa [List.isEmpty_iff] using hre)
        exact ⟨v, by rw [if_neg hre]; exact hv⟩
    · exact ⟨(acc ++ [c], some ds), rfl⟩

theorem lazyTextSplit_suffix :
    ∀ (x0 acc sp n : List Char), x0 ≠ [] → sp ≠ [] → AllSpace sp → n ≠ [] → AllDigit n →
    ∃ x2 n2, lazyTextSplit acc (x0 ++ sp ++ '(' :: '#' :: (n ++ [')'])) = some (x2, some n2) := by
  intro x0
  induction x0 with
  | nil => intro acc sp n h; exact absurd rfl h
  | cons c x0' ih =>
    intro acc sp n _ hsp hsps hn hnd
    simp only [List.cons_append]
    unfold lazyTextSplit
    rcases hpt : prTail (x0' ++ sp ++ '(' :: '#' :: (n ++ [')'])) with _ | ds
    · cases x0' with
      | nil =>
        exfalso
        rw [List.nil_append] at hpt
        rw [prTail_complete hsp hsps hn hnd] at hpt
        exact Option.noConfusion hpt
      | cons c' x0'' =>
        exact ih (acc ++ [c]) sp n (by simp) hsp hsps hn hnd
    · exact ⟨acc ++ [c], ds, rfl⟩

theorem lastDigitsRun_suffix (a n : List Char) (hnd : AllDigit n) :
    lastDigitsRun (a ++ '(' :: '#' :: (n ++ [')'])) = n := by
  have h1 : (a ++ '(' :: '#' :: (n ++ [')'])).reverse
      = ')' :: (n.reverse ++ ('#' :: '(' :: a.reverse)) := by
    simp
  have hrd : ∀ c ∈ n.reverse, isDigitChar c = true := by
    intro c hc
    exact hnd c (List.mem_reverse.mp hc)
  have hb : ∀ c : Char, (('#' : Char) :: '(' :: a.reverse).head? = some c →
      isDigitChar c = false := by
    intro c hc
    simp only [List.head?_cons, Option.some.injEq] at hc
    subst hc; decide
  obtain ⟨h2, _⟩ := takeWhile_app isDigitChar n.reverse ('#' :: '(' :: a.reverse) hrd hb
  unfold lastDigitsRun
  rw [h1]
  simp only [List.tail_cons]
  rw [h2, List.reverse_reverse]

theorem suffix_digits_unique {a b sp1 sp2 n1 n2 : List Char}
    (h1 : AllDigit n1) (h2 : AllDigit n2)
    (heq : a ++ sp1 ++ '(' :: '#' :: (n1 ++ [')']) = b ++ sp2 ++ '(' :: '#' :: (n2 ++ [')'])) :
    n1 = n2 := by
  have e1 : lastDigitsRun (a ++ sp1 ++ '(' :: '#' :: (n1 ++ [')'])) = n1 :=
    lastDigitsRun_suffix (a ++ sp1) n1 h1
  have e2 : lastDigitsRun (b ++ sp2 ++ '(' :: '#' :: (n2 ++ [')'])) = n2 :=
    lastDigitsRun_suffix (b ++ sp2) n2 h2
  rw [← e1, ← e2, heq]

/-! ### Soundness and completeness of the two format matchers -/

theorem matchScoped_sound {s t sc x : List Char} {pr : Option (List Char)}
    (h : matchScoped s = some (t, sc, x, pr)) : ScopedShape s t sc x pr := by
  unfold matchScoped at h
  split at h
  · exact absurd h (by simp)
  · rename_i hspe
    split at h
    · rename_i c0 r2 hE
      split at h
      · rename_i hc0
        split at h
        · exact absurd h (by simp)
        · rename_i hsce
          split at h
          · rename_i c1 c2 c3 r4 hE3
            split at h
            · rename_i hc3
              rcases hlts : lazyTextSplit [] r4 with _ | ⟨x', pr'⟩
              · rw [hlts] at h; exact absurd h (by simp)
              · rw [hlts] at h
                simp only [Option.map_some', Option.some.injEq, Prod.mk.injEq] at h
                obtain ⟨ht, hsc, hx, hpr⟩ := h
                obtain ⟨x0, hx0ne, hx0, hsf⟩ := lazyTextSplit_sound r4 [] x' pr' hlts
                rw [List.nil_append] at hx0
                subst hx0
                refine ⟨?_, ?_, ?_, ?_, ?_, ?_⟩
                · rw [← ht]; simpa [List.isEmpty_iff] using hspe
                · rw [← ht]; exact allTakeWhile isWordChar s
                · rw [← hsc]; simpa [List.isEmpty_iff] using hsce
                · rw [← hsc]
                  intro c hc
                  have := allTakeWhile (fun c => !(c == ')')) r2 c hc
                  simpa using this
                · rw [← hx]; exact hx0ne
                · refine ⟨r4, by rw [← hx, ← hpr]; exact hsf, ?_⟩
                  have hs1 : s = s.takeWhile isWordChar ++ s.dropWhile isWordChar :=
                    (List.takeWhile_append_dropWhile isWordChar s).symm
                  have hr2 : r2 = r2.takeWhile (fun c => !(c == ')')) ++
                      ')' :: ':' :: ' ' :: r4 := by
                    conv_lhs => rw [← List.takeWhile_append_dropWhile (fun c => !(c == ')')) r2]
                    rw [hE3, hc3.1, hc3.2.1, hc3.2.2]
                  rw [← ht, ← hsc]
                  calc s = s.takeWhile isWordChar ++ s.dropWhile isWordChar := hs1
                    _ = s.takeWhile isWordChar ++ c0 :: r2 := by rw [hE]
                    _ = s.takeWhile isWordChar ++ '(' :: r2 := by rw [hc0]
                    _ = s.takeWhile isWordChar ++
                        '(' :: (r2.takeWhile (fun c => !(c == ')')) ++ ')' :: ':' :: ' ' :: r4) := by
                      conv_lhs => rw [hr2]
            · exact absurd h (by simp)
          · exact absurd h (by simp)
      · exact absurd h (by simp)
    · exact absurd h (by simp)

theorem matchUnscoped_sound {s t x : List Char} {pr : Option (List Char)}
    (h : matchUnscoped s = some (t, x, pr)) : UnscopedShape s t x pr := by
  unfold matchUnscoped at h
  split at h
  · exact absurd h (by simp)
  · rename_i hspe
    split at h
    · rename_i c1 c2 r2 hE
      split at h
      · rename_i hc
        rcases hlts : lazyTextSplit [] r2 with _ | ⟨x', pr'⟩
        · rw [hlts] at h; exact absurd h (by simp)
        · rw [hlts] at h
          simp only [Option.map_some', Option.some.injEq, Prod.mk.injEq] at h
          obtain ⟨ht, hx, hpr⟩ := h
          obtain ⟨x0, hx0ne, hx0, hsf⟩ := lazyTextSplit_sound r2 [] x' pr' hlts
          rw [List.nil_append] at hx0
          subst hx0
          refine ⟨?_, ?_, ?_, ?_⟩
          · rw [← ht]; simpa [List.isEmpty_iff] using hspe
          · rw [← ht]; exact allTakeWhile isWordChar s
          · rw [← hx]; exact hx0ne
          · refine ⟨r2, by rw [← hx, ← hpr]; exact hsf, ?_⟩
            have hs1 : s = s.takeWhile isWordChar ++ s.dropWhile isWordChar :=
              (List.takeWhile_append_dropWhile isWordChar s).symm
            rw [hs1, hE, hc.1, hc.2, ← ht]
      · exact absurd h (by simp)
    · exact absurd h (by simp)

theorem matchScoped_eval {s ty sc rest0 : List Char}
    (hty : ty ≠ []) (hsc : sc ≠ [])
    (h1 : s.takeWhile isWordChar = ty)
    (h3 : s.dropWhile isWordChar = '(' :: (sc ++ ')' :: ':' :: ' ' :: rest0))
    (h4 : (sc ++ ')' :: ':' :: ' ' :: rest0).takeWhile (fun c => !(c == ')')) = sc)
    (h6 : (sc ++ ')' :: ':' :: ' ' :: rest0).dropWhile (fun c => !(c == ')')) =
      ')' :: ':' :: ' ' :: rest0) :
    matchScoped s = (lazyTextSplit [] rest0).map (fun tp => (ty, sc, tp.1, tp.2)) := by
  have hne : ty.isEmpty = false := by simpa [List.isEmpty_iff] using hty
  have hsne : sc.isEmpty = false := by simpa [List.isEmpty_iff] using hsc
  unfold matchScoped
  rw [h1, h3]
  simp [hne, hsne, h4, h6]

theorem matchUnscoped_eval {s ty rest0 : List Char} (hty : ty ≠ [])
    (h1 : s.takeWhile isWordChar = ty)
    (h3 : s.dropWhile isWordChar = ':' :: ' ' :: rest0) :
    matchUnscoped s = (lazyTextSplit [] rest0).map (fun tp => (ty, tp.1, tp.2)) := by
  have hne : ty.isEmpty = false := by simpa [List.isEmpty_iff] using hty
  unfold matchUnscoped
  rw [h1, h3]
  simp [hne]

theorem scopedShape_proj {s ty sc x : List Char} {pr : Option (List Char)}
    (h : ScopedShape s ty sc x pr) :
    s.takeWhile isWordChar = ty ∧
    ∃ rest0, SuffixFor pr rest0 x ∧
      s.dropWhile isWordChar = '(' :: (sc ++ ')' :: ':' :: ' ' :: rest0) ∧
      (sc ++ ')' :: ':' :: ' ' :: rest0).takeWhile (fun c => !(c == ')')) = sc ∧
      (sc ++ ')' :: ':' :: ' ' :: rest0).dropWhile (fun c => !(c == ')')) =
        ')' :: ':' :: ' ' :: rest0 := by
  obtain ⟨hty, htyw, hsc, hscc, hx, rest0, hsf, hs⟩ := h
  have hw : ∀ c : Char, (('(' :: (sc ++ ')' :: ':' :: ' ' :: rest0) : List Char)).head? = some c →
      isWordChar c = false := by
    intro c hc
    simp only [List.head?_cons, Option.some.injEq] at hc
    subst hc; decide
  obtain ⟨ht1, ht2⟩ := takeWhile_app isWordChar ty ('(' :: (sc ++ ')' :: ':' :: ' ' :: rest0)) htyw hw
  have hscp : ∀ c ∈ sc, (fun c => !(c == ')')) c = true := by
    intro c hc
    simpa using hscc c hc
  have hrp : ∀ c : Char, ((')' :: ':' :: ' ' :: rest0 : List Char)).head? = some c →
      (fun c => !(c == ')')) c = false := by
    intro c hc
    simp only [List.head?_cons, Option.some.injEq] at hc
    subst hc; simp
  obtain ⟨ht4, ht6⟩ := takeWhile_app (fun c => !(c == ')')) sc (')' :: ':' :: ' ' :: rest0) hscp hrp
  subst hs
  exact ⟨ht1, rest0, hsf, ht2, ht4, ht6⟩

theorem unscopedShape_proj {s ty x : List Char} {pr : Option (List Char)}
    (h : UnscopedShape s ty x pr) :
    s.takeWhile isWordChar = ty ∧
    ∃ rest0, SuffixFor pr rest0 x ∧ s.dropWhile isWordChar = ':' :: ' ' :: rest0 := by
  obtain ⟨hty, htyw, hx, rest0, hsf, hs⟩ := h
  have hw : ∀ c : Char, ((':' :: ' ' :: rest0 : List Char)).head? = some c →
      isWordChar c = false := by
    intro c hc
    simp only [List.head?_cons, Option.some.injEq] at hc
    subst hc; decide
  obtain ⟨ht1, ht2⟩ := takeWhile_app isWordChar ty (':' :: ' ' :: rest0) htyw hw
  subst hs
  exact ⟨ht1, rest0, hsf, ht2⟩

theorem matchScoped_none_of_colon {s : List Char} {r : List Char}
    (h3 : s.dropWhile isWordChar = ':' :: r) : matchScoped s = none := by
  unfold matchScoped
  rw [h3]
  simp

theorem rest0_ne_nil {pr : Option (List Char)} {rest0 x : List Char}
    (hx : x ≠ []) (hsf : SuffixFor pr rest0 x) : rest0 ≠ [] := by
  cases pr with
  | none => simp only [SuffixFor] at hsf; rw [hsf]; exact hx
  | some n =>
    simp only [SuffixFor] at hsf
    obtain ⟨sp, _, _, _, _, h5⟩ := hsf
    rw [h5]
    simp

theorem parse_eq_scoped {s t sc x : List Char} {pr : Option (List Char)}
    (h : matchScoped s = some (t, sc, x, pr)) :
    parse_commit_message s = ⟨some t, some sc, x, pr⟩ := by
  unfold parse_commit_message
  rw [h]

theorem parse_eq_unscoped {s t x : List Char} {pr : Option (List Char)}
    (h0 : matchScoped s = none) (h : matchUnscoped s = some (t, x, pr)) :
    parse_commit_message s = ⟨some t, none, x, pr⟩ := by
  unfold parse_commit_message
  rw [h0, h]

theorem parse_eq_fallback {s : List Char} (h0 : matchScoped s = none)
    (h : matchUnscoped s = none) : parse_commit_message s = ⟨none, none, s, none⟩ := by
  unfold parse_commit_message
  rw [h0, h]

theorem matchScoped_of_shape {s ty sc x : List Char} {pr : Option (List Char)}
    (h : ScopedShape s ty sc x pr) :
    ∃ x2 pr2, matchScoped s = some (ty, sc, x2, pr2) := by
  obtain ⟨hp1, rest0, hsf, hp3, hp4, hp6⟩ := scopedShape_proj h
  have heval := matchScoped_eval h.1 h.2.2.1 hp1 hp3 hp4 hp6
  have hrne : rest0 ≠ [] := rest0_ne_nil h.2.2.2.2.1 hsf
  obtain ⟨⟨x2, pr2⟩, hlts⟩ := lazyTextSplit_total rest0 [] hrne
  exact ⟨x2, pr2, by rw [heval, hlts]; rfl⟩

theorem matchUnscoped_of_shape {s ty x : List Char} {pr : Option (List Char)}
    (h : UnscopedShape s ty x pr) :
    matchScoped s = none ∧ ∃ x2 pr2, matchUnscoped s = some (ty, x2, pr2) := by
  obtain ⟨hp1, rest0, hsf, hp3⟩ := unscopedShape_proj h
  have hnone : matchScoped s = none := matchScoped_none_of_colon hp3
  have heval := matchUnscoped_eval h.1 hp1 hp3
  have hrne : rest0 ≠ [] := rest0_ne_nil h.2.2.1 hsf
  obtain ⟨⟨x2, pr2⟩, hlts⟩ := lazyTextSplit_total rest0 [] hrne
  exact ⟨hnone, x2, pr2, by rw [heval, hlts]; rfl⟩

theorem matchScoped_of_shape_pr {s ty sc x n : List Char}
    (h : ScopedShape s ty sc x (some n)) :
    ∃ x2, matchScoped s = some (ty, sc, x2, some n) := by
  obtain ⟨hp1, rest0, hsf, hp3, hp4, hp6⟩ := scopedShape_proj h
  have heval := matchScoped_eval h.1 h.2.2.1 hp1 hp3 hp4 hp6
  obtain ⟨sp, hsp, hsps, hn, hnd, hr0⟩ := hsf
  obtain ⟨x2, n2, hlts⟩ :=
    lazyTextSplit_suffix x [] sp n h.2.2.2.2.1 hsp hsps hn hnd
  rw [← hr0] at hlts
  obtain ⟨x0', _, _, hsf2⟩ := lazyTextSplit_sound rest0 [] x2 (some n2) hlts
  obtain ⟨sp', _, _, _, hn2d, hr0'⟩ := hsf2
  have hnn : n2 = n :=
    suffix_digits_unique hn2d hnd (hr0'.symm.trans hr0)
  subst hnn
  exact ⟨x2, by rw [heval, hlts]; rfl⟩

theorem matchUnscoped_of_shape_pr {s ty x n : List Char}
    (h : UnscopedShape s ty x (some n)) :
    matchScoped s = none ∧ ∃ x2, matchUnscoped s = some (ty, x2, some n) := by
  obtain ⟨hp1, rest0, hsf, hp3⟩ := unscopedShape_proj h
  have hnone : matchScoped s = none := matchScoped_none_of_colon hp3
  have heval := matchUnscoped_eval h.1 hp1 hp3
  obtain ⟨sp, hsp, hsps, hn, hnd, hr0⟩ := hsf
  obtain ⟨x2, n2, hlts⟩ :=
    lazyTextSplit_suffix x [] sp n h.2.2.1 hsp hsps hn hnd
  rw [← hr0] at hlts
  obtain ⟨x0', _, _, hsf2⟩ := lazyTextSplit_sound rest0 [] x2 (some n2) hlts
  obtain ⟨sp', _, _, _, hn2d, hr0'⟩ := hsf2
  have hnn : n2 = n :=
    suffix_digits_unique hn2d hnd (hr0'.symm.trans hr0)
  subst hnn
  exact ⟨hnone, x2, by rw [heval, hlts]; rfl⟩

/-- C1: for every single-line commit subject, `parse_commit_message` recognises
exactly the two regex shapes.  Soundness: a result with a scope satisfies the
scoped shape `type(scope): text (#N)` (suffix optional), a result without a
scope satisfies the unscoped shape `type: text (#N)`, and when neither shape
is satisfiable the parser returns a null type, no scope, no PR number and the
original subject.  Completeness and priority: a subject satisfying the scoped
shape parses as scoped (so the scoped form wins), with exactly the PR number N
of the shape; symmetrically for the unscoped shape; and whenever the shape
decomposition of the subject is unique, the parser returns exactly that type,
scope, text and N. -/
theorem C1_parse_commit_message_spec (s : List Char) :
    (∀ t sc x pr, parse_commit_message s = ⟨some t, some sc, x, pr⟩ → ScopedShape s t sc x pr)
    ∧ (∀ t x pr, parse_commit_message s = ⟨some t, none, x, pr⟩ → UnscopedShape s t x pr)
    ∧ ((¬ ∃ t sc x pr, ScopedShape s t sc x pr) → (¬ ∃ t x pr, UnscopedShape s t x pr) →
        parse_commit_message s = ⟨none, none, s, none⟩)
    ∧ (∀ t sc x pr, ScopedShape s t sc x pr →
        ∃ x2 pr2, parse_commit_message s = ⟨some t, some sc, x2, pr2⟩)
    ∧ (∀ t sc x n, ScopedShape s t sc x (some n) →
        ∃ x2, parse_commit_message s = ⟨some t, some sc, x2, some n⟩)
    ∧ (∀ t sc x pr, ScopedShape s t sc x pr →
        (∀ x2 pr2, ScopedShape s t sc x2 pr2 → x2 = x ∧ pr2 = pr) →
        parse_commit_message s = ⟨some t, some sc, x, pr⟩)
    ∧ (∀ t x pr, UnscopedShape s t x pr →
        ∃ x2 pr2, parse_commit_message s = ⟨some t, none, x2, pr2⟩)
    ∧ (∀ t x n, UnscopedShape s t x (some n) →
        ∃ x2, parse_commit_message s = ⟨some t, none, x2, some n⟩)
    ∧ (∀ t x pr, UnscopedShape s t x pr →
        (∀ x2 pr2, UnscopedShape s t x2 pr2 → x2 = x ∧ pr2 = pr) →
        parse_commit_message s = ⟨some t, none, x, pr⟩) := by
  refine ⟨?_, ?_, ?_, ?_, ?_, ?_, ?_, ?_, ?_⟩
  · intro t sc x pr h
    rcases hms : matchScoped s with _ | ⟨t', sc', x', pr'⟩
    · rcases hmu : matchUnscoped s with _ | ⟨t', x', pr'⟩
      · rw [parse_eq_fallback hms hmu] at h
        simp at h
      · rw [parse_eq_unscoped hms hmu] at h
        simp at h
    · rw [parse_eq_scoped hms] at h
      simp only [ParsedMsg.mk.injEq, Option.some.injEq] at h
      obtain ⟨h1, h2, h3, h4⟩ := h
      rw [← h1, ← h2, ← h3, ← h4]
      exact matchScoped_sound hms
  · intro t x pr h
    rcases hms : matchScoped s with _ | ⟨t', sc', x', pr'⟩
    · rcases hmu : matchUnscoped s with _ | ⟨t', x', pr'⟩
      · rw [parse_eq_fallback hms hmu] at h
        simp at h
      · rw [parse_eq_unscoped hms hmu] at h
        simp only [ParsedMsg.mk.injEq, Option.some.injEq] at h
        obtain ⟨h1, _, h3, h4⟩ := h
        rw [← h1, ← h3, ← h4]
        exact matchUnscoped_sound hmu
    · rw [parse_eq_scoped hms] at h
      simp at h
  · intro hns hnu
    rcases hms : matchScoped s with _ | ⟨t', sc', x', pr'⟩
    · rcases hmu : matchUnscoped s with _ | ⟨t', x', pr'⟩
      · exact parse_eq_fallback hms hmu
      · exact absurd ⟨t', x', pr', matchUnscoped_sound hmu⟩ hnu
    · exact absurd ⟨t', sc', x', pr', matchScoped_sound hms⟩ hns
  · intro t sc x pr h
    obtain ⟨x2, pr2, hm⟩ := matchScoped_of_shape h
    exact ⟨x2, pr2, parse_eq_scoped hm⟩
  · intro t sc x n h
    obtain ⟨x2, hm⟩ := matchScoped_of_shape_pr h
    exact ⟨x2, parse_eq_scoped hm⟩
  · intro t sc x pr h huniq
    obtain ⟨x2, pr2, hm⟩ := matchScoped_of_shape h
    have hshape2 := matchScoped_sound hm
    obtain ⟨hx2, hpr2⟩ := huniq x2 pr2 hshape2
    rw [← hx2, ← hpr2]
    exact parse_eq_scoped hm
  · intro t x pr h
    obtain ⟨hnone, x2, pr2, hm⟩ := matchUnscoped_of_shape h
    exact ⟨x2, pr2, parse_eq_unscoped hnone hm⟩
  · intro t x n h
    obtain ⟨hnone, x2, hm⟩ := matchUnscoped_of_shape_pr h
    exact ⟨x2, parse_eq_unscoped hnone hm⟩
  · intro t x pr h huniq
    obtain ⟨hnone, x2, pr2, hm⟩ := matchUnscoped_of_shape h
    have hshape2 := matchUnscoped_sound hm
    obtain ⟨hx2, hpr2⟩ := huniq x2 pr2 hshape2
    rw [← hx2, ← hpr2]
    exact parse_eq_unscoped hnone hm

/-- Witness for C1: the soundness conjunct applied at the concrete subject
"feat(ui): add button (#12)", whose parse is computed by rfl. -/
theorem C1_parse_commit_message_spec_witness :
    ScopedShape ("feat(ui): add button (#12)".toList) ("feat".toList) ("ui".toList)
      ("add button".toList) (some ("12".toList)) :=
  (C1_parse_commit_message_spec ("feat(ui): add button (#12)".toList)).1
    ("feat".toList) ("ui".toList) ("add button".toList) (some ("12".toList)) rfl

/-! ### Lemmas about the findall scan -/

theorem stripPref_sound : ∀ {p l r : List Char}, stripPref p l = some r → l = p ++ r := by
  intro p
  induction p with
  | nil => intro l r h; cases h; rfl
  | cons a ps ih =>
    intro l r h
    cases l with
    | nil => exact absurd h (by simp [stripPref])
    | cons c cs =>
      unfold stripPref at h
      by_cases hac : a = c
      · rw [if_pos hac] at h
        rw [List.cons_append, ← ih h, hac]
      · rw [if_neg hac] at h
        exact absurd h (by simp)

theorem stripPref_complete : ∀ (p r : List Char), stripPref p (p ++ r) = some r := by
  intro p
  induction p with
  | nil => intro r; rfl
  | cons a ps ih =>
    intro r
    unfold stripPref
    simp only [List.cons_append, if_pos rfl]
    exact ih r

theorem matchIssueAt_sound {p l m rest : List Char}
    (h : matchIssueAt p l = some (m, rest)) :
    ∃ ds, ds ≠ [] ∧ AllDigit ds ∧ m = p ++ ds ∧ l = p ++ ds ++ rest ∧
      (∀ c, rest.head? = some c → isDigitChar c = false) := by
  unfold matchIssueAt at h
  split at h
  · exact absurd h (by simp)
  · rename_i r hsp
    split at h
    · exact absurd h (by simp)
    · rename_i hde
      simp only [Option.some.injEq, Prod.mk.injEq] at h
      obtain ⟨hm, hrest⟩ := h
      refine ⟨r.takeWhile isDigitChar, by simpa [List.isEmpty_iff] using hde,
        allTakeWhile isDigitChar r, hm.symm, ?_, ?_⟩
      · rw [stripPref_sound hsp, ← hrest, List.append_assoc,
          List.takeWhile_append_dropWhile]
      · intro c hc
        rw [← hrest] at hc
        exact dropWhileHead isDigitChar r c hc

theorem matchIssueAt_eval {p ds v : List Char} (hds : ds ≠ []) (hdsd : AllDigit ds)
    (hv : ∀ c, v.head? = some c → isDigitChar c = false) :
    matchIssueAt p (p ++ ds ++ v) = some (p ++ ds, v) := by
  obtain ⟨h1, h2⟩ := takeWhile_app isDigitChar ds v hdsd hv
  unfold matchIssueAt
  rw [List.append_assoc, stripPref_complete]
  show (if ((ds ++ v).takeWhile isDigitChar).isEmpty = true then none
        else some (p ++ (ds ++ v).takeWhile isDigitChar, (ds ++ v).dropWhile isDigitChar)) =
      some (p ++ ds, v)
  rw [h1, h2]
  have hne : ds.isEmpty = false := by simpa [List.isEmpty_iff] using hds
  simp [hne]

theorem prefix_of_prefix_len (l a b ta tb : List Char)
    (hA : a ++ ta = l) (hB : b ++ tb = l) (hlen : a.length ≤ b.length) :
    ∃ u2, b = a ++ u2 := by
  have h1 : a = l.take a.length := by rw [← hA, List.take_left]
  have h2 : b = l.take b.length := by rw [← hB, List.take_left]
  have h3 : a = b.take a.length := by
    rw [h2, List.take_take, min_eq_left hlen]
    exact h1
  refine ⟨b.drop a.length, ?_⟩
  conv_lhs => rw [← List.take_append_drop a.length b]
  rw [← h3]

theorem occ_not_straddle {p ds0 rest0 u ds v : List Char}
    (hp : p ≠ []) (hpnd : ∀ c ∈ p, isDigitChar c = false)
    (hds0 : ds0 ≠ []) (hds0d : AllDigit ds0)
    (hds : ds ≠ []) (hdsd : AllDigit ds) (hu : u ≠ [])
    (heq : u ++ (p ++ ds) ++ v = p ++ ds0 ++ rest0) :
    ∃ u2, u = (p ++ ds0) ++ u2 ∧ rest0 = u2 ++ (p ++ ds) ++ v := by
  have E : u ++ (p ++ (ds ++ v)) = p ++ (ds0 ++ rest0) := by
    simpa only [List.append_assoc] using heq
  have hulen : 1 ≤ u.length := by
    cases u with
    | nil => exact absurd rfl hu
    | cons a t => simp
  have hlen : p.length + ds0.length ≤ u.length := by
    by_contra hlt
    push_neg at hlt
    rcases Nat.lt_or_ge u.length p.length with hc1 | hc2
    · have hAside : (p ++ (ds0 ++ rest0)).get? p.length = (ds0 ++ rest0).get? 0 := by
        rw [List.get?_append_right (le_refl p.length)]
        simp
      have hBside : (u ++ (p ++ (ds ++ v))).get? p.length =
          (p ++ (ds ++ v)).get? (p.length - u.length) := by
        rw [List.get?_append_right (Nat.le_of_lt hc1)]
      have hBp : (p ++ (ds ++ v)).get? (p.length - u.length) = p.get? (p.length - u.length) := by
        rw [List.get?_append]
        exact Nat.sub_lt_of_pos_le hulen (Nat.le_of_lt hc1)
      have hEq := congrArg (fun l => l.get? p.length) E
      simp only at hEq
      rw [hBside, hBp, hAside] at hEq
      cases ds0 with
      | nil => exact absurd rfl hds0
      | cons d0 dt =>
        rcases hpg : p.get? (p.length - u.length) with _ | c
        · rw [hpg] at hEq; simp at hEq
        · rw [hpg] at hEq
          simp only [List.cons_append, List.get?_cons_zero, Option.some.injEq] at hEq
          have hcd : isDigitChar c = false := hpnd c (List.get?_mem hpg)
          have hdd : isDigitChar d0 = true := hds0d d0 (by simp)
          rw [hEq, hdd] at hcd
          exact absurd hcd (by simp)
    · have hAside : (p ++ (ds0 ++ rest0)).get? u.length =
          (ds0 ++ rest0).get? (u.length - p.length) := by
        rw [List.get?_append_right hc2]
      have hAds : (ds0 ++ rest0).get? (u.length - p.length) =
          ds0.get? (u.length - p.length) := by
        rw [List.get?_append]
        exact Nat.sub_lt_left_of_lt_add hc2 hlt
      have hBside : (u ++ (p ++ (ds ++ v))).get? u.length = (p ++ (ds ++ v)).get? 0 := by
        rw [List.get?_append_right (le_refl u.length)]
        simp
      have hEq := congrArg (fun l => l.get? u.length) E
      simp only at hEq
      rw [hBside, hAside, hAds] at hEq
      cases p with
      | nil => exact absurd rfl hp
      | cons p0 pt =>
        rcases hdg : ds0.get? (u.length - (p0 :: pt).length) with _ | c
        · rw [hdg] at hEq; simp at hEq
        · rw [hdg] at hEq
          simp only [List.cons_append, List.get?_cons_zero, Option.some.injEq] at hEq
          have hcd : isDigitChar c = true := hds0d c (List.get?_mem hdg)
          have hp0 : isDigitChar p0 = false := hpnd p0 (by simp)
          rw [hEq, hcd] at hp0
          exact absurd hp0 (by simp)
  have hA2 : (p ++ ds0) ++ rest0 = p ++ (ds0 ++ rest0) := List.append_assoc p ds0 rest0
  obtain ⟨u2, hu2⟩ := prefix_of_prefix_len (p ++ (ds0 ++ rest0)) (p ++ ds0) u rest0
    (p ++ (ds ++ v)) hA2 E (by simpa using hlen)
  refine ⟨u2, hu2, ?_⟩
  rw [hu2] at E
  have E2 : p ++ (ds0 ++ (u2 ++ (p ++ (ds ++ v)))) = p ++ (ds0 ++ rest0) := by
    rw [← E]
    simp [List.append_assoc]
  have E3 := List.append_cancel_left E2
  have E4 := List.append_cancel_left E3
  rw [← E4]
  simp [List.append_assoc]

theorem findAllAux_sound (p : List Char) :
    ∀ fuel l x, l.length ≤ fuel → x ∈ findAllAux p fuel l →
    ∃ ds u v, ds ≠ [] ∧ AllDigit ds ∧ x = p ++ ds ∧ l = u ++ (p ++ ds) ++ v ∧
      (∀ c, v.head? = some c → isDigitChar c = false) := by
  intro fuel
  induction fuel with
  | zero => intro l x _ hx; simp [findAllAux] at hx
  | succ n ih =>
    intro l x hf hx
    cases l with
    | nil => simp [findAllAux] at hx
    | cons c cs =>
      unfold findAllAux at hx
      split at hx
      · rename_i m rest hm
        obtain ⟨ds0, hds0, hds0d, hmm, hldec, hrh⟩ := matchIssueAt_sound hm
        rcases List.mem_cons.mp hx with hxm | hxr
        · refine ⟨ds0, [], rest, hds0, hds0d, by rw [hxm, hmm], ?_, hrh⟩
          rw [hldec]; simp
        · have hlen1 := congrArg List.length hldec
          simp only [List.length_cons, List.length_append] at hlen1
          have hds0len : 1 ≤ ds0.length := by
            cases ds0 with
            | nil => exact absurd rfl hds0
            | cons a t => simp
          simp only [List.length_cons] at hf
          have hrlen : rest.length ≤ n := by omega
          obtain ⟨ds, u, v, h1, h2, h3, h4, h5⟩ := ih rest x hrlen hxr
          refine ⟨ds, (p ++ ds0) ++ u, v, h1, h2, h3, ?_, h5⟩
          rw [hldec, h4]
          simp [List.append_assoc]
      · rename_i hm
        simp only [List.length_cons] at hf
        have hclen : cs.length ≤ n := by omega
        obtain ⟨ds, u, v, h1, h2, h3, h4, h5⟩ := ih cs x hclen hx
        refine ⟨ds, c :: u, v, h1, h2, h3, ?_, h5⟩
        rw [h4]
        simp

theorem findAllAux_complete (p : List Char) (hp : p ≠ [])
    (hpnd : ∀ c ∈ p, isDigitChar c = false) :
    ∀ fuel l u ds v, l.length ≤ fuel → ds ≠ [] → AllDigit ds →
    l = u ++ (p ++ ds) ++ v →
    (∀ c, v.head? = some c → isDigitChar c = false) →
    (p ++ ds) ∈ findAllAux p fuel l := by
  intro fuel
  induction fuel with
  | zero =>
    intro l u ds v hf hds _ hl _
    exfalso
    rw [hl] at hf
    cases ds with
    | nil => exact absurd rfl hds
    | cons a t => simp at hf
  | succ n ih =>
    intro l u ds v hf hds hdsd hl hv
    cases l with
    | nil =>
      exfalso
      cases ds with
      | nil => exact absurd rfl hds
      | cons a t =>
        have h2 := hl
        simp at h2
    | cons c cs =>
      unfold findAllAux
      rcases hm : matchIssueAt p (c :: cs) with _ | ⟨m, rest⟩
      · cases u with
        | nil =>
          exfalso
          have hl2 : c :: cs = p ++ ds ++ v := by rw [hl]; simp
          rw [hl2, matchIssueAt_eval hds hdsd hv] at hm
          exact Option.noConfusion hm
        | cons c0 u' =>
          have hcc : cs = u' ++ (p ++ ds) ++ v := by
            have h2 := hl
            simp only [List.cons_append, List.cons.injEq] at h2
            rw [h2.2]
          simp only [List.length_cons] at hf
          have hclen : cs.length ≤ n := by omega
          show p ++ ds ∈ findAllAux p n cs
          exact ih cs u' ds v hclen hds hdsd hcc hv
      · cases u with
        | nil =>
          have hl2 : c :: cs = p ++ ds ++ v := by rw [hl]; simp
          have hm2 : matchIssueAt p (c :: cs) = some (p ++ ds, v) := by
            rw [hl2]; exact matchIssueAt_eval hds hdsd hv
          rw [hm] at hm2
          simp only [Option.some.injEq, Prod.mk.injEq] at hm2
          show p ++ ds ∈ m :: findAllAux p n rest
          rw [← hm2.1]
          exact List.mem_cons_self _ _
        | cons c0 u' =>
          obtain ⟨ds0, hds0, hds0d, hmm, hldec, hrh⟩ := matchIssueAt_sound hm
          have heq : (c0 :: u') ++ (p ++ ds) ++ v = p ++ ds0 ++ rest := by
            rw [← hl, ← hldec]
          obtain ⟨u2, hu2, hrest⟩ :=
            occ_not_straddle hp hpnd hds0 hds0d hds hdsd (by simp) heq
          have hlen1 := congrArg List.length hldec
          simp only [List.length_cons, List.length_append] at hlen1
          have hds0len : 1 ≤ ds0.length := by
            cases ds0 with
            | nil => exact absurd rfl hds0
            | cons a t => simp
          simp only [List.length_cons] at hf
          have hrlen : rest.length ≤ n := by omega
          show p ++ ds ∈ m :: findAllAux p n rest
          exact List.mem_cons_of_mem _ (ih rest u2 ds v hrlen hds hdsd hrest hv)

theorem pyFindAll_sound {p l x : List Char} (hx : x ∈ pyFindAll p l) :
    ∃ ds u v, ds ≠ [] ∧ AllDigit ds ∧ x = p ++ ds ∧ l = u ++ (p ++ ds) ++ v ∧
      (∀ c, v.head? = some c → isDigitChar c = false) :=
  findAllAux_sound p l.length l x (le_refl _) hx

theorem pyFindAll_complete {p l u ds v : List Char} (hp : p ≠ [])
    (hpnd : ∀ c ∈ p, isDigitChar c = false) (hds : ds ≠ []) (hdsd : AllDigit ds)
    (hl : l = u ++ (p ++ ds) ++ v)
    (hv : ∀ c, v.head? = some c → isDigitChar c = false) :
    (p ++ ds) ∈ pyFindAll p l :=
  findAllAux_complete p hp hpnd l.length l u ds v (le_refl _) hds hdsd hl hv

/-- C5 counterexample: with the configured prefix "1" and the text "111",
the string "11" is an occurrence of `<prefix><digits>` (at offset 1), yet
`extract_issue_numbers` returns only ["111"] — the greedy non-overlapping
scan drops the occurrence "11", so the function does not return all
occurrences deduplicated as a set. -/
theorem C5_counterexample :
    IssueOcc [("1".toList)] ("111".toList) ("11".toList) ∧
    ("11".toList) ∉ extract_issue_numbers cfgPrefixOne ("111".toList) ∧
    extract_issue_numbers cfgPrefixOne ("111".toList) = [("111".toList)] := by
  refine ⟨⟨("1".toList), by simp, ("1".toList), ("1".toList), [], ?_, ?_, ?_, ?_⟩, ?_, ?_⟩
  · simp
  · intro c hc; simp at hc; subst hc; decide
  · rfl
  · rfl
  · decide
  · rfl

/-- C5 as amended: when no `issuePrefixes` key is configured (or it is empty)
the extractor returns the empty list regardless of the text; the result never
contains duplicates; and provided every configured prefix is non-empty and
contains no digit character, the returned list contains exactly the
occurrences of `<prefix><digits>` with maximal digit run, i.e. the leftmost
non-overlapping greedy matches, deduplicated as a set. -/
theorem C5_extract_issue_numbers_amended (cfg : VersionConfig) (text : List Char) :
    (cfg.issuePrefixes = none → extract_issue_numbers cfg text = [])
    ∧ (cfg.issuePrefixes = some [] → extract_issue_numbers cfg text = [])
    ∧ (extract_issue_numbers cfg text).Nodup
    ∧ (∀ ps, cfg.issuePrefixes = some ps →
        (∀ p ∈ ps, p ≠ [] ∧ ∀ c ∈ p, isDigitChar c = false) →
        ∀ x, x ∈ extract_issue_numbers cfg text ↔ MaxIssueOcc ps text x) := by
  refine ⟨?_, ?_, ?_, ?_⟩
  · intro h
    unfold extract_issue_numbers
    rw [h]
  · intro h
    unfold extract_issue_numbers
    rw [h]
    rfl
  · unfold extract_issue_numbers
    rcases cfg.issuePrefixes with _ | ps
    · exact List.nodup_nil
    · show (if ps.isEmpty = true then []
          else ((ps.map (fun p => pyFindAll p text)).flatten).dedup).Nodup
      by_cases hps : ps.isEmpty
      · rw [if_pos hps]; exact List.nodup_nil
      · rw [if_neg hps]; exact List.nodup_dedup _
  · intro ps hps hgood x
    unfold extract_issue_numbers
    rw [hps]
    show x ∈ (if ps.isEmpty = true then []
        else ((ps.map (fun p => pyFindAll p text)).flatten).dedup) ↔ MaxIssueOcc ps text x
    by_cases hpse : ps.isEmpty
    · have hnil : ps = [] := List.isEmpty_iff.mp hpse
      subst hnil
      rw [if_pos hpse]
      simp only [List.not_mem_nil, false_iff]
      rintro ⟨p, hp, _⟩
      simp at hp
    · rw [if_neg hpse]
      constructor
      · intro hx
        rw [List.mem_dedup] at hx
        rw [List.mem_flatten] at hx
        obtain ⟨lp, hlp, hxlp⟩ := hx
        rw [List.mem_map] at hlp
        obtain ⟨p, hpps, hlpeq⟩ := hlp
        rw [← hlpeq] at hxlp
        obtain ⟨ds, u, v, h1, h2, h3, h4, h5⟩ := pyFindAll_sound hxlp
        exact ⟨p, hpps, ds, u, v, h1, h2, h3, by rw [h3]; exact h4, h5⟩
      · rintro ⟨p, hpps, ds, u, v, h1, h2, h3, h4, h5⟩
        rw [List.mem_dedup, List.mem_flatten]
        refine ⟨pyFindAll p text, List.mem_map.mpr ⟨p, hpps, rfl⟩, ?_⟩
        rw [h3]
        exact pyFindAll_complete (hgood p hpps).1 (hgood p hpps).2 h1 h2
          (by rw [← h3]; exact h4) h5

/-- Witness for C5 (amended): the characterisation applied at the concrete
prefix "A" and text "see A12" shows that "A12" is extracted. -/
theorem C5_extract_issue_numbers_amended_witness :
    ("A12".toList) ∈ extract_issue_numbers cfgPrefixA ("see A12".toList) :=
  ((C5_extract_issue_numbers_amended cfgPrefixA ("see A12".toList)).2.2.2
    [("A".toList)] rfl (by decide) ("A12".toList)).mpr
    ⟨("A".toList), by simp, ("12".toList), ("see ".toList), [], by decide,
      by unfold AllDigit; decide, rfl, rfl, fun c hc => by simp at hc⟩

theorem starGreedy_sound (p : Char → Bool) (k : List Char → Option (List Char)) :
    ∀ l out, starGreedy p k l = some out →
    ∃ consumed rest, l = consumed ++ rest ∧ (∀ c ∈ consumed, p c = true) ∧
      k rest = some out := by
  intro l
  induction l with
  | nil =>
    intro out h
    exact ⟨[], [], rfl, by simp, h⟩
  | cons c rest ih =>
    intro out h
    unfold starGreedy at h
    by_cases hpc : p c = true
    · rw [if_pos hpc] at h
      rcases hsg : starGreedy p k rest with _ | r
      · rw [hsg] at h
        exact ⟨[], c :: rest, rfl, by simp, h⟩
      · rw [hsg] at h
        obtain ⟨consumed, rest2, h1, h2, h3⟩ := ih r hsg
        refine ⟨c :: consumed, rest2, by rw [h1]; rfl, ?_, ?_⟩
        · intro c2 hc2
          rcases List.mem_cons.mp hc2 with h4 | h4
          · rw [h4]; exact hpc
          · exact h2 c2 h4
        · rw [h3, ← h]
    · rw [if_neg hpc] at h
      exact ⟨[], c :: rest, rfl, by simp, h⟩

theorem altsTry_sound (k : List Char → Option (List Char)) (l : List Char) :
    ∀ css out, altsTry k l css = some out →
    ∃ cs ∈ css, ∃ rest, l = cs ++ rest ∧ k rest = some out := by
  intro css
  induction css with
  | nil => intro out h; simp [altsTry] at h
  | cons cs0 css' ih =>
    intro out h
    unfold altsTry at h
    rcases hsp : stripPref cs0 l with _ | r
    · rw [hsp] at h
      obtain ⟨cs, h1, h2⟩ := ih out h
      exact ⟨cs, List.mem_cons_of_mem _ h1, h2⟩
    · rw [hsp] at h
      have h3 : (match k r with
          | some o => some o
          | none => altsTry k l css') = some out := h
      rcases hk : k r with _ | out'
      · rw [hk] at h3
        obtain ⟨cs, h1, h2⟩ := ih out h3
        exact ⟨cs, List.mem_cons_of_mem _ h1, h2⟩
      · rw [hk] at h3
        simp only [Option.some.injEq] at h3
        exact ⟨cs0, List.mem_cons_self _ _, r, stripPref_sound hsp, by rw [hk, h3]⟩

theorem mat_sound :
    ∀ (r : RE) (l : List Char) (k : List Char → Option (List Char)) (out : List Char),
    mat r l k = some out →
    ∃ consumed rest, l = consumed ++ rest ∧ Matches r consumed ∧ k rest = some out := by
  intro r
  induction r with
  | chr p =>
    intro l k out h
    cases l with
    | nil => simp [mat] at h
    | cons c cs =>
      unfold mat at h
      by_cases hpc : p c = true
      · rw [if_pos hpc] at h
        exact ⟨[c], cs, rfl, Matches.chr hpc, h⟩
      · rw [if_neg hpc] at h
        exact absurd h (by simp)
  | lit cs =>
    intro l k out h
    unfold mat at h
    rcases hsp : stripPref cs l with _ | r
    · rw [hsp] at h; exact absurd h (by simp)
    · rw [hsp] at h
      exact ⟨cs, r, stripPref_sound hsp, Matches.lit, h⟩
  | alts css =>
    intro l k out h
    obtain ⟨cs, h1, rest, h2, h3⟩ := altsTry_sound k l css out h
    exact ⟨cs, rest, h2, Matches.alts h1, h3⟩
  | star p =>
    intro l k out h
    obtain ⟨consumed, rest, h1, h2, h3⟩ := starGreedy_sound p k l out h
    exact ⟨consumed, rest, h1, Matches.star h2, h3⟩
  | plus p =>
    intro l k out h
    cases l with
    | nil => simp [mat] at h
    | cons c cs =>
      unfold mat at h
      by_cases hpc : p c = true
      · rw [if_pos hpc] at h
        obtain ⟨consumed, rest, h1, h2, h3⟩ := starGreedy_sound p k cs out h
        refine ⟨c :: consumed, rest, by rw [h1]; rfl, ?_, h3⟩
        refine Matches.plus (by simp) ?_
        intro c2 hc2
        rcases List.mem_cons.mp hc2 with h4 | h4
        · rw [h4]; exact hpc
        · exact h2 c2 h4
      · rw [if_neg hpc] at h
        exact absurd h (by simp)
  | seq a b iha ihb =>
    intro l k out h
    unfold mat at h
    obtain ⟨ca, rest1, h1, h2, h3⟩ := iha l (fun r => mat b r k) out h
    obtain ⟨cb, rest, h4, h5, h6⟩ := ihb rest1 k out h3
    refine ⟨ca ++ cb, rest, ?_, Matches.seq h2 h5, h6⟩
    rw [h1, h4, List.append_assoc]

theorem starGreedy_none_k {p : Char → Bool} {k : List Char → Option (List Char)}
    {l : List Char} (h : starGreedy p k l = none) : k l = none := by
  cases l with
  | nil => exact h
  | cons c rest =>
    unfold starGreedy at h
    by_cases hpc : p c = true
    · rw [if_pos hpc] at h
      rcases hsg : starGreedy p k rest with _ | r
      · rw [hsg] at h
        exact h
      · rw [hsg] at h
        exact absurd h (by simp)
    · rw [if_neg hpc] at h
      exact h

theorem starGreedy_none {p : Char → Bool} {k : List Char → Option (List Char)} :
    ∀ consumed l rest, starGreedy p k l = none → l = consumed ++ rest →
    (∀ c ∈ consumed, p c = true) → k rest = none := by
  intro consumed
  induction consumed with
  | nil =>
    intro l rest h hl _
    rw [List.nil_append] at hl
    rw [← hl]
    exact starGreedy_none_k h
  | cons c cons' ih =>
    intro l rest h hl hall
    have hpc : p c = true := hall c (by simp)
    rw [hl] at h
    rw [List.cons_append] at h
    unfold starGreedy at h
    rw [if_pos hpc] at h
    rcases hsg : starGreedy p k (cons' ++ rest) with _ | r
    · exact ih (cons' ++ rest) rest hsg rfl (fun c2 hc2 => hall c2 (by simp [hc2]))
    · rw [hsg] at h
      exact absurd h (by simp)

theorem altsTry_none {k : List Char → Option (List Char)} {l : List Char} :
    ∀ css, altsTry k l css = none →
    ∀ cs ∈ css, ∀ rest, l = cs ++ rest → k rest = none := by
  intro css
  induction css with
  | nil => intro _ cs hcs; simp at hcs
  | cons cs0 css' ih =>
    intro h cs hcs rest hl
    unfold altsTry at h
    rcases List.mem_cons.mp hcs with hc | hc
    · subst hc
      rw [hl, stripPref_complete] at h
      have h3 : (match k rest with
          | some o => some o
          | none => altsTry k (cs ++ rest) css') = none := h
      rcases hk : k rest with _ | out'
      · rfl
      · rw [hk] at h3
        exact absurd h3 (by simp)
    · rcases hsp : stripPref cs0 l with _ | r
      · rw [hsp] at h
        exact ih h cs hc rest hl
      · rw [hsp] at h
        have h3 : (match k r with
            | some o => some o
            | none => altsTry k l css') = none := h
        rcases hk : k r with _ | out'
        · rw [hk] at h3
          exact ih h3 cs hc rest hl
        · rw [hk] at h3
          exact absurd h3 (by simp)

theorem mat_none :
    ∀ (r : RE) (l : List Char) (k : List Char → Option (List Char)),
    mat r l k = none →
    ∀ consumed rest, l = consumed ++ rest → Matches r consumed → k rest = none := by
  intro r
  induction r with
  | chr p =>
    intro l k h consumed rest hl hm
    cases hm with
    | chr hpc =>
      rename_i c
      rw [hl] at h
      rw [List.cons_append] at h
      unfold mat at h
      rw [if_pos hpc] at h
      exact h
  | lit cs =>
    intro l k h consumed rest hl hm
    cases hm
    rw [hl] at h
    unfold mat at h
    rw [stripPref_complete] at h
    exact h
  | alts css =>
    intro l k h consumed rest hl hm
    cases hm with
    | alts hmem => exact altsTry_none css h consumed hmem rest hl
  | star p =>
    intro l k h consumed rest hl hm
    cases hm with
    | star hall => exact starGreedy_none consumed l rest h hl hall
  | plus p =>
    intro l k h consumed rest hl hm
    cases hm with
    | plus hne hall =>
      cases consumed with
      | nil => exact absurd rfl hne
      | cons c cons' =>
        rw [hl, List.cons_append] at h
        unfold mat at h
        rw [if_pos (hall c (by simp))] at h
        exact starGreedy_none cons' (cons' ++ rest) rest h rfl
          (fun c2 hc2 => hall c2 (by simp [hc2]))
  | seq a b iha ihb =>
    intro l k h consumed rest hl hm
    cases hm with
    | seq hma hmb =>
      rename_i ca cb
      unfold mat at h
      have h2 : mat b (cb ++ rest) k = none :=
        iha l (fun r => mat b r k) h (ca) (cb ++ rest)
          (by rw [hl, List.append_assoc]) hma
      exact ihb (cb ++ rest) k h2 cb rest rfl hmb

example : clean_subject cfgAB ("A A B1B2".toList) = ("A B2".toList) := by decide

example : clean_subject cfgAB ("A B2".toList) = [] := by decide

example : clean_subject cfgPrefixA ("A12: fix bug".toList) = ("fix bug".toList) := by decide

example : clean_subject cfgPrefixA ("fix A12 - bug and A13".toList) = ("fix bug".toList) := by
  decide

theorem matchAt_consume {r : RE} {l rem : List Char} (h : matchAt r l = some rem) :
    ∃ consumed, l = consumed ++ rem ∧ Matches r consumed := by
  obtain ⟨consumed, rest, h1, h2, h3⟩ := mat_sound r l some rem h
  simp only [Option.some.injEq] at h3
  exact ⟨consumed, by rw [h1, h3], h2⟩

theorem matchAtEnd_consume {r : RE} {l rem : List Char} (h : matchAtEnd r l = some rem) :
    (∃ consumed, l = consumed ++ rem ∧ Matches r consumed) ∧ (rem = [] ∨ rem = ['\n']) := by
  obtain ⟨consumed, rest, h1, h2, h3⟩ :=
    mat_sound r l (fun rem => if rem = [] ∨ rem = ['\n'] then some rem else none) rem h
  by_cases hc : rest = [] ∨ rest = ['\n']
  · rw [if_pos hc] at h3
    simp only [Option.some.injEq] at h3
    subst h3
    exact ⟨⟨consumed, h1, h2⟩, hc⟩
  · rw [if_neg hc] at h3
    exact absurd h3 (by simp)

theorem matchAt_of_matches {r : RE} {l consumed rest : List Char}
    (hl : l = consumed ++ rest) (hm : Matches r consumed) : (matchAt r l).isSome := by
  rcases hma : matchAt r l with _ | rem
  · exfalso
    have := mat_none r l some hma consumed rest hl hm
    exact absurd this (by simp)
  · rfl

theorem issue_matches_inv {ps : List (List Char)} {cs : List Char}
    (h : Matches (issueRE ps) cs) :
    ∃ p ∈ ps, ∃ ds, ds ≠ [] ∧ AllDigit ds ∧ cs = p ++ ds := by
  cases h with
  | seq hma hmb =>
    rename_i p ds
    cases hma with
    | alts hmem =>
      cases hmb with
      | plus hne hall => exact ⟨p, hmem, ds, hne, hall, rfl⟩

theorem issue_matches_intro {ps : List (List Char)} {p ds : List Char}
    (hp : p ∈ ps) (hds : ds ≠ []) (hdsd : AllDigit ds) :
    Matches (issueRE ps) (p ++ ds) :=
  Matches.seq (Matches.alts hp) (Matches.plus hds hdsd)

theorem hasOcc_digit {ps : List (List Char)} {l : List Char} (h : HasOcc ps l) :
    ∃ c ∈ l, isDigitChar c = true := by
  obtain ⟨u, p, ds, v, _, hds, hdsd, hl⟩ := h
  cases ds with
  | nil => exact absurd rfl hds
  | cons d dt =>
    refine ⟨d, ?_, hdsd d (by simp)⟩
    rw [hl]
    simp

theorem no_occ_nil {ps : List (List Char)} : ¬ HasOcc ps [] := by
  intro h
  obtain ⟨c, hc, _⟩ := hasOcc_digit h
  simp at hc

theorem no_occ_space {ps : List (List Char)} : ¬ HasOcc ps [' '] := by
  intro h
  obtain ⟨c, hc, hd⟩ := hasOcc_digit h
  simp at hc
  subst hc
  exact absurd hd (by decide)

theorem no_occ_newline {ps : List (List Char)} : ¬ HasOcc ps ['\n'] := by
  intro h
  obtain ⟨c, hc, hd⟩ := hasOcc_digit h
  simp at hc
  subst hc
  exact absurd hd (by decide)

theorem searchB_of_hasOcc {ps : List (List Char)} :
    ∀ {l : List Char}, HasOcc ps l → searchB (matchAt (issueRE ps)) l = true := by
  intro l h
  obtain ⟨u, p, ds, v, hp, hds, hdsd, hl⟩ := h
  induction u generalizing l with
  | nil =>
    rw [List.nil_append] at hl
    have hm : (matchAt (issueRE ps) l).isSome :=
      matchAt_of_matches hl (issue_matches_intro hp hds hdsd)
    cases l with
    | nil =>
      exfalso
      cases ds with
      | nil => exact absurd rfl hds
      | cons d dt => simp at hl
    | cons c cs =>
      unfold searchB
      rw [hm]
      simp
  | cons c0 u' ih =>
    cases l with
    | nil => simp at hl
    | cons c cs =>
      simp only [List.cons_append, List.cons.injEq] at hl
      have := ih hl.2
      unfold searchB
      rw [this]
      simp

theorem hasOcc_of_searchB {ps : List (List Char)} :
    ∀ {l : List Char}, searchB (matchAt (issueRE ps)) l = true → HasOcc ps l := by
  intro l
  induction l with
  | nil =>
    intro h
    unfold searchB at h
    rcases hm : matchAt (issueRE ps) [] with _ | rem
    · rw [hm] at h; simp at h
    · obtain ⟨consumed, hc, hmm⟩ := matchAt_consume hm
      obtain ⟨p, hp, ds, hds, hdsd, hcs⟩ := issue_matches_inv hmm
      exfalso
      have : consumed = [] := by
        cases consumed with
        | nil => rfl
        | cons a t => simp at hc
      rw [this] at hcs
      cases ds with
      | nil => exact absurd rfl hds
      | cons d dt => simp at hcs
  | cons c cs ih =>
    intro h
    unfold searchB at h
    rcases hm : matchAt (issueRE ps) (c :: cs) with _ | rem
    · rw [hm] at h
      simp only [Option.isSome_none, Bool.false_or] at h
      obtain ⟨u, p, ds, v, hp, hds, hdsd, hl⟩ := ih h
      exact ⟨c :: u, p, ds, v, hp, hds, hdsd, by rw [hl]; rfl⟩
    · obtain ⟨consumed, hc, hmm⟩ := matchAt_consume hm
      obtain ⟨p, hp, ds, hds, hdsd, hcs⟩ := issue_matches_inv hmm
      exact ⟨[], p, ds, rem, hp, hds, hdsd, by rw [hc, hcs]; simp⟩

theorem issue_text_nonspace {ps : List (List Char)} {p ds : List Char}
    (hsf : SpaceFree ps) (hp : p ∈ ps) (hdsd : AllDigit ds) :
    ∀ c ∈ p ++ ds, isSpaceChar c = false := by
  intro c hc
  rcases List.mem_append.mp hc with h | h
  · exact hsf p hp c h
  · exact not_space_of_digit (hdsd c h)

theorem pat7_isSome {ps : List (List Char)} {p ds rest : List Char}
    (hp : p ∈ ps) (hds : ds ≠ []) (hdsd : AllDigit ds) :
    (matchAt (pat7 ps) ((p ++ ds) ++ rest)).isSome := by
  have h1 : Matches (RE.star isSpaceChar) ([] : List Char) := Matches.star (by simp)
  have h3 := Matches.seq (issue_matches_intro hp hds hdsd) h1
  have h4 := Matches.seq h1 h3
  have he : (([] : List Char) ++ ((p ++ ds) ++ [])) = p ++ ds := by simp
  rw [he] at h4
  exact matchAt_of_matches rfl h4

theorem pat7_consumed_ne {ps : List (List Char)} {cs : List Char}
    (h : Matches (pat7 ps) cs) : cs ≠ [] := by
  cases h with
  | seq h1 h2 =>
    cases h2 with
    | seq h3 h4 =>
      obtain ⟨p, _, ds, hds, _, hcb⟩ := issue_matches_inv h3
      intro hnil
      have h5 := (List.append_eq_nil.mp hnil).2
      have h6 := (List.append_eq_nil.mp h5).1
      rw [h6] at hcb
      exact hds (List.append_eq_nil.mp hcb.symm).2

theorem subAllF_sfp (M : List Char → Option (List Char)) :
    ∀ fuel l w rest', subAllF M [' '] fuel l = w ++ rest' →
    (∀ c ∈ w, isSpaceChar c = false) → ∃ rest2, l = w ++ rest2 := by
  intro fuel
  induction fuel with
  | zero =>
    intro l w rest' h _
    exact ⟨rest', h⟩
  | succ n ih =>
    intro l w rest' h hw
    cases l with
    | nil =>
      unfold subAllF at h
      rcases hM : M [] with _ | r
      · rw [hM] at h
        cases w with
        | nil => exact ⟨[], rfl⟩
        | cons cw w' => simp at h
      · rw [hM] at h
        cases w with
        | nil => exact ⟨[], rfl⟩
        | cons cw w' =>
          have hcw : ' ' = cw := by
            have h2 := h
            simp only [List.cons_append, List.cons.injEq] at h2
            exact h2.1
          have := hw cw (by simp)
          rw [← hcw] at this
          exact absurd this (by decide)
    | cons c cs =>
      unfold subAllF at h
      rcases hM : M (c :: cs) with _ | rem
      · rw [hM] at h
        cases w with
        | nil => exact ⟨c :: cs, rfl⟩
        | cons cw w' =>
          simp only [List.cons_append, List.cons.injEq] at h
          obtain ⟨hcw, h2⟩ := h
          obtain ⟨rest2, h3⟩ := ih cs w' rest' h2 (fun c2 hc2 => hw c2 (by simp [hc2]))
          exact ⟨rest2, by rw [List.cons_append, h3, hcw]⟩
      · rw [hM] at h
        have h9 : (if rem.length < (c :: cs).length then [' '] ++ subAllF M [' '] n rem
            else c :: subAllF M [' '] n cs) = w ++ rest' := h
        by_cases hg : rem.length < (c :: cs).length
        · rw [if_pos hg] at h9
          cases w with
          | nil => exact ⟨c :: cs, rfl⟩
          | cons cw w' =>
            have hcw : ' ' = cw := by
              have h2 := h9
              simp only [List.cons_append, List.singleton_append, List.cons.injEq] at h2
              exact h2.1
            have hsp := hw cw (by simp)
            rw [← hcw] at hsp
            exact absurd hsp (by decide)
        · rw [if_neg hg] at h9
          cases w with
          | nil => exact ⟨c :: cs, rfl⟩
          | cons cw w' =>
            simp only [List.cons_append, List.cons.injEq] at h9
            obtain ⟨hcw, h2⟩ := h9
            obtain ⟨rest2, h3⟩ := ih cs w' rest' h2 (fun c2 hc2 => hw c2 (by simp [hc2]))
            exact ⟨rest2, by rw [List.cons_append, h3, hcw]⟩

theorem subAllF_cons_none {M : List Char → Option (List Char)} {repl : List Char}
    {n : Nat} {c : Char} {cs : List Char} (hM : M (c :: cs) = none) :
    subAllF M repl (n + 1) (c :: cs) = c :: subAllF M repl n cs := by
  simp only [subAllF]
  rw [hM]

theorem subAllF_cons_some {M : List Char → Option (List Char)} {repl : List Char}
    {n : Nat} {c : Char} {cs rem : List Char} (hM : M (c :: cs) = some rem)
    (hg : rem.length < (c :: cs).length) :
    subAllF M repl (n + 1) (c :: cs) = repl ++ subAllF M repl n rem := by
  simp only [subAllF]
  rw [hM]
  simp only [hg, if_true]

theorem subAllF_cons_stuck {M : List Char → Option (List Char)} {repl : List Char}
    {n : Nat} {c : Char} {cs rem : List Char} (hM : M (c :: cs) = some rem)
    (hg : ¬ rem.length < (c :: cs).length) :
    subAllF M repl (n + 1) (c :: cs) = c :: subAllF M repl n cs := by
  simp only [subAllF]
  rw [hM]
  simp only [hg, if_false]

theorem subAllF_nil_none {M : List Char → Option (List Char)} {repl : List Char}
    {n : Nat} (hM : M [] = none) : subAllF M repl (n + 1) [] = [] := by
  simp only [subAllF]
  rw [hM]

theorem subAllF_nil_some {M : List Char → Option (List Char)} {repl : List Char}
    {n : Nat} {r : List Char} (hM : M [] = some r) : subAllF M repl (n + 1) [] = repl := by
  simp only [subAllF]
  rw [hM]

theorem subAll7_no_occ {ps : List (List Char)} (hsf : SpaceFree ps) :
    ∀ fuel l, l.length ≤ fuel → ¬ HasOcc ps (subAllF (matchAt (pat7 ps)) [' '] fuel l) := by
  intro fuel
  induction fuel with
  | zero =>
    intro l hf
    have hl : l = [] := List.eq_nil_of_length_eq_zero (Nat.le_zero.mp hf)
    subst hl
    exact no_occ_nil
  | succ n ih =>
    intro l hf
    cases l with
    | nil =>
      rcases hM : matchAt (pat7 ps) [] with _ | r
      · rw [subAllF_nil_none hM]
        exact no_occ_nil
      · rw [subAllF_nil_some hM]
        exact no_occ_space
    | cons c cs =>
      simp only [List.length_cons] at hf
      rcases hM : matchAt (pat7 ps) (c :: cs) with _ | rem
      · rw [subAllF_cons_none hM]
        intro hocc
        obtain ⟨u, p, ds, v, hp, hds, hdsd, hl⟩ := hocc
        cases u with
        | nil =>
          rw [List.nil_append] at hl
          rcases hpd : p ++ ds with _ | ⟨m0, m'⟩
          · cases ds with
            | nil => exact absurd rfl hds
            | cons d dt => simp at hpd
          · rw [hpd] at hl
            simp only [List.cons_append, List.cons.injEq] at hl
            have hm'sf : ∀ c2 ∈ m', isSpaceChar c2 = false := by
              intro c2 hc2
              apply issue_text_nonspace hsf hp hdsd
              rw [hpd]
              simp [hc2]
            obtain ⟨rest2, hcs⟩ :=
              subAllF_sfp (matchAt (pat7 ps)) n cs m' v hl.2 hm'sf
            have hl2 : c :: cs = (p ++ ds) ++ rest2 := by
              rw [hcs, hpd, hl.1]
              rfl
            have hsome := @pat7_isSome ps p ds rest2 hp hds hdsd
            rw [← hl2, hM] at hsome
            simp at hsome
        | cons c0 u' =>
          simp only [List.cons_append, List.cons.injEq] at hl
          exact ih cs (by omega) ⟨u', p, ds, v, hp, hds, hdsd, hl.2⟩
      · obtain ⟨consumed, hcc, hmm⟩ := matchAt_consume hM
        have hcne := pat7_consumed_ne hmm
        have hg : rem.length < (c :: cs).length := by
          rw [hcc]
          cases consumed with
          | nil => exact absurd rfl hcne
          | cons a t => simp; omega
        rw [subAllF_cons_some hM hg]
        intro hocc
        obtain ⟨u, p, ds, v, hp, hds, hdsd, hl⟩ := hocc
        cases u with
        | nil =>
          rw [List.nil_append] at hl
          rcases hpd : p ++ ds with _ | ⟨m0, m'⟩
          · cases ds with
            | nil => exact absurd rfl hds
            | cons d dt => simp at hpd
          · rw [hpd] at hl
            simp only [List.singleton_append, List.cons_append, List.cons.injEq] at hl
            have hsp : isSpaceChar m0 = false := by
              apply issue_text_nonspace hsf hp hdsd
              rw [hpd]
              simp
            rw [← hl.1] at hsp
            exact absurd hsp (by decide)
        | cons c0 u' =>
          simp only [List.singleton_append, List.cons_append, List.cons.injEq] at hl
          have hflen : rem.length ≤ n := by
            simp only [List.length_cons] at hg
            omega
          exact ih rem hflen ⟨u', p, ds, v, hp, hds, hdsd, hl.2⟩

theorem subAllF_space_preserve {ps : List (List Char)} (hsf : SpaceFree ps)
    (M : List Char → Option (List Char))
    (hMc : ∀ l rem, M l = some rem → ∃ cons0, l = cons0 ++ rem) :
    ∀ fuel l, HasOcc ps (subAllF M [' '] fuel l) → HasOcc ps l := by
  intro fuel
  induction fuel with
  | zero => intro l h; exact h
  | succ n ih =>
    intro l h
    cases l with
    | nil =>
      exfalso
      rcases hM : M [] with _ | r
      · rw [subAllF_nil_none hM] at h
        exact no_occ_nil h
      · rw [subAllF_nil_some hM] at h
        exact no_occ_space h
    | cons c cs =>
      rcases hM : M (c :: cs) with _ | rem
      · rw [subAllF_cons_none hM] at h
        obtain ⟨u, p, ds, v, hp, hds, hdsd, hl⟩ := h
        cases u with
        | nil =>
          rw [List.nil_append] at hl
          rcases hpd : p ++ ds with _ | ⟨m0, m'⟩
          · cases ds with
            | nil => exact absurd rfl hds
            | cons d dt => simp at hpd
          · rw [hpd] at hl
            simp only [List.cons_append, List.cons.injEq] at hl
            have hm'sf : ∀ c2 ∈ m', isSpaceChar c2 = false := by
              intro c2 hc2
              apply issue_text_nonspace hsf hp hdsd
              rw [hpd]
              simp [hc2]
            obtain ⟨rest2, hcs⟩ := subAllF_sfp M n cs m' v hl.2 hm'sf
            refine ⟨[], p, ds, rest2, hp, hds, hdsd, ?_⟩
            rw [List.nil_append, hcs, hpd, hl.1]
            rfl
        | cons c0 u' =>
          simp only [List.cons_append, List.cons.injEq] at hl
          obtain ⟨u2, p2, ds2, v2, hp2, hds2, hdsd2, hl2⟩ :=
            ih cs ⟨u', p, ds, v, hp, hds, hdsd, hl.2⟩
          exact ⟨c :: u2, p2, ds2, v2, hp2, hds2, hdsd2, by rw [hl2]; rfl⟩
      · by_cases hg : rem.length < (c :: cs).length
        · rw [subAllF_cons_some hM hg] at h
          obtain ⟨u, p, ds, v, hp, hds, hdsd, hl⟩ := h
          cases u with
          | nil =>
            exfalso
            rw [List.nil_append] at hl
            rcases hpd : p ++ ds with _ | ⟨m0, m'⟩
            · cases ds with
              | nil => exact absurd rfl hds
              | cons d dt => simp at hpd
            · rw [hpd] at hl
              simp only [List.singleton_append, List.cons_append, List.cons.injEq] at hl
              have hsp : isSpaceChar m0 = false := by
                apply issue_text_nonspace hsf hp hdsd
                rw [hpd]
                simp
              rw [← hl.1] at hsp
              exact absurd hsp (by decide)
          | cons c0 u' =>
            simp only [List.singleton_append, List.cons_append, List.cons.injEq] at hl
            obtain ⟨u2, p2, ds2, v2, hp2, hds2, hdsd2, hl2⟩ :=
              ih rem ⟨u', p, ds, v, hp, hds, hdsd, hl.2⟩
            obtain ⟨cons0, hcons⟩ := hMc (c :: cs) rem hM
            refine ⟨cons0 ++ u2, p2, ds2, v2, hp2, hds2, hdsd2, ?_⟩
            rw [hcons, hl2]
            simp [List.append_assoc]
        · rw [subAllF_cons_stuck hM hg] at h
          obtain ⟨u, p, ds, v, hp, hds, hdsd, hl⟩ := h
          cases u with
          | nil =>
            rw [List.nil_append] at hl
            rcases hpd : p ++ ds with _ | ⟨m0, m'⟩
            · cases ds with
              | nil => exact absurd rfl hds
              | cons d dt => simp at hpd
            · rw [hpd] at hl
              simp only [List.cons_append, List.cons.injEq] at hl
              have hm'sf : ∀ c2 ∈ m', isSpaceChar c2 = false := by
                intro c2 hc2
                apply issue_text_nonspace hsf hp hdsd
                rw [hpd]
                simp [hc2]
              obtain ⟨rest2, hcs⟩ := subAllF_sfp M n cs m' v hl.2 hm'sf
              refine ⟨[], p, ds, rest2, hp, hds, hdsd, ?_⟩
              rw [List.nil_append, hcs, hpd, hl.1]
              rfl
          | cons c0 u' =>
            simp only [List.cons_append, List.cons.injEq] at hl
            obtain ⟨u2, p2, ds2, v2, hp2, hds2, hdsd2, hl2⟩ :=
              ih cs ⟨u', p, ds, v, hp, hds, hdsd, hl.2⟩
            exact ⟨c :: u2, p2, ds2, v2, hp2, hds2, hdsd2, by rw [hl2]; rfl⟩

theorem subAnchor_preserve {ps : List (List Char)}
    (M : List Char → Option (List Char))
    (hMc : ∀ l rem, M l = some rem → ∃ cons0, l = cons0 ++ rem) :
    ∀ l, HasOcc ps (subAnchor M [] l) → HasOcc ps l := by
  intro l h
  rcases hM : M l with _ | rem
  · have he : subAnchor M [] l = l := by
      unfold subAnchor
      rw [hM]
    rw [he] at h
    exact h
  · have he : subAnchor M [] l = rem := by
      unfold subAnchor
      rw [hM]
      rfl
    rw [he] at h
    obtain ⟨u, p, ds, v, hp, hds, hdsd, hl⟩ := h
    obtain ⟨cons0, hcons⟩ := hMc l rem hM
    refine ⟨cons0 ++ u, p, ds, v, hp, hds, hdsd, ?_⟩
    rw [hcons, hl]
    simp [List.append_assoc]

theorem hasOcc_of_infix {ps : List (List Char)} {m : List Char} (a b : List Char)
    (h : HasOcc ps m) : HasOcc ps (a ++ m ++ b) := by
  obtain ⟨u, p, ds, v, hp, hds, hdsd, hl⟩ := h
  refine ⟨a ++ u, p, ds, v ++ b, hp, hds, hdsd, ?_⟩
  rw [hl]
  simp [List.append_assoc]

theorem subAllF_nil_empty (M : List Char → Option (List Char)) :
    ∀ n, subAllF M [] n [] = [] := by
  intro n
  cases n with
  | zero => rfl
  | succ m =>
    rcases hM : M [] with _ | r
    · exact subAllF_nil_none hM
    · exact subAllF_nil_some hM

theorem subAllF_newline (M : List Char → Option (List Char)) :
    ∀ n, subAllF M [] n ['\n'] = [] ∨ subAllF M [] n ['\n'] = ['\n'] := by
  intro n
  cases n with
  | zero => right; rfl
  | succ m =>
    rcases hM : M ['\n'] with _ | rem
    · right
      rw [subAllF_cons_none hM, subAllF_nil_empty]
    · by_cases hg : rem.length < (['\n'] : List Char).length
      · left
        rw [subAllF_cons_some hM hg]
        have hrem : rem = [] := by
          cases rem with
          | nil => rfl
          | cons a as => simp [List.length_cons] at hg
        rw [hrem, subAllF_nil_empty]
        rfl
      · right
        rw [subAllF_cons_stuck hM hg, subAllF_nil_empty]

theorem subAllF_trail_shape (M : List Char → Option (List Char))
    (hMe : ∀ l rem, M l = some rem →
      (∃ cons0, l = cons0 ++ rem) ∧ (rem = [] ∨ rem = ['\n'])) :
    ∀ fuel l, subAllF M [] fuel l = l ∨
      ∃ u t, (∃ w, l = u ++ w) ∧ subAllF M [] fuel l = u ++ t ∧
        (t = [] ∨ t = ['\n']) := by
  intro fuel
  induction fuel with
  | zero => intro l; left; rfl
  | succ n ih =>
    intro l
    cases l with
    | nil => left; exact subAllF_nil_empty M (n + 1)
    | cons c cs =>
      rcases hM : M (c :: cs) with _ | rem
      · rcases ih cs with h | ⟨u, t, ⟨w, hw⟩, hout, ht⟩
        · left
          rw [subAllF_cons_none hM, h]
        · right
          refine ⟨c :: u, t, ⟨w, by rw [hw]; rfl⟩, ?_, ht⟩
          rw [subAllF_cons_none hM, hout]
          rfl
      · by_cases hg : rem.length < (c :: cs).length
        · right
          rcases (hMe (c :: cs) rem hM).2 with hrem | hrem
          · refine ⟨[], [], ⟨c :: cs, rfl⟩, ?_, Or.inl rfl⟩
            rw [subAllF_cons_some hM hg, hrem, subAllF_nil_empty]
          · rcases subAllF_newline M n with hnl | hnl
            · refine ⟨[], [], ⟨c :: cs, rfl⟩, ?_, Or.inl rfl⟩
              rw [subAllF_cons_some hM hg, hrem, hnl]
            · refine ⟨[], ['\n'], ⟨c :: cs, rfl⟩, ?_, Or.inr rfl⟩
              rw [subAllF_cons_some hM hg, hrem, hnl]
        · rcases ih cs with h | ⟨u, t, ⟨w, hw⟩, hout, ht⟩
          · left
            rw [subAllF_cons_stuck hM hg, h]
          · right
            refine ⟨c :: u, t, ⟨w, by rw [hw]; rfl⟩, ?_, ht⟩
            rw [subAllF_cons_stuck hM hg, hout]
            rfl

theorem hasOcc_append_newline {ps : List (List Char)} {u : List Char}
    (h : HasOcc ps (u ++ ['\n'])) : HasOcc ps u := by
  obtain ⟨u2, p, ds, v, hp, hds, hdsd, hl⟩ := h
  rcases List.eq_nil_or_concat v with hv | ⟨v', a, hv⟩
  · exfalso
    rw [hv, List.append_nil] at hl
    have h1 : (u2 ++ (p ++ ds)).getLast? = some '\n' := by
      rw [← hl, List.getLast?_append_cons]
      rfl
    have h2 : (u2 ++ (p ++ ds)).getLast? = ds.getLast? := by
      have hpds : p ++ ds ≠ [] := by
        intro hc
        exact hds (List.append_eq_nil.mp hc).2
      rw [List.getLast?_append_of_ne_nil u2 hpds, List.getLast?_append_of_ne_nil p hds]
    rw [h2] at h1
    have h1m : '\n' ∈ ds.getLast? := by
      rw [h1]
      rfl
    obtain ⟨hne, hx⟩ := List.mem_getLast?_eq_getLast h1m
    have h3 : '\n' ∈ ds := hx ▸ List.getLast_mem hne
    have h4 := hdsd '\n' h3
    exact absurd h4 (by decide)
  · rw [hv] at hl
    have hl2 : (u2 ++ (p ++ ds) ++ v') ++ [a] = u ++ ['\n'] := by
      rw [hl]
      simp [List.append_assoc]
    have h5 := List.append_inj' hl2 rfl
    refine ⟨u2, p, ds, v', hp, hds, hdsd, h5.1.symm⟩

theorem pyStrip_mid (l : List Char) :
    List.dropWhile isSpaceChar l =
      pyStrip l ++
        ((List.dropWhile isSpaceChar l).reverse.takeWhile isSpaceChar).reverse := by
  unfold pyStrip
  have h2 := congrArg List.reverse
    (List.takeWhile_append_dropWhile isSpaceChar (List.dropWhile isSpaceChar l).reverse)
  rw [List.reverse_append, List.reverse_reverse] at h2
  exact h2.symm

theorem subAllF_trail_preserve {ps : List (List Char)}
    (M : List Char → Option (List Char))
    (hMe : ∀ l rem, M l = some rem →
      (∃ cons0, l = cons0 ++ rem) ∧ (rem = [] ∨ rem = ['\n'])) :
    ∀ fuel l, HasOcc ps (subAllF M [] fuel l) → HasOcc ps l := by
  intro fuel l h
  rcases subAllF_trail_shape M hMe fuel l with hs | ⟨u, t, ⟨w, hw⟩, hout, ht⟩
  · rwa [hs] at h
  · rw [hout] at h
    rcases ht with ht | ht
    · rw [ht, List.append_nil] at h
      rw [hw]
      have := hasOcc_of_infix [] w h
      rwa [List.nil_append] at this
    · rw [ht] at h
      have h2 := hasOcc_append_newline h
      rw [hw]
      have := hasOcc_of_infix [] w h2
      rwa [List.nil_append] at this

theorem pyStrip_infix (l : List Char) :
    ∃ a b, l = a ++ pyStrip l ++ b := by
  refine ⟨List.takeWhile isSpaceChar l,
    ((List.dropWhile isSpaceChar l).reverse.takeWhile isSpaceChar).reverse, ?_⟩
  calc l = List.takeWhile isSpaceChar l ++ List.dropWhile isSpaceChar l :=
        (List.takeWhile_append_dropWhile isSpaceChar l).symm
    _ = List.takeWhile isSpaceChar l ++
        (pyStrip l ++
          ((List.dropWhile isSpaceChar l).reverse.takeWhile isSpaceChar).reverse) := by
        rw [← pyStrip_mid]
    _ = List.takeWhile isSpaceChar l ++ pyStrip l ++
        ((List.dropWhile isSpaceChar l).reverse.takeWhile isSpaceChar).reverse := by
        rw [List.append_assoc]

theorem pyStrip_preserve {ps : List (List Char)} {l : List Char}
    (h : HasOcc ps (pyStrip l)) : HasOcc ps l := by
  obtain ⟨a, b, hab⟩ := pyStrip_infix l
  rw [hab]
  exact hasOcc_of_infix a b h

theorem matchAt_consume_ex {r : RE} {l rem : List Char}
    (h : matchAt r l = some rem) : ∃ cons0, l = cons0 ++ rem := by
  obtain ⟨consumed, hc, _⟩ := matchAt_consume h
  exact ⟨consumed, hc⟩

theorem matchAtEnd_consume_ex {r : RE} {l rem : List Char}
    (h : matchAtEnd r l = some rem) :
    (∃ cons0, l = cons0 ++ rem) ∧ (rem = [] ∨ rem = ['\n']) := by
  obtain ⟨⟨consumed, hc, _⟩, hr⟩ := matchAtEnd_consume h
  exact ⟨⟨consumed, hc⟩, hr⟩

theorem cleanPipeline_no_occ {ps : List (List Char)} (hsf : SpaceFree ps)
    (s0 : List Char) : ¬ HasOcc ps (cleanPipeline ps s0) := by
  intro h
  unfold cleanPipeline subAll at h
  have h10 := pyStrip_preserve h
  have h9 := subAllF_trail_preserve (matchAtEnd punctRE)
    (fun _ _ hm => matchAtEnd_consume_ex hm) _ _ h10
  have h8 := subAnchor_preserve (matchAt punctRE)
    (fun _ _ hm => matchAt_consume_ex hm) _ h9
  have h7 := subAllF_space_preserve hsf (matchAt collapseRE)
    (fun _ _ hm => matchAt_consume_ex hm) _ _ h8
  exact subAll7_no_occ hsf _ _ (Nat.le_refl _) h7

theorem clean_subject_eq_none {cfg : VersionConfig} (h : cfg.issuePrefixes = none)
    (s : List Char) : clean_subject cfg s = s := by
  unfold clean_subject
  rw [h]

theorem clean_subject_eq_some {cfg : VersionConfig} {ps : List (List Char)}
    (h : cfg.issuePrefixes = some ps) (s : List Char) :
    clean_subject cfg s =
      (if ps.isEmpty then s
       else if searchB (matchAt (issueRE ps)) s then cleanPipeline ps s else s) := by
  unfold clean_subject
  rw [h]

/-- Claim C2 (counterexample): `clean_subject` is not idempotent for every
configuration.  With the configured issue prefix "A B" (which contains a
space) and the subject "A A B1B2", one application yields "A B2", which a
second application empties out. -/
theorem C2_counterexample :
    clean_subject cfgAB (clean_subject cfgAB ("A A B1B2".toList)) ≠
      clean_subject cfgAB ("A A B1B2".toList) ∧
    clean_subject cfgAB ("A A B1B2".toList) = ("A B2".toList) ∧
    clean_subject cfgAB (clean_subject cfgAB ("A A B1B2".toList)) = [] := by
  refine ⟨?_, by decide, by decide⟩
  decide

/-- Claim C2 (amended): `clean_subject` is idempotent for every subject and
every configuration whose issue prefixes are all free of whitespace
characters; applying it twice yields the same result as applying it once. -/
theorem C2_clean_subject_idempotent_amended (cfg : VersionConfig)
    (subject : List Char)
    (hsf : ∀ ps, cfg.issuePrefixes = some ps → SpaceFree ps) :
    clean_subject cfg (clean_subject cfg subject) = clean_subject cfg subject := by
  cases hps : cfg.issuePrefixes with
  | none => rw [clean_subject_eq_none hps, clean_subject_eq_none hps]
  | some ps =>
    rw [clean_subject_eq_some hps, clean_subject_eq_some hps]
    cases he : ps.isEmpty with
    | true => simp only [he, if_true]
    | false =>
      simp only [he, Bool.false_eq_true, if_false]
      cases hs : searchB (matchAt (issueRE ps)) subject with
      | false => simp only [hs, Bool.false_eq_true, if_false]
      | true =>
        simp only [hs, if_true]
        have hno : searchB (matchAt (issueRE ps)) (cleanPipeline ps subject) = false := by
          cases hs2 : searchB (matchAt (issueRE ps)) (cleanPipeline ps subject) with
          | false => rfl
          | true =>
            exact absurd (hasOcc_of_searchB hs2)
              (cleanPipeline_no_occ (hsf ps hps) subject)
        simp only [hno, Bool.false_eq_true, if_false]

/-- Witness for C2 (amended): the idempotence theorem applied at the concrete
configuration with prefix "A" and the subject "fix A12 - bug and A13". -/
theorem C2_clean_subject_idempotent_amended_witness :
    clean_subject cfgPrefixA (clean_subject cfgPrefixA ("fix A12 - bug and A13".toList)) =
      clean_subject cfgPrefixA ("fix A12 - bug and A13".toList) :=
  C2_clean_subject_idempotent_amended cfgPrefixA ("fix A12 - bug and A13".toList)
    (fun ps h => by
      have h2 : ps = [("A".toList)] := by
        have h3 : (some [("A".toList)] : Option (List (List Char))) = some ps := h
        exact (Option.some.inj h3).symm
      rw [h2]
      intro p hp c hc
      simp at hp
      subst hp
      simp at hc
      subst hc
      decide)

example : is_custom_bump_commit cmB1 secSec = some ("v1.9.0".toList) := by
  decide

example : detect_custom_changes [cmA, cmB1, cmB2] cfgSec =
    ([cmB1, cmB2],
      [(("Sec v1.10.0".toList) ++ versionRangeSep ++ ("v1.9.0".toList), [cmA])]) := by
  decide

theorem process_single_commit_skip {c : Commit} (cfg : VersionConfig)
    (h : containsSub ciSkipMarker c.subject = true) :
    process_single_commit c cfg = none := by
  unfold process_single_commit
  rw [if_pos h]

theorem marker_false_of_processed {c : Commit} {cfg : VersionConfig}
    {x : List Char × ProcCommit} (h : process_single_commit c cfg = some x) :
    containsSub ciSkipMarker c.subject = false := by
  cases hm : containsSub ciSkipMarker c.subject with
  | false => rfl
  | true => rw [process_single_commit_skip cfg hm] at h; exact absurd h (by simp)

theorem mem_sectionProcCommits {pc : ProcCommit} :
    ∀ {ts : List (List Char × TypeSection)},
      pc ∈ sectionProcCommits ts ↔ ∃ e ∈ ts, pc ∈ e.2.commits := by
  intro ts
  induction ts with
  | nil =>
    have hd : sectionProcCommits ([] : List (List Char × TypeSection)) = [] := rfl
    rw [hd]
    constructor
    · intro h
      exact absurd h (List.not_mem_nil pc)
    · rintro ⟨e, he, _⟩
      exact absurd he (List.not_mem_nil e)
  | cons a rest ih =>
    have hd : sectionProcCommits (a :: rest) = a.2.commits ++ sectionProcCommits rest := rfl
    rw [hd]
    constructor
    · intro h
      rcases List.mem_append.mp h with h1 | h1
      · exact ⟨a, List.mem_cons_self _ _, h1⟩
      · obtain ⟨e, he, hp⟩ := ih.mp h1
        exact ⟨e, List.mem_cons_of_mem _ he, hp⟩
    · rintro ⟨e, he, hp⟩
      rcases List.mem_cons.mp he with h1 | h1
      · exact List.mem_append.mpr (Or.inl (h1 ▸ hp))
      · exact List.mem_append.mpr (Or.inr (ih.mpr ⟨e, h1, hp⟩))

theorem mem_upsertA {β : Type} {e : List Char × β} :
    ∀ {l : List (List Char × β)} {k : List Char} {v : β},
      e ∈ upsertA l k v → e ∈ l ∨ e = (k, v) := by
  intro l
  induction l with
  | nil =>
    intro k v h
    unfold upsertA at h
    simp at h
    right
    rw [h]
  | cons a rest ih =>
    intro k v h
    obtain ⟨ka, va⟩ := a
    unfold upsertA at h
    by_cases hk : ka = k
    · rw [if_pos hk] at h
      rcases List.mem_cons.mp h with h1 | h1
      · right; rw [h1, hk]
      · left; exact List.mem_cons_of_mem _ h1
    · rw [if_neg hk] at h
      rcases List.mem_cons.mp h with h1 | h1
      · left; rw [h1]; exact List.mem_cons_self _ _
      · rcases ih h1 with h2 | h2
        · left; exact List.mem_cons_of_mem _ h2
        · right; exact h2

theorem create_empty_all_empty (cfg : VersionConfig) :
    ∀ e ∈ create_empty_type_sections cfg, e.2.commits = [] := by
  unfold create_empty_type_sections
  have hgen : ∀ (tes : List TypeEntry) (acc : List (List Char × TypeSection)),
      (∀ e ∈ acc, e.2.commits = []) →
      ∀ e ∈ tes.foldl (fun acc te => upsertA acc te.ctype ⟨te.sectionTitle, []⟩) acc,
        e.2.commits = [] := by
    intro tes
    induction tes with
    | nil => intro acc hacc e he; exact hacc e he
    | cons te rest ih =>
      intro acc hacc e he
      refine ih _ ?_ e he
      intro e2 he2
      rcases mem_upsertA he2 with h1 | h1
      · exact hacc e2 h1
      · rw [h1]
  exact hgen cfg.types [] (by intro e he; simp at he)

theorem mem_appendTS {pc pc' : ProcCommit} {t : List Char} :
    ∀ {ts : List (List Char × TypeSection)},
      pc ∈ sectionProcCommits (appendTS ts t pc') →
      pc ∈ sectionProcCommits ts ∨ pc = pc' := by
  intro ts
  induction ts with
  | nil =>
    intro h
    unfold appendTS at h
    exact Or.inl h
  | cons a rest ih =>
    intro h
    obtain ⟨ka, va⟩ := a
    unfold appendTS at h
    by_cases hk : ka = t
    · rw [if_pos hk] at h
      rcases mem_sectionProcCommits.mp h with ⟨e, he, hpc⟩
      rcases List.mem_cons.mp he with h1 | h1
      · rw [h1] at hpc
        simp at hpc
        rcases hpc with h2 | h2
        · exact Or.inl (mem_sectionProcCommits.mpr
            ⟨(ka, va), List.mem_cons_self _ _, h2⟩)
        · exact Or.inr h2
      · exact Or.inl (mem_sectionProcCommits.mpr
          ⟨e, List.mem_cons_of_mem _ h1, hpc⟩)
    · rw [if_neg hk] at h
      rcases mem_sectionProcCommits.mp h with ⟨e, he, hpc⟩
      rcases List.mem_cons.mp he with h1 | h1
      · exact Or.inl (mem_sectionProcCommits.mpr
          ⟨e, h1 ▸ List.mem_cons_self _ _, hpc⟩)
      · rcases ih (mem_sectionProcCommits.mpr ⟨e, h1, hpc⟩) with h2 | h2
        · rcases mem_sectionProcCommits.mp h2 with ⟨e2, he2, hpc2⟩
          exact Or.inl (mem_sectionProcCommits.mpr
            ⟨e2, List.mem_cons_of_mem _ he2, hpc2⟩)
        · exact Or.inr h2

theorem add_commits_provenance (cfg : VersionConfig) {pc : ProcCommit} :
    ∀ (cs : List Commit) (ts : List (List Char × TypeSection)),
      pc ∈ sectionProcCommits (add_commits_to_sections cfg cs ts) →
      pc ∈ sectionProcCommits ts ∨
        ∃ c ∈ cs, ∃ t, process_single_commit c cfg = some (t, pc) := by
  intro cs
  induction cs with
  | nil => intro ts h; exact Or.inl h
  | cons c rest ih =>
    intro ts h
    unfold add_commits_to_sections at h
    rcases hp : process_single_commit c cfg with _ | tp
    · rw [hp] at h
      rcases ih _ h with h1 | ⟨c2, hc2, t2, ht2⟩
      · exact Or.inl h1
      · exact Or.inr ⟨c2, List.mem_cons_of_mem _ hc2, t2, ht2⟩
    · rw [hp] at h
      obtain ⟨t, pc'⟩ := tp
      have h' : pc ∈ sectionProcCommits (add_commits_to_sections cfg rest
          (if hasKey ts t then appendTS ts t pc' else ts)) := h
      by_cases hk : hasKey ts t = true
      · rw [if_pos hk] at h'
        rcases ih _ h' with h1 | ⟨c2, hc2, t2, ht2⟩
        · rcases mem_appendTS h1 with h2 | h2
          · exact Or.inl h2
          · exact Or.inr ⟨c, List.mem_cons_self _ _, t, by rw [hp, h2]⟩
        · exact Or.inr ⟨c2, List.mem_cons_of_mem _ hc2, t2, ht2⟩
      · rw [if_neg hk] at h'
        rcases ih _ h' with h1 | ⟨c2, hc2, t2, ht2⟩
        · exact Or.inl h1
        · exact Or.inr ⟨c2, List.mem_cons_of_mem _ hc2, t2, ht2⟩

theorem pscStep_fst (commits : List Commit) (sc : RawCustomSection)
    (acc : List Commit × List (List Char)) (i : Nat) :
    (pscStep commits sc acc i).1 = acc.1 ∨
    ∃ change, commits.get? (i - 1) = some change ∧
      (pscStep commits sc acc i).1 = acc.1 ++ [change] := by
  unfold pscStep
  split
  · left; rfl
  · split
    · left; rfl
    · show (if 0 < i then
          match commits.get? (i - 1) with
          | some change =>
            if change ∈ acc.1 ∨ (is_custom_bump_commit change sc).isSome
            then acc.1 else acc.1 ++ [change]
          | none => acc.1
        else acc.1) = acc.1 ∨ _
      split
      · split
        · split
          · left; rfl
          · rename_i hg2 hin
            right
            exact ⟨_, hg2, rfl⟩
        · left; rfl
      · left; rfl

theorem pscStep_provenance {commits : List Commit} {sc : RawCustomSection}
    {acc : List Commit × List (List Char)} {i : Nat}
    (hacc : ∀ c ∈ acc.1, c ∈ commits) :
    ∀ c ∈ (pscStep commits sc acc i).1, c ∈ commits := by
  intro c hc
  rcases pscStep_fst commits sc acc i with h | ⟨change, hg, h⟩
  · rw [h] at hc
    exact hacc c hc
  · rw [h] at hc
    rcases List.mem_append.mp hc with h1 | h1
    · exact hacc c h1
    · have h2 : c = change := by simpa using h1
      rw [h2]
      exact List.get?_mem hg

theorem pscAux_provenance {commits : List Commit} {sc : RawCustomSection} :
    ∀ (is0 : List Nat) (acc : List Commit × List (List Char)),
      (∀ c ∈ acc.1, c ∈ commits) →
      ∀ c ∈ (pscAux commits sc is0 acc).1, c ∈ commits := by
  intro is0
  induction is0 with
  | nil => intro acc hacc; exact hacc
  | cons i rest ih =>
    intro acc hacc
    exact ih _ (pscStep_provenance hacc)

theorem psc_provenance {commits : List Commit} {sc : RawCustomSection} :
    ∀ c ∈ (process_section_commits commits sc).1, c ∈ commits :=
  pscAux_provenance _ _ (by intro c hc; simp at hc)

theorem dccAux_provenance {commits : List Commit} :
    ∀ (es : List (List Char × RawCustomSection))
      (acc : List Commit × List (List Char × List Commit)),
      (∀ e ∈ acc.2, ∀ c ∈ e.2, c ∈ commits) →
      ∀ e ∈ (dccAux commits es acc).2, ∀ c ∈ e.2, c ∈ commits := by
  intro es
  induction es with
  | nil => intro acc hacc; exact hacc
  | cons s rest ih =>
    intro acc hacc
    refine ih _ ?_
    intro e he c hc
    unfold dccStep at he
    by_cases hne : (process_section_commits commits s.2).1 ≠ [] ∧
        (process_section_commits commits s.2).2 ≠ []
    · rw [if_pos hne] at he
      rcases mem_upsertA he with h1 | h1
      · exact hacc e h1 c hc
      · rw [h1] at hc
        exact psc_provenance c hc
    · rw [if_neg hne] at he
      exact hacc e he c hc

theorem detect_provenance_regular {commits : List Commit} {cfg : VersionConfig} :
    ∀ c ∈ (detect_custom_changes commits cfg).1, c ∈ commits := by
  intro c hc
  unfold detect_custom_changes at hc
  by_cases he : (get_custom_sections_config cfg).isEmpty = true
  · rw [if_pos he] at hc
    exact hc
  · rw [if_neg he] at hc
    exact List.mem_of_mem_filter hc

theorem detect_provenance_custom {commits : List Commit} {cfg : VersionConfig} :
    ∀ e ∈ (detect_custom_changes commits cfg).2, ∀ c ∈ e.2, c ∈ commits := by
  intro e he c hc
  unfold detect_custom_changes at he
  by_cases hie : (get_custom_sections_config cfg).isEmpty = true
  · rw [if_pos hie] at he
    exact absurd he (List.not_mem_nil e)
  · rw [if_neg hie] at he
    exact dccAux_provenance _ _ (by intro e2 he2; simp at he2) e he c hc

theorem process_commits_fst (commits : List Commit) (cfg : VersionConfig) :
    (process_commits commits cfg).1 =
      add_commits_to_sections cfg (detect_custom_changes commits cfg).1
        (create_empty_type_sections cfg) := rfl

theorem process_commits_snd (commits : List Commit) (cfg : VersionConfig) :
    (process_commits commits cfg).2 =
      (detect_custom_changes commits cfg).2.map (fun e =>
        (e.1, add_commits_to_sections cfg e.2 (create_empty_type_sections cfg))) := rfl

theorem not_mem_empty_sections {pc : ProcCommit} (cfg : VersionConfig) :
    pc ∉ sectionProcCommits (create_empty_type_sections cfg) := by
  intro h
  rcases mem_sectionProcCommits.mp h with ⟨e, he, hin⟩
  rw [create_empty_all_empty cfg e he] at hin
  exact List.not_mem_nil pc hin

/-- Claim C3: for every list of commits and every configuration, every
processed commit rendered in any section (regular or custom) of
`process_commits` originates from an input commit whose subject does not
contain the literal substring `[ci skip]`; moreover `_process_single_commit`
rejects every commit whose subject contains that marker, so such commits
are excluded from every section of the output. -/
theorem C3_ci_skip_excluded (commits : List Commit) (cfg : VersionConfig) :
    (∀ pc ∈ allRendered (process_commits commits cfg),
      ∃ c ∈ commits, containsSub ciSkipMarker c.subject = false ∧
        ∃ t, process_single_commit c cfg = some (t, pc)) ∧
    (∀ c : Commit, containsSub ciSkipMarker c.subject = true →
      process_single_commit c cfg = none) := by
  constructor
  · intro pc hpc
    unfold allRendered at hpc
    rcases List.mem_append.mp hpc with h1 | h1
    · rw [process_commits_fst] at h1
      rcases add_commits_provenance cfg _ _ h1 with h2 | ⟨c, hc, t, ht⟩
      · exact absurd h2 (not_mem_empty_sections cfg)
      · exact ⟨c, detect_provenance_regular c hc,
          marker_false_of_processed ht, t, ht⟩
    · rw [process_commits_snd] at h1
      rcases List.mem_flatten.mp h1 with ⟨l, hl, hpc2⟩
      rcases List.mem_map.mp hl with ⟨e2, he2, hle⟩
      rcases List.mem_map.mp he2 with ⟨e, he, hfe⟩
      rw [← hle, ← hfe] at hpc2
      rcases add_commits_provenance cfg _ _ hpc2 with h2 | ⟨c, hc, t, ht⟩
      · exact absurd h2 (not_mem_empty_sections cfg)
      · exact ⟨c, detect_provenance_custom e he c hc,
          marker_false_of_processed ht, t, ht⟩
  · intro c hm
    exact process_single_commit_skip cfg hm

/-- Witness for C3: the theorem applied at a concrete commit list and
configuration, with the memberships discharged by evaluation. -/
theorem C3_ci_skip_excluded_witness :
    (∃ c ∈ [cmA, cmSkip], containsSub ciSkipMarker c.subject = false ∧
      ∃ t, process_single_commit c cfgSec = some (t, pcA)) ∧
    process_single_commit cmSkip cfgSec = none :=
  ⟨(C3_ci_skip_excluded [cmA, cmSkip] cfgSec).1 pcA (by decide),
    (C3_ci_skip_excluded [cmA, cmSkip] cfgSec).2 cmSkip (by decide)⟩

theorem pscAux_append (commits : List Commit) (sc : RawCustomSection) :
    ∀ (is1 is2 : List Nat) (acc : List Commit × List (List Char)),
      pscAux commits sc (is1 ++ is2) acc =
        pscAux commits sc is2 (pscAux commits sc is1 acc) := by
  intro is1
  induction is1 with
  | nil => intro is2 acc; rfl
  | cons i rest ih =>
    intro is2 acc
    show pscAux commits sc (rest ++ is2) (pscStep commits sc acc i) = _
    rw [ih]
    rfl

theorem pscStep_eq_none {commits : List Commit} {sc : RawCustomSection}
    {acc : List Commit × List (List Char)} {i : Nat}
    (hg : commits.get? i = none) : pscStep commits sc acc i = acc := by
  simp only [pscStep, hg]

theorem pscStep_eq_nobump {commits : List Commit} {sc : RawCustomSection}
    {acc : List Commit × List (List Char)} {i : Nat} {commit : Commit}
    (hg : commits.get? i = some commit)
    (hb : is_custom_bump_commit commit sc = none) :
    pscStep commits sc acc i = acc := by
  simp only [pscStep, hg, hb]

theorem pscStep_eq_bump {commits : List Commit} {sc : RawCustomSection}
    {acc : List Commit × List (List Char)} {i : Nat} {commit : Commit}
    {v : List Char} (hg : commits.get? i = some commit)
    (hb : is_custom_bump_commit commit sc = some v) :
    pscStep commits sc acc i =
      ((if 0 < i then
          match commits.get? (i - 1) with
          | some change =>
            if change ∈ acc.1 ∨ (is_custom_bump_commit change sc).isSome
            then acc.1 else acc.1 ++ [change]
          | none => acc.1
        else acc.1), acc.2 ++ [v]) := by
  simp only [pscStep, hg, hb]

theorem psc_char (commits : List Commit) (sc : RawCustomSection) :
    ∀ n,
      (∀ c, c ∈ (pscAux commits sc (List.range n) ([], [])).1 ↔
        OccUpTo commits sc n c) ∧
      (pscAux commits sc (List.range n) ([], [])).2 =
        (commits.take n).filterMap (fun c => is_custom_bump_commit c sc) := by
  intro n
  induction n with
  | zero =>
    constructor
    · intro c
      constructor
      · intro h
        exact absurd h (List.not_mem_nil c)
      · rintro ⟨-, i, b, hi, -⟩
        exact absurd hi (Nat.not_lt_zero i)
    · rfl
  | succ n ih =>
    obtain ⟨ih1, ih2⟩ := ih
    have hstep : pscAux commits sc (List.range (n + 1)) ([], []) =
        pscStep commits sc (pscAux commits sc (List.range n) ([], [])) n := by
      rw [List.range_succ, pscAux_append]
      rfl
    rw [hstep]
    cases hg : commits.get? n with
    | none =>
      rw [pscStep_eq_none hg]
      constructor
      · intro c
        rw [ih1 c]
        constructor
        · rintro ⟨hc, i, b, hi, h0, hib, hbs, hprev⟩
          exact ⟨hc, i, b, Nat.lt_succ_of_lt hi, h0, hib, hbs, hprev⟩
        · rintro ⟨hc, i, b, hi, h0, hib, hbs, hprev⟩
          refine ⟨hc, i, b, ?_, h0, hib, hbs, hprev⟩
          rcases Nat.lt_succ_iff_lt_or_eq.mp hi with h | h
          · exact h
          · rw [h, hg] at hib
            exact absurd hib (by simp)
      · rw [ih2]
        have ht : commits.take (n + 1) = commits.take n := by
          rw [List.take_succ]
          have hn : commits[n]? = none := by
            rw [← List.get?_eq_getElem?]
            exact hg
          rw [hn]
          simp
        rw [ht]
    | some commit =>
      have htake : commits.take (n + 1) = commits.take n ++ [commit] := by
        rw [List.take_succ]
        have hn : commits[n]? = some commit := by
          rw [← List.get?_eq_getElem?]
          exact hg
        rw [hn]
        rfl
      cases hb : is_custom_bump_commit commit sc with
      | none =>
        rw [pscStep_eq_nobump hg hb]
        constructor
        · intro c
          rw [ih1 c]
          constructor
          · rintro ⟨hc, i, b, hi, h0, hib, hbs, hprev⟩
            exact ⟨hc, i, b, Nat.lt_succ_of_lt hi, h0, hib, hbs, hprev⟩
          · rintro ⟨hc, i, b, hi, h0, hib, hbs, hprev⟩
            refine ⟨hc, i, b, ?_, h0, hib, hbs, hprev⟩
            rcases Nat.lt_succ_iff_lt_or_eq.mp hi with h | h
            · exact h
            · exfalso
              rw [h, hg] at hib
              have hbc : b = commit := by
                have h2 := hib
                simp at h2
                exact h2.symm
              rw [hbc, hb] at hbs
              exact absurd hbs (by simp)
        · rw [ih2, htake, List.filterMap_append]
          simp [hb]
      | some v =>
        rw [pscStep_eq_bump hg hb]
        constructor
        · intro c
          by_cases hn0 : 0 < n
          · rw [if_pos hn0]
            split
            · rename_i change hg2
              by_cases hin : change ∈ (pscAux commits sc (List.range n) ([], [])).1 ∨
                  (is_custom_bump_commit change sc).isSome
              · rw [if_pos hin]
                rw [ih1 c]
                constructor
                · rintro ⟨hc, i, b, hi, h0, hib, hbs, hprev⟩
                  exact ⟨hc, i, b, Nat.lt_succ_of_lt hi, h0, hib, hbs, hprev⟩
                · rintro ⟨hc, i, b, hi, h0, hib, hbs, hprev⟩
                  rcases Nat.lt_succ_iff_lt_or_eq.mp hi with h | h
                  · exact ⟨hc, i, b, h, h0, hib, hbs, hprev⟩
                  · rw [h] at hprev
                    rw [hprev] at hg2
                    have hcc : change = c := by
                      have h2 := hg2
                      simp at h2
                      exact h2.symm
                    rcases hin with hin1 | hin1
                    · rw [← hcc]
                      exact (ih1 change).mp hin1
                    · exfalso
                      rw [hcc, hc] at hin1
                      exact absurd hin1 (by simp)
              · rw [if_neg hin]
                constructor
                · intro h
                  rcases List.mem_append.mp h with h1 | h1
                  · obtain ⟨hc, i, b, hi, h0, hib, hbs, hprev⟩ := (ih1 c).mp h1
                    exact ⟨hc, i, b, Nat.lt_succ_of_lt hi, h0, hib, hbs, hprev⟩
                  · have hcc : c = change := by simpa using h1
                    rw [hcc]
                    have hcnone : is_custom_bump_commit change sc = none :=
                      Option.not_isSome_iff_eq_none.mp (fun hs => hin (Or.inr hs))
                    refine ⟨hcnone, n, commit, Nat.lt_succ_self n, hn0, hg, ?_, hg2⟩
                    simp [hb]
                · rintro ⟨hc, i, b, hi, h0, hib, hbs, hprev⟩
                  rcases Nat.lt_succ_iff_lt_or_eq.mp hi with h | h
                  · exact List.mem_append.mpr
                      (Or.inl ((ih1 c).mpr ⟨hc, i, b, h, h0, hib, hbs, hprev⟩))
                  · rw [h] at hprev
                    rw [hprev] at hg2
                    have hcc : change = c := by
                      have h2 := hg2
                      simp at h2
                      exact h2.symm
                    refine List.mem_append.mpr (Or.inr ?_)
                    simp [hcc]
            · rename_i hg2
              exfalso
              have h1 : commits.length ≤ n - 1 := List.get?_eq_none.mp hg2
              have h2 : ¬ commits.length ≤ n := by
                intro hle
                rw [List.get?_eq_none.mpr hle] at hg
                exact absurd hg (by simp)
              omega
          · rw [if_neg hn0]
            rw [ih1 c]
            constructor
            · rintro ⟨hc, i, b, hi, h0, hib, hbs, hprev⟩
              exact ⟨hc, i, b, Nat.lt_succ_of_lt hi, h0, hib, hbs, hprev⟩
            · rintro ⟨hc, i, b, hi, h0, hib, hbs, hprev⟩
              refine ⟨hc, i, b, ?_, h0, hib, hbs, hprev⟩
              omega
        · show (pscAux commits sc (List.range n) ([], [])).2 ++ [v] = _
          rw [ih2, htake, List.filterMap_append]
          simp [hb]

theorem psc_mem (commits : List Commit) (sc : RawCustomSection) (c : Commit) :
    c ∈ (process_section_commits commits sc).1 ↔
      is_custom_bump_commit c sc = none ∧
      ∃ i b, 0 < i ∧ commits.get? i = some b ∧
        (is_custom_bump_commit b sc).isSome = true ∧
        commits.get? (i - 1) = some c := by
  unfold process_section_commits
  rw [(psc_char commits sc commits.length).1 c]
  constructor
  · rintro ⟨hc, i, b, _, h0, hib, hbs, hprev⟩
    exact ⟨hc, i, b, h0, hib, hbs, hprev⟩
  · rintro ⟨hc, i, b, h0, hib, hbs, hprev⟩
    refine ⟨hc, i, b, ?_, h0, hib, hbs, hprev⟩
    by_contra hlt
    rw [List.get?_eq_none.mpr (Nat.le_of_not_lt hlt)] at hib
    exact absurd hib (by simp)

theorem psc_versions (commits : List Commit) (sc : RawCustomSection) :
    (process_section_commits commits sc).2 =
      commits.filterMap (fun c => is_custom_bump_commit c sc) := by
  have h := (psc_char commits sc commits.length).2
  rw [List.take_length] at h
  unfold process_section_commits
  exact h

theorem psc_fst_ne_nil_imp (commits : List Commit) (sc : RawCustomSection)
    (h : (process_section_commits commits sc).1 ≠ []) :
    (process_section_commits commits sc).2 ≠ [] := by
  rcases List.exists_mem_of_ne_nil _ h with ⟨c, hc⟩
  obtain ⟨-, i, b, -, hib, hbs, -⟩ := (psc_mem commits sc c).mp hc
  obtain ⟨v, hv⟩ := Option.isSome_iff_exists.mp hbs
  have hmem : v ∈ (process_section_commits commits sc).2 := by
    rw [psc_versions]
    exact List.mem_filterMap.mpr ⟨b, List.get?_mem hib, hv⟩
  intro hnil
  rw [hnil] at hmem
  exact List.not_mem_nil v hmem

theorem lexLe_refl : ∀ l : List Char, lexLe l l = true := by
  intro l
  induction l with
  | nil => rfl
  | cons a as ih =>
    unfold lexLe
    rw [if_pos rfl]
    exact ih

theorem lexLe_total : ∀ a b : List Char, lexLe a b = true ∨ lexLe b a = true := by
  intro a
  induction a with
  | nil => intro b; left; rfl
  | cons x xs ih =>
    intro b
    cases b with
    | nil => right; rfl
    | cons y ys =>
      by_cases hxy : x = y
      · unfold lexLe
        rw [if_pos hxy, if_pos hxy.symm]
        exact ih ys
      · rcases lt_or_gt_of_ne hxy with h | h
        · left
          unfold lexLe
          rw [if_neg hxy]
          simpa using h
        · right
          unfold lexLe
          rw [if_neg (Ne.symm hxy)]
          simpa using h

theorem lexLe_trans : ∀ a b c : List Char,
    lexLe a b = true → lexLe b c = true → lexLe a c = true := by
  intro a
  induction a with
  | nil => intro b c _ _; rfl
  | cons x xs ih =>
    intro b c hab hbc
    cases b with
    | nil => exact absurd hab (by simp [lexLe])
    | cons y ys =>
      cases c with
      | nil => exact absurd hbc (by simp [lexLe])
      | cons z zs =>
        unfold lexLe at hab hbc ⊢
        by_cases hxy : x = y
        · rw [if_pos hxy] at hab
          by_cases hyz : y = z
          · rw [if_pos hyz] at hbc
            rw [if_pos (hxy.trans hyz)]
            exact ih ys zs hab hbc
          · rw [if_neg hyz] at hbc
            have hyltz : y < z := by simpa using hbc
            have hxltz : x < z := hxy ▸ hyltz
            rw [if_neg (ne_of_lt hxltz)]
            simpa using hxltz
        · rw [if_neg hxy] at hab
          have hxlty : x < y := by simpa using hab
          by_cases hyz : y = z
          · have hxltz : x < z := hyz ▸ hxlty
            rw [if_neg (ne_of_lt hxltz)]
            simpa using hxltz
          · rw [if_neg hyz] at hbc
            have hyltz : y < z := by simpa using hbc
            have hxltz : x < z := lt_trans hxlty hyltz
            rw [if_neg (ne_of_lt hxltz)]
            simpa using hxltz

theorem mem_pyInsert {x v : List Char} :
    ∀ {l : List (List Char)}, x ∈ pyInsert v l ↔ x = v ∨ x ∈ l := by
  intro l
  induction l with
  | nil => simp [pyInsert]
  | cons w ws ih =>
    unfold pyInsert
    by_cases h : lexLe v w = true
    · rw [if_pos h]
      simp
    · rw [if_neg h]
      constructor
      · intro hm
        rcases List.mem_cons.mp hm with h1 | h1
        · right; exact h1 ▸ List.mem_cons_self _ _
        · rcases ih.mp h1 with h2 | h2
          · left; exact h2
          · right; exact List.mem_cons_of_mem _ h2
      · intro hm
        rcases hm with h1 | h1
        · exact List.mem_cons_of_mem _ (ih.mpr (Or.inl h1))
        · rcases List.mem_cons.mp h1 with h2 | h2
          · exact h2 ▸ List.mem_cons_self _ _
          · exact List.mem_cons_of_mem _ (ih.mpr (Or.inr h2))

theorem mem_pySort {x : List Char} :
    ∀ {l : List (List Char)}, x ∈ pySort l ↔ x ∈ l := by
  intro l
  induction l with
  | nil => simp [pySort]
  | cons v vs ih =>
    show x ∈ pyInsert v (pySort vs) ↔ _
    rw [mem_pyInsert]
    constructor
    · intro h
      rcases h with h1 | h1
      · exact h1 ▸ List.mem_cons_self _ _
      · exact List.mem_cons_of_mem _ (ih.mp h1)
    · intro h
      rcases List.mem_cons.mp h with h1 | h1
      · exact Or.inl h1
      · exact Or.inr (ih.mpr h1)

theorem pyInsert_sorted {v : List Char} :
    ∀ {l : List (List Char)},
      l.Pairwise (fun a b => lexLe a b = true) →
      (pyInsert v l).Pairwise (fun a b => lexLe a b = true) := by
  intro l
  induction l with
  | nil =>
    intro _
    exact List.pairwise_singleton _ v
  | cons w ws ih =>
    intro h
    obtain ⟨hw, hws⟩ := List.pairwise_cons.mp h
    unfold pyInsert
    by_cases hvw : lexLe v w = true
    · rw [if_pos hvw]
      refine List.pairwise_cons.mpr ⟨?_, h⟩
      intro y hy
      rcases List.mem_cons.mp hy with h1 | h1
      · exact h1 ▸ hvw
      · exact lexLe_trans v w y hvw (hw y h1)
    · rw [if_neg hvw]
      refine List.pairwise_cons.mpr ⟨?_, ih hws⟩
      intro y hy
      rcases mem_pyInsert.mp hy with h1 | h1
      · rcases lexLe_total v w with h2 | h2
        · exact absurd h2 hvw
        · exact h1 ▸ h2
      · exact hw y h1

theorem pySort_sorted :
    ∀ l : List (List Char), (pySort l).Pairwise (fun a b => lexLe a b = true) := by
  intro l
  induction l with
  | nil => exact List.Pairwise.nil
  | cons v vs ih => exact pyInsert_sorted ih

theorem sorted_head_min {v : List Char} {rest : List (List Char)}
    (h : (v :: rest).Pairwise (fun a b => lexLe a b = true)) :
    ∀ x ∈ v :: rest, lexLe v x = true := by
  intro x hx
  rcases List.mem_cons.mp hx with h1 | h1
  · exact h1 ▸ lexLe_refl v
  · exact (List.pairwise_cons.mp h).1 x h1

theorem sorted_last_max :
    ∀ {l : List (List Char)} (hne : l ≠ []),
      l.Pairwise (fun a b => lexLe a b = true) →
      ∀ x ∈ l, lexLe x (l.getLast hne) = true := by
  intro l
  induction l with
  | nil => intro hne; exact absurd rfl hne
  | cons v rest ih =>
    intro hne h x hx
    cases rest with
    | nil =>
      have hx2 : x = v := by simpa using hx
      rw [hx2]
      exact lexLe_refl v
    | cons w ws =>
      rw [List.getLast_cons (List.cons_ne_nil w ws)]
      rcases List.mem_cons.mp hx with h1 | h1
      · have hlast : (w :: ws).getLast (List.cons_ne_nil w ws) ∈ w :: ws :=
          List.getLast_mem _
        exact h1 ▸ (List.pairwise_cons.mp h).1 _ hlast
      · exact ih (List.cons_ne_nil w ws) (List.pairwise_cons.mp h).2 x h1

theorem pySort_ne_nil {l : List (List Char)} (h : l ≠ []) : pySort l ≠ [] := by
  rcases List.exists_mem_of_ne_nil _ h with ⟨x, hx⟩
  intro hnil
  have h2 : x ∈ pySort l := mem_pySort.mpr hx
  rw [hnil] at h2
  exact List.not_mem_nil x h2

theorem create_version_range_spec (vs : List (List Char)) (h : vs ≠ []) :
    ∃ oldest newest, oldest ∈ vs ∧ newest ∈ vs ∧
      (∀ v ∈ vs, lexLe oldest v = true ∧ lexLe v newest = true) ∧
      create_version_range vs =
        (if oldest ≠ newest then oldest ++ versionRangeSep ++ newest
         else ("up to ".toList) ++ newest) := by
  cases hs : pySort vs with
  | nil => exact absurd hs (pySort_ne_nil h)
  | cons v rest =>
    refine ⟨v, (v :: rest).getLast (List.cons_ne_nil v rest), ?_, ?_, ?_, ?_⟩
    · have h1 : v ∈ pySort vs := by
        rw [hs]
        exact List.mem_cons_self v rest
      exact mem_pySort.mp h1
    · have h1 : (v :: rest).getLast (List.cons_ne_nil v rest) ∈ pySort vs := by
        rw [hs]
        exact List.getLast_mem _
      exact mem_pySort.mp h1
    · intro w hw
      have hw2 : w ∈ v :: rest := by
        rw [← hs]
        exact mem_pySort.mpr hw
      have hsorted : (v :: rest).Pairwise (fun a b => lexLe a b = true) := by
        rw [← hs]
        exact pySort_sorted vs
      exact ⟨sorted_head_min hsorted w hw2,
        sorted_last_max (List.cons_ne_nil v rest) hsorted w hw2⟩
    · unfold create_version_range
      rw [hs]

theorem dccAux_single {commits : List Commit} {nm : List Char}
    {sc : RawCustomSection} :
    dccAux commits [(nm, sc)] ([], []) =
      (if (process_section_commits commits sc).1 ≠ [] ∧
          (process_section_commits commits sc).2 ≠ [] then
        ((process_section_commits commits sc).1,
          [(build_section_title nm (create_version_range
              (process_section_commits commits sc).2),
            (process_section_commits commits sc).1)])
       else ([], [])) := by
  show dccStep commits ([], []) (nm, sc) = _
  unfold dccStep
  by_cases hfire : (process_section_commits commits sc).1 ≠ [] ∧
      (process_section_commits commits sc).2 ≠ []
  · rw [if_pos hfire, if_pos hfire]
    rfl
  · rw [if_neg hfire, if_neg hfire]

theorem detect_single_section {commits : List Commit} {cfg : VersionConfig}
    {nm : List Char} {sc : RawCustomSection}
    (hcfg : get_custom_sections_config cfg = [(nm, sc)]) :
    (detect_custom_changes commits cfg).1 =
      commits.filter (fun c =>
        !(List.elem c (process_section_commits commits sc).1)) ∧
    (detect_custom_changes commits cfg).2 =
      (if (process_section_commits commits sc).1 ≠ [] ∧
          (process_section_commits commits sc).2 ≠ [] then
        [(build_section_title nm (create_version_range
            (process_section_commits commits sc).2),
          (process_section_commits commits sc).1)]
       else []) := by
  have hdet : detect_custom_changes commits cfg =
      (commits.filter (fun c =>
        !(List.elem c (dccAux commits [(nm, sc)] ([], [])).1)),
        (dccAux commits [(nm, sc)] ([], [])).2) := by
    unfold detect_custom_changes
    rw [hcfg]
    rfl
  rw [hdet, dccAux_single]
  by_cases hfire : (process_section_commits commits sc).1 ≠ [] ∧
      (process_section_commits commits sc).2 ≠ []
  · simp only [if_pos hfire]
    exact ⟨trivial, trivial⟩
  · simp only [if_neg hfire]
    have hcc : (process_section_commits commits sc).1 = [] := by
      by_contra hcc
      exact hfire ⟨hcc, psc_fst_ne_nil_imp commits sc hcc⟩
    constructor
    · rw [hcc]
    · trivial

/-- Claim C4 (counterexample): the classifier does not make the custom
partition "exactly the single commit immediately preceding each detected
bump commit", and the combined section title does not span the
oldest-to-newest detected version.  With bump commits `cmB1` (v1.9.0) and
`cmB2` (v1.10.0) in sequence, `cmB1` immediately precedes the detected bump
`cmB2` yet is classified regular (because it is itself a bump commit), and
the title orders the versions lexicographically — "v1.10.0 … v1.9.0" —
which is newest-to-oldest numerically. -/
theorem C4_counterexample :
    (is_custom_bump_commit cmB2 secSec).isSome = true ∧
    [cmA, cmB1, cmB2].get? 2 = some cmB2 ∧
    [cmA, cmB1, cmB2].get? 1 = some cmB1 ∧
    (detect_custom_changes [cmA, cmB1, cmB2] cfgSec).1 = [cmB1, cmB2] ∧
    (process_section_commits [cmA, cmB1, cmB2] secSec).2 =
      [("v1.9.0".toList), ("v1.10.0".toList)] ∧
    (detect_custom_changes [cmA, cmB1, cmB2] cfgSec).2 =
      [(("Sec ".toList) ++ ("v1.10.0".toList) ++ versionRangeSep ++ ("v1.9.0".toList),
        [cmA])] ∧
    (detect_custom_changes [cmA, cmB1, cmB2] cfgSec).2 ≠
      [(("Sec ".toList) ++ ("v1.9.0".toList) ++ versionRangeSep ++ ("v1.10.0".toList),
        [cmA])] := by
  refine ⟨by decide, by decide, by decide, by decide, by decide, by decide, by decide⟩

/-- Claim C4 (amended): when exactly one custom-section rule is active, the
custom partition consists exactly of the commits that immediately precede a
detected bump commit and are not themselves bump commits (deduplicated); the
regular partition is all remaining commits; the detected versions are those
extracted from every bump commit in order; both partitions are classified
with the same type/section rules; multiple bump commits accumulate into one
combined section whose title spans the lexicographically smallest to the
lexicographically largest detected version (not the numerically
oldest-to-newest). -/
theorem C4_custom_sections_amended (commits : List Commit) (cfg : VersionConfig)
    (nm : List Char) (sc : RawCustomSection)
    (hcfg : get_custom_sections_config cfg = [(nm, sc)]) :
    (∀ c, c ∈ (process_section_commits commits sc).1 ↔
      is_custom_bump_commit c sc = none ∧
      ∃ i b, 0 < i ∧ commits.get? i = some b ∧
        (is_custom_bump_commit b sc).isSome = true ∧
        commits.get? (i - 1) = some c) ∧
    (process_section_commits commits sc).2 =
      commits.filterMap (fun c => is_custom_bump_commit c sc) ∧
    (detect_custom_changes commits cfg).1 =
      commits.filter (fun c =>
        !(List.elem c (process_section_commits commits sc).1)) ∧
    (detect_custom_changes commits cfg).2 =
      (if (process_section_commits commits sc).1 ≠ [] ∧
          (process_section_commits commits sc).2 ≠ [] then
        [(build_section_title nm (create_version_range
            (process_section_commits commits sc).2),
          (process_section_commits commits sc).1)]
       else []) ∧
    (process_commits commits cfg).1 =
      add_commits_to_sections cfg (detect_custom_changes commits cfg).1
        (create_empty_type_sections cfg) ∧
    (process_commits commits cfg).2 =
      (detect_custom_changes commits cfg).2.map (fun e =>
        (e.1, add_commits_to_sections cfg e.2 (create_empty_type_sections cfg))) ∧
    (∀ vs : List (List Char), vs ≠ [] →
      ∃ oldest newest, oldest ∈ vs ∧ newest ∈ vs ∧
        (∀ v ∈ vs, lexLe oldest v = true ∧ lexLe v newest = true) ∧
        create_version_range vs =
          (if oldest ≠ newest then oldest ++ versionRangeSep ++ newest
           else ("up to ".toList) ++ newest)) :=
  ⟨psc_mem commits sc,
    psc_versions commits sc,
    (detect_single_section hcfg).1,
    (detect_single_section hcfg).2,
    process_commits_fst commits cfg,
    process_commits_snd commits cfg,
    fun vs h => create_version_range_spec vs h⟩

/-- Witness for C4 (amended): the characterisation applied at the concrete
three-commit list of the counterexample. -/
theorem C4_custom_sections_amended_witness :
    cmA ∈ (process_section_commits [cmA, cmB1, cmB2] secSec).1 ∧
    (detect_custom_changes [cmA, cmB1, cmB2] cfgSec).1 =
      [cmA, cmB1, cmB2].filter (fun c =>
        !(List.elem c (process_section_commits [cmA, cmB1, cmB2] secSec).1)) := by
  have h := C4_custom_sections_amended [cmA, cmB1, cmB2] cfgSec ("Sec".toList) secSec rfl
  exact ⟨(h.1 cmA).mpr
    ⟨by decide, 1, cmB1, by decide, by decide, by decide, by decide⟩, h.2.2.1⟩

theorem fetchAux_bound (env : FetchEnv) (base head : List Char)
    (hcap : ∀ b h c nodes hN eC,
      env.exec b h c = .page nodes hN eC → nodes.length ≤ 100) :
    ∀ fuel hasNext cursor acc count,
      (fetchAux env base head fuel hasNext cursor acc count).2 ≤ count + fuel ∧
      (∀ commits,
        (fetchAux env base head fuel hasNext cursor acc count).1 = .ok commits →
        commits.length ≤ acc.length + 100 * fuel) := by
  intro fuel
  induction fuel with
  | zero =>
    intro hasNext cursor acc count
    constructor
    · show count ≤ count + 0
      omega
    · intro commits h
      have h2 : FetchOutcome.ok acc = FetchOutcome.ok commits := h
      cases h2
      show acc.length ≤ acc.length + 100 * 0
      omega
  | succ f ih =>
    intro hasNext cursor acc count
    cases hasNext with
    | false =>
      constructor
      · show count ≤ count + (f + 1)
        omega
      · intro commits h
        have h2 : FetchOutcome.ok acc = FetchOutcome.ok commits := h
        cases h2
        show acc.length ≤ acc.length + 100 * (f + 1)
        omega
    | true =>
      cases he : env.exec base head cursor with
      | fatal =>
        have heq : fetchAux env base head (f + 1) true cursor acc count =
            (.errFatal, count + 1) := by
          simp only [fetchAux, he]
        rw [heq]
        constructor
        · show count + 1 ≤ count + (f + 1)
          omega
        · intro commits h
          exact absurd h (by simp)
      | baseMissing =>
        have heq : fetchAux env base head (f + 1) true cursor acc count =
            (.errBase, count + 1) := by
          simp only [fetchAux, he]
        rw [heq]
        constructor
        · show count + 1 ≤ count + (f + 1)
          omega
        · intro commits h
          exact absurd h (by simp)
      | compareMissing =>
        have heq : fetchAux env base head (f + 1) true cursor acc count =
            (.errCompare, count + 1) := by
          simp only [fetchAux, he]
        rw [heq]
        constructor
        · show count + 1 ≤ count + (f + 1)
          omega
        · intro commits h
          exact absurd h (by simp)
      | page nodes hN eC =>
        have heq : fetchAux env base head (f + 1) true cursor acc count =
            fetchAux env base head f hN eC (acc ++ nodes) (count + 1) := by
          simp only [fetchAux, he]
        rw [heq]
        obtain ⟨ih1, ih2⟩ := ih hN eC (acc ++ nodes) (count + 1)
        constructor
        · exact le_trans ih1 (by omega)
        · intro commits h
          have h2 := ih2 commits h
          have h3 := hcap base head cursor nodes hN eC he
          have h4 : (acc ++ nodes).length = acc.length + nodes.length :=
            List.length_append acc nodes
          omega

/-- Claim C9: the paginated fetch is bounded — at most 50 page requests for
any environment; a page reporting no next page stops the loop at once; and
(each page carrying at most the 100 requested nodes) at most 5000 commits
are ever accumulated. -/
theorem C9_pagination_bounded (env : FetchEnv) (base head : List Char)
    (hcap : ∀ b h c nodes hN eC,
      env.exec b h c = .page nodes hN eC → nodes.length ≤ 100) :
    (get_commits_with_prs_graphql env base head).2 ≤ 50 ∧
    (∀ fuel cursor acc count,
      fetchAux env base head (fuel + 1) false cursor acc count = (.ok acc, count)) ∧
    (∀ commits,
      (get_commits_with_prs_graphql env base head).1 = .ok commits →
      commits.length ≤ 5000) := by
  have hb := fetchAux_bound env base head hcap 50 true none [] 0
  refine ⟨by simpa using hb.1, ?_, ?_⟩
  · intro fuel cursor acc count
    rfl
  · intro commits h
    have h2 := hb.2 commits h
    simp only [List.length_nil] at h2
    omega

/-- Witness for C9: the bound applied at a concrete environment that always
returns one more full page. -/
theorem C9_pagination_bounded_witness :
    (get_commits_with_prs_graphql envPage ("a".toList) ("b".toList)).2 ≤ 50 ∧
    (List.replicate 50 cmA).length ≤ 5000 := by
  have hcap : ∀ b h c nodes hN eC,
      envPage.exec b h c = .page nodes hN eC → nodes.length ≤ 100 := by
    intro b h c nodes hN eC he
    cases he
    decide
  have h := C9_pagination_bounded envPage ("a".toList) ("b".toList) hcap
  exact ⟨h.1, h.2.2 (List.replicate 50 cmA) (by decide)⟩

theorem gcbr_eq_compare {env : FetchEnv} {fromRef toRef : List Char} {n : Nat}
    (h : get_commits_with_prs_graphql env fromRef toRef = (.errCompare, n)) :
    get_commits_between_refs env fromRef toRef = (.exit1, [⟨fromRef, n⟩]) := by
  simp only [get_commits_between_refs, h]

theorem gcbr_eq_base {env : FetchEnv} {fromRef toRef : List Char} {n : Nat}
    (h : get_commits_with_prs_graphql env fromRef toRef = (.errBase, n)) :
    get_commits_between_refs env fromRef toRef = gcbrRetry env fromRef toRef n := by
  simp only [get_commits_between_refs, h]

/-- Claim C6: when the ending reference (`to_ref`) cannot be resolved the
failure is always fatal — exit with no fallback attempt; when the starting
reference (`from_ref`) cannot be resolved and a latest release exists, the
code retries exactly once with that tag as the base (succeeding only if the
retry succeeds, failing permanently otherwise); with no release to fall
back on it fails at once. -/
theorem C6_ref_fallback (env : FetchEnv) (fromRef toRef : List Char) :
    ((get_commits_with_prs_graphql env fromRef toRef).1 = .errCompare →
      ∃ n, get_commits_between_refs env fromRef toRef =
        (.exit1, [⟨fromRef, n⟩])) ∧
    (∀ tag, (get_commits_with_prs_graphql env fromRef toRef).1 = .errBase →
      env.latest = some tag →
      ∃ n m,
        get_commits_between_refs env fromRef toRef =
          ((match (get_commits_with_prs_graphql env tag toRef).1 with
            | .ok commits => FinalResult.ok commits
            | .errBase => FinalResult.exit1
            | .errCompare => FinalResult.exit1
            | .errFatal => FinalResult.exit1),
           [⟨fromRef, n⟩, ⟨tag, m⟩])) ∧
    ((get_commits_with_prs_graphql env fromRef toRef).1 = .errBase →
      env.latest = none →
      ∃ n, get_commits_between_refs env fromRef toRef =
        (.exit1, [⟨fromRef, n⟩])) := by
  refine ⟨?_, ?_, ?_⟩
  · intro h
    rcases hr : get_commits_with_prs_graphql env fromRef toRef with ⟨o, n⟩
    rw [hr] at h
    cases h
    exact ⟨n, gcbr_eq_compare hr⟩
  · intro tag h hl
    rcases hr : get_commits_with_prs_graphql env fromRef toRef with ⟨o, n⟩
    rw [hr] at h
    cases h
    refine ⟨n, ?_⟩
    rw [gcbr_eq_base hr]
    simp only [gcbrRetry, hl]
    rcases hr2 : get_commits_with_prs_graphql env tag toRef with ⟨o2, m⟩
    refine ⟨m, ?_⟩
    cases o2 with
    | ok commits => simp only [hr2]
    | errBase => simp only [hr2]
    | errCompare => simp only [hr2]
    | errFatal => simp only [hr2]
  · intro h hl
    rcases hr : get_commits_with_prs_graphql env fromRef toRef with ⟨o, n⟩
    rw [hr] at h
    cases h
    refine ⟨n, ?_⟩
    rw [gcbr_eq_base hr]
    simp only [gcbrRetry, hl]

/-- Witness for C6: the theorem applied at concrete environments — one where
the compare is always null (fatal, single attempt) and one where the base
ref is missing but the latest release resolves (one retry with the tag). -/
theorem C6_ref_fallback_witness :
    (∃ n, get_commits_between_refs envComp ("a".toList) ("b".toList) =
      (.exit1, [⟨("a".toList), n⟩])) ∧
    (∃ n m, get_commits_between_refs envBase ("v0".toList) ("h".toList) =
      ((match (get_commits_with_prs_graphql envBase ("v1".toList) ("h".toList)).1 with
        | .ok commits => FinalResult.ok commits
        | .errBase => FinalResult.exit1
        | .errCompare => FinalResult.exit1
        | .errFatal => FinalResult.exit1),
       [⟨("v0".toList), n⟩, ⟨("v1".toList), m⟩])) :=
  ⟨(C6_ref_fallback envComp ("a".toList) ("b".toList)).1 (by decide),
    (C6_ref_fallback envBase ("v0".toList) ("h".toList)).2.1 ("v1".toList)
      (by decide) rfl⟩

example : parse_dependency ("requests==2.5".toList) =
    ⟨("requests".toList), some ("==".toList), some ("2.5".toList), none⟩ := by
  decide

example : parse_dependency ("Foo_Bar.baz>=1.0 ; python_version".toList) =
    ⟨("foo-bar-baz".toList), some (">=".toList), some ("1.0".toList),
      some ("python_version".toList)⟩ := by
  decide

example : parse_dependency ("toml".toList) =
    ⟨("toml".toList), none, none, none⟩ := by
  decide

example : consolidate_profile_requirements
    [("requests==2.0".toList), ("requests==2.5".toList)] =
    [(("requests".toList), ("requests==2.5".toList))] := by
  decide

example : (find_conflicts
    [(("main".toList), [("requests==2.0".toList)]),
     (("web".toList), [("requests==2.5".toList)])]).length = 1 := by
  decide

example : find_conflicts
    [(("main".toList), [("requests==2.0".toList)]),
     (("web".toList), [("requests==2.0".toList)])] = [] := by
  decide

theorem no_dev_foldl (g : List Char × List (List Char) → List (List Char)) :
    ∀ (es : List (List Char × List (List Char)))
      (acc : List (List Char × List (List Char))),
      (∀ e ∈ acc, pyLower e.1 ∉ dev_profile_names) →
      ∀ e ∈ es.foldl (fun acc e =>
          if pyLower e.1 ∈ dev_profile_names then acc
          else upsertA acc e.1 (g e)) acc,
        pyLower e.1 ∉ dev_profile_names := by
  intro es
  induction es with
  | nil => intro acc hacc; exact hacc
  | cons p rest ih =>
    intro acc hacc
    show ∀ e ∈ rest.foldl _ (if pyLower p.1 ∈ dev_profile_names then acc
        else upsertA acc p.1 (g p)), pyLower e.1 ∉ dev_profile_names
    by_cases hd : pyLower p.1 ∈ dev_profile_names
    · rw [if_pos hd]
      exact ih acc hacc
    · rw [if_neg hd]
      refine ih _ ?_
      intro e he
      rcases mem_upsertA he with h1 | h1
      · exact hacc e h1
      · rw [h1]
        exact hd

theorem no_dev_hasKey {l : List (List Char × List (List Char))}
    (hl : ∀ e ∈ l, pyLower e.1 ∉ dev_profile_names) :
    ∀ nm : List Char, pyLower nm ∈ dev_profile_names → hasKey l nm = false := by
  induction l with
  | nil => intro nm _; rfl
  | cons e rest ih =>
    intro nm hnm
    obtain ⟨k, v⟩ := e
    unfold hasKey
    have hk : ¬ k = nm := by
      intro hkeq
      exact (hl (k, v) (List.mem_cons_self _ _)) (hkeq ▸ hnm)
    have hrest : hasKey rest nm = false :=
      ih (fun e2 he2 => hl e2 (List.mem_cons_of_mem _ he2)) nm hnm
    simp [hk, hrest]

/-- Claim C8: an optional-dependency profile whose lowercased name is in the
development set (in particular a profile named `dev`, case-insensitively)
never appears among the profiles returned by
`extract_dependencies_by_profile` (consolidation script) or
`extract_dependencies` (validation script), so it appears in no generated
requirements file and contributes no dependencies to conflict detection. -/
theorem C8_dev_profiles_excluded (pp : PyProject) :
    (∀ e ∈ extract_dependencies_by_profile pp, pyLower e.1 ∉ dev_profile_names) ∧
    (∀ e ∈ extract_dependencies pp, pyLower e.1 ∉ dev_profile_names) ∧
    (∀ nm : List Char, pyLower nm ∈ dev_profile_names →
      hasKey (extract_dependencies_by_profile pp) nm = false ∧
      hasKey (extract_dependencies pp) nm = false) := by
  have h1 : ∀ e ∈ extract_dependencies_by_profile pp,
      pyLower e.1 ∉ dev_profile_names := by
    apply no_dev_foldl (fun e => pp.dependencies.getD [] ++ e.2)
    intro e he
    have he2 : e = ((("main".toList), pp.dependencies.getD [])) := by
      simpa using he
    rw [he2]
    show pyLower ("main".toList) ∉ dev_profile_names
    decide
  have h2 : ∀ e ∈ extract_dependencies pp, pyLower e.1 ∉ dev_profile_names := by
    apply no_dev_foldl (fun e => e.2)
    intro e he
    cases hd : pp.dependencies with
    | none =>
      rw [hd] at he
      exact absurd he (List.not_mem_nil e)
    | some d =>
      rw [hd] at he
      have he2 : e = ((("main".toList), d)) := by simpa using he
      rw [he2]
      show pyLower ("main".toList) ∉ dev_profile_names
      decide
  exact ⟨h1, h2, fun nm hnm => ⟨no_dev_hasKey h1 nm hnm, no_dev_hasKey h2 nm hnm⟩⟩

/-- Witness for C8: the exclusion applied at a concrete pyproject with a
`dev` profile and a capitalised `Docs` profile. -/
theorem C8_dev_profiles_excluded_witness :
    hasKey (extract_dependencies_by_profile ppW) ("dev".toList) = false ∧
    hasKey (extract_dependencies ppW) ("dev".toList) = false ∧
    hasKey (extract_dependencies_by_profile ppW) ("Docs".toList) = false :=
  ⟨((C8_dev_profiles_excluded ppW).2.2 ("dev".toList) (by decide)).1,
    ((C8_dev_profiles_excluded ppW).2.2 ("dev".toList) (by decide)).2,
    ((C8_dev_profiles_excluded ppW).2.2 ("Docs".toList) (by decide)).1⟩

theorem parse_dependency_pkg (s : List Char) :
    (parse_dependency s).pkg = pyNormName (rawDepName s) := by
  simp only [parse_dependency, rawDepName]
  split
  · split
    · split
      · rfl
      · rfl
    · rfl
  · rfl

theorem consolidate_same_pkg (d1 d2 : List Char)
    (h : (parse_dependency d1).pkg = (parse_dependency d2).pkg) :
    ∃ o, consolidate_profile_requirements [d1, d2] =
      [((parse_dependency d1).pkg, o)] := by
  have hg : [d1, d2].foldl (fun (acc : List (List Char × List DepInfo)) dep =>
      let p := parse_dependency dep
      appendG acc p.pkg ⟨p.op, p.ver, dep⟩) [] =
      [((parse_dependency d1).pkg,
        [⟨(parse_dependency d1).op, (parse_dependency d1).ver, d1⟩,
         ⟨(parse_dependency d2).op, (parse_dependency d2).ver, d2⟩])] := by
    show appendG (appendG []
        (parse_dependency d1).pkg
        (⟨(parse_dependency d1).op, (parse_dependency d1).ver, d1⟩ : DepInfo))
        (parse_dependency d2).pkg
        (⟨(parse_dependency d2).op, (parse_dependency d2).ver, d2⟩ : DepInfo) = _
    rw [← h]
    show (if (parse_dependency d1).pkg = (parse_dependency d1).pkg then
        ((parse_dependency d1).pkg,
          ([⟨(parse_dependency d1).op, (parse_dependency d1).ver, d1⟩] : List DepInfo) ++
            [⟨(parse_dependency d2).op, (parse_dependency d2).ver, d2⟩]) ::
          ([] : List (List Char × List DepInfo))
      else appendG [] (parse_dependency d1).pkg
        (⟨(parse_dependency d1).op, (parse_dependency d1).ver, d1⟩ : DepInfo) ++
          [((parse_dependency d1).pkg,
            [(⟨(parse_dependency d2).op, (parse_dependency d2).ver, d2⟩ : DepInfo)])]) = _
    rw [if_pos rfl]
    rfl
  exact ⟨_, by
    simp only [consolidate_profile_requirements]
    rw [hg]
    rfl⟩

theorem exactVersionsOf_pair (pr1 pr2 dd1 dd2 k1 k2 : List Char)
    (m1 m2 : Option (List Char)) (v1 v2 : List Char)
    (hv1ne : v1 ≠ []) (hv2ne : v2 ≠ []) (hne : v1 ≠ v2) :
    exactVersionsOf
      [(pr1, ⟨dd1, k1, some ("==".toList), some v1, m1⟩),
       (pr2, ⟨dd2, k2, some ("==".toList), some v2, m2⟩)] =
      [(v1, [(pr1, ⟨dd1, k1, some ("==".toList), some v1, m1⟩)]),
       (v2, [(pr2, ⟨dd2, k2, some ("==".toList), some v2, m2⟩)])] := by
  show evStep (evStep []
      (pr1, ⟨dd1, k1, some ("==".toList), some v1, m1⟩))
      (pr2, ⟨dd2, k2, some ("==".toList), some v2, m2⟩) = _
  have e1 : evStep ([] : List (List Char × List (List Char × VDep)))
      (pr1, ⟨dd1, k1, some ("==".toList), some v1, m1⟩) =
      (if ("==".toList) = ("==".toList) ∧ v1 ≠ [] then
        appendG [] v1 (pr1, ⟨dd1, k1, some ("==".toList), some v1, m1⟩)
      else []) := rfl
  rw [e1, if_pos ⟨rfl, hv1ne⟩]
  have e2 : evStep
      (appendG [] v1 (pr1, ⟨dd1, k1, some ("==".toList), some v1, m1⟩))
      (pr2, ⟨dd2, k2, some ("==".toList), some v2, m2⟩) =
      (if ("==".toList) = ("==".toList) ∧ v2 ≠ [] then
        appendG (appendG [] v1 (pr1, ⟨dd1, k1, some ("==".toList), some v1, m1⟩))
          v2 (pr2, ⟨dd2, k2, some ("==".toList), some v2, m2⟩)
      else appendG [] v1 (pr1, ⟨dd1, k1, some ("==".toList), some v1, m1⟩)) := rfl
  rw [e2, if_pos ⟨rfl, hv2ne⟩]
  have e3 : appendG
      (appendG [] v1 (pr1, (⟨dd1, k1, some ("==".toList), some v1, m1⟩ : VDep)))
      v2 (pr2, (⟨dd2, k2, some ("==".toList), some v2, m2⟩ : VDep)) =
      (if v1 = v2 then
        (v1, [(pr1, (⟨dd1, k1, some ("==".toList), some v1, m1⟩ : VDep))] ++
          [(pr2, (⟨dd2, k2, some ("==".toList), some v2, m2⟩ : VDep))]) :: []
      else (v1, [(pr1, (⟨dd1, k1, some ("==".toList), some v1, m1⟩ : VDep))]) ::
        appendG [] v2 (pr2, (⟨dd2, k2, some ("==".toList), some v2, m2⟩ : VDep))) := rfl
  rw [e3, if_neg hne]
  rfl

theorem conflictOf_pair (k : List Char) (pr1 pr2 dd1 dd2 k1 k2 : List Char)
    (m1 m2 : Option (List Char)) (v1 v2 : List Char)
    (hv1ne : v1 ≠ []) (hv2ne : v2 ≠ []) (hne : v1 ≠ v2) :
    conflictOf k
      [(pr1, ⟨dd1, k1, some ("==".toList), some v1, m1⟩),
       (pr2, ⟨dd2, k2, some ("==".toList), some v2, m2⟩)] =
      some ⟨k,
        [(v1, [(pr1, ⟨dd1, k1, some ("==".toList), some v1, m1⟩)]),
         (v2, [(pr2, ⟨dd2, k2, some ("==".toList), some v2, m2⟩)])],
        [(pr1, ⟨dd1, k1, some ("==".toList), some v1, m1⟩),
         (pr2, ⟨dd2, k2, some ("==".toList), some v2, m2⟩)]⟩ := by
  simp only [conflictOf,
    exactVersionsOf_pair pr1 pr2 dd1 dd2 k1 k2 m1 m2 v1 v2 hv1ne hv2ne hne]
  norm_num

theorem find_conflicts_pair (p1 p2 d1 d2 v1 v2 : List Char)
    (hpkg : (parse_dependency d1).pkg = (parse_dependency d2).pkg)
    (hop1 : (parse_dependency d1).op = some ("==".toList))
    (hop2 : (parse_dependency d2).op = some ("==".toList))
    (hv1 : (parse_dependency d1).ver = some v1) (hv1ne : v1 ≠ [])
    (hv2 : (parse_dependency d2).ver = some v2) (hv2ne : v2 ≠ [])
    (hne : v1 ≠ v2) :
    ∃ c : Conflict, find_conflicts [(p1, [d1]), (p2, [d2])] = [c] ∧
      c.package = (parse_dependency d1).pkg := by
  have hpp : parseProfiles [(p1, [d1]), (p2, [d2])] =
      [(p1, [(⟨d1, (parse_dependency d1).pkg, some ("==".toList), some v1,
        (parse_dependency d1).marker⟩ : VDep)]),
       (p2, [(⟨d2, (parse_dependency d1).pkg, some ("==".toList), some v2,
        (parse_dependency d2).marker⟩ : VDep)])] := by
    show [(p1, [(⟨d1, (parse_dependency d1).pkg, (parse_dependency d1).op,
        (parse_dependency d1).ver, (parse_dependency d1).marker⟩ : VDep)]),
      (p2, [(⟨d2, (parse_dependency d2).pkg, (parse_dependency d2).op,
        (parse_dependency d2).ver, (parse_dependency d2).marker⟩ : VDep)])] = _
    rw [hop1, hv1, hop2, hv2, ← hpkg]
  have hbm : buildPkgMap
      [(p1, [(⟨d1, (parse_dependency d1).pkg, some ("==".toList), some v1,
        (parse_dependency d1).marker⟩ : VDep)]),
       (p2, [(⟨d2, (parse_dependency d1).pkg, some ("==".toList), some v2,
        (parse_dependency d2).marker⟩ : VDep)])] =
      [((parse_dependency d1).pkg,
        [(p1, (⟨d1, (parse_dependency d1).pkg, some ("==".toList), some v1,
          (parse_dependency d1).marker⟩ : VDep)),
         (p2, (⟨d2, (parse_dependency d1).pkg, some ("==".toList), some v2,
          (parse_dependency d2).marker⟩ : VDep))]) ] := by
    show appendG (appendG [] (parse_dependency d1).pkg
        (p1, (⟨d1, (parse_dependency d1).pkg, some ("==".toList), some v1,
          (parse_dependency d1).marker⟩ : VDep)))
        (parse_dependency d1).pkg
        (p2, (⟨d2, (parse_dependency d1).pkg, some ("==".toList), some v2,
          (parse_dependency d2).marker⟩ : VDep)) = _
    show (if (parse_dependency d1).pkg = (parse_dependency d1).pkg then
        ((parse_dependency d1).pkg,
          [(p1, (⟨d1, (parse_dependency d1).pkg, some ("==".toList), some v1,
            (parse_dependency d1).marker⟩ : VDep))] ++
          [(p2, (⟨d2, (parse_dependency d1).pkg, some ("==".toList), some v2,
            (parse_dependency d2).marker⟩ : VDep))]) :: []
      else ((parse_dependency d1).pkg,
          [(p1, (⟨d1, (parse_dependency d1).pkg, some ("==".toList), some v1,
            (parse_dependency d1).marker⟩ : VDep))]) ::
        appendG [] (parse_dependency d1).pkg
          (p2, (⟨d2, (parse_dependency d1).pkg, some ("==".toList), some v2,
            (parse_dependency d2).marker⟩ : VDep))) = _
    rw [if_pos rfl]
    rfl
  refine ⟨⟨(parse_dependency d1).pkg,
    [(v1, [(p1, (⟨d1, (parse_dependency d1).pkg, some ("==".toList), some v1,
      (parse_dependency d1).marker⟩ : VDep))]),
     (v2, [(p2, (⟨d2, (parse_dependency d1).pkg, some ("==".toList), some v2,
      (parse_dependency d2).marker⟩ : VDep))])],
    [(p1, (⟨d1, (parse_dependency d1).pkg, some ("==".toList), some v1,
      (parse_dependency d1).marker⟩ : VDep)),
     (p2, (⟨d2, (parse_dependency d1).pkg, some ("==".toList), some v2,
      (parse_dependency d2).marker⟩ : VDep))]⟩, ?_, rfl⟩
  unfold find_conflicts
  rw [hpp, hbm]
  have hco := conflictOf_pair (parse_dependency d1).pkg p1 p2 d1 d2
    (parse_dependency d1).pkg (parse_dependency d1).pkg
    (parse_dependency d1).marker (parse_dependency d2).marker v1 v2
    hv1ne hv2ne hne
  simp only [List.filterMap_cons]
  rw [hco]
  rfl

/-- Claim C10: `parse_dependency` normalises every package name by
lowercasing it and replacing each underscore and dot with a hyphen; hence
any two dependency strings whose (raw) package names agree after that
normalisation — i.e. differ only in letter case or in `_`/`.` versus `-` —
are treated as the same package: the consolidation script groups them into
a single retained entry, and the conflict validator groups them together
and reports a conflict for distinct exact pins. -/
theorem C10_name_normalization (s t : List Char) :
    ((parse_dependency s).pkg = pyNormName (rawDepName s)) ∧
    (pyNormName (rawDepName s) = pyNormName (rawDepName t) →
      (parse_dependency s).pkg = (parse_dependency t).pkg) ∧
    ((parse_dependency s).pkg = (parse_dependency t).pkg →
      ∃ o, consolidate_profile_requirements [s, t] =
        [((parse_dependency s).pkg, o)]) ∧
    (∀ p1 p2 v1 v2, (parse_dependency s).pkg = (parse_dependency t).pkg →
      (parse_dependency s).op = some ("==".toList) →
      (parse_dependency t).op = some ("==".toList) →
      (parse_dependency s).ver = some v1 → v1 ≠ [] →
      (parse_dependency t).ver = some v2 → v2 ≠ [] → v1 ≠ v2 →
      ∃ c : Conflict, find_conflicts [(p1, [s]), (p2, [t])] = [c] ∧
        c.package = (parse_dependency s).pkg) :=
  ⟨parse_dependency_pkg s,
    fun h => (parse_dependency_pkg s).trans
      (h.trans (parse_dependency_pkg t).symm),
    fun h => consolidate_same_pkg s t h,
    fun p1 p2 v1 v2 h h1 h2 h3 h4 h5 h6 h7 =>
      find_conflicts_pair p1 p2 s t v1 v2 h h1 h2 h3 h4 h5 h6 h7⟩

/-- Witness for C10: the normalisation equivalence applied at the concrete
pair "Foo_Bar.baz==1.0" / "foo-bar-BAZ==2.0". -/
theorem C10_name_normalization_witness :
    ((parse_dependency ("Foo_Bar.baz==1.0".toList)).pkg =
      (parse_dependency ("foo-bar-BAZ==2.0".toList)).pkg) ∧
    (∃ o, consolidate_profile_requirements
        [("Foo_Bar.baz==1.0".toList), ("foo-bar-BAZ==2.0".toList)] =
      [((parse_dependency ("Foo_Bar.baz==1.0".toList)).pkg, o)]) ∧
    (∃ c : Conflict, find_conflicts
        [(("main".toList), [("Foo_Bar.baz==1.0".toList)]),
         (("web".toList), [("foo-bar-BAZ==2.0".toList)])] = [c] ∧
      c.package = (parse_dependency ("Foo_Bar.baz==1.0".toList)).pkg) :=
  ⟨(C10_name_normalization ("Foo_Bar.baz==1.0".toList)
      ("foo-bar-BAZ==2.0".toList)).2.1 (by decide),
    (C10_name_normalization ("Foo_Bar.baz==1.0".toList)
      ("foo-bar-BAZ==2.0".toList)).2.2.1 (by decide),
    (C10_name_normalization ("Foo_Bar.baz==1.0".toList)
      ("foo-bar-BAZ==2.0".toList)).2.2.2 ("main".toList) ("web".toList)
      ("1.0".toList) ("2.0".toList) (by decide) (by decide) (by decide)
      (by decide) (by decide) (by decide) (by decide) (by decide)⟩

theorem relLt_irrefl : ∀ a : List Nat, relLt a a = false := by
  intro a
  induction a with
  | nil => rfl
  | cons x xs ih =>
    unfold relLt
    rw [if_neg (lt_irrefl x), if_neg (lt_irrefl x)]
    exact ih

theorem relLt_zeros_lt {x y : List Nat} (hx : anyPos x = false)
    (hy : anyPos y = true) : relLt x y = true := by
  induction x generalizing y with
  | nil => exact hy
  | cons x0 xs ih =>
    unfold anyPos at hx
    have hx0 : ¬ 0 < x0 := by
      intro h
      rw [if_pos h] at hx
      exact absurd hx (by simp)
    rw [if_neg hx0] at hx
    cases y with
    | nil => exact absurd hy (by simp [anyPos])
    | cons y0 ys =>
      unfold relLt
      unfold anyPos at hy
      by_cases hy0 : 0 < y0
      · have hxy : x0 < y0 := by omega
        rw [if_pos hxy]
      · rw [if_neg hy0] at hy
        have h1 : ¬ x0 < y0 := by omega
        have h2 : ¬ y0 < x0 := by omega
        rw [if_neg h1, if_neg h2]
        exact ih hx hy

theorem relLt_to_zeros {b y : List Nat} (hy : anyPos y = false) :
    relLt b y = false := by
  induction b generalizing y with
  | nil =>
    show anyPos y = false
    exact hy
  | cons b0 bs ih =>
    cases y with
    | nil => rfl
    | cons y0 ys =>
      unfold anyPos at hy
      have hy0 : ¬ 0 < y0 := by
        intro h
        rw [if_pos h] at hy
        exact absurd hy (by simp)
      rw [if_neg hy0] at hy
      unfold relLt
      have hno : ¬ b0 < y0 := by omega
      rw [if_neg hno]
      by_cases hb : y0 < b0
      · rw [if_pos hb]
      · rw [if_neg hb]
        exact ih hy

theorem anyPos_of_relLt : ∀ {b c : List Nat},
    anyPos b = true → relLt b c = true → anyPos c = true := by
  intro b
  induction b with
  | nil => intro c hb _; exact absurd hb (by simp [anyPos])
  | cons x xs ih =>
    intro c hb hbc
    cases c with
    | nil => exact absurd hbc (by simp [relLt])
    | cons y ys =>
      unfold relLt at hbc
      unfold anyPos at hb ⊢
      by_cases hxy : x < y
      · rw [if_pos (by omega : 0 < y)]
      · rw [if_neg hxy] at hbc
        by_cases hyx : y < x
        · rw [if_pos hyx] at hbc
          exact absurd hbc (by simp)
        · rw [if_neg hyx] at hbc
          have hxy2 : x = y := by omega
          by_cases h0 : 0 < x
          · rw [if_pos (by omega : 0 < y)]
          · rw [if_neg h0] at hb
            by_cases h0y : 0 < y
            · rw [if_pos h0y]
            · rw [if_neg h0y]
              exact ih hb hbc

theorem relLt_trans : ∀ (a b c : List Nat),
    relLt a b = true → relLt b c = true → relLt a c = true := by
  intro a
  induction a with
  | nil =>
    intro b c hab hbc
    show anyPos c = true
    exact anyPos_of_relLt hab hbc
  | cons x xs ih =>
    intro b c hab hbc
    cases b with
    | nil => exact absurd hab (by simp [relLt])
    | cons y ys =>
      cases c with
      | nil => exact absurd hbc (by simp [relLt])
      | cons z zs =>
        unfold relLt at hab hbc ⊢
        by_cases hxy : x < y
        · rw [if_pos hxy] at hab
          by_cases hyz : y < z
          · rw [if_pos (by omega : x < z)]
          · rw [if_neg hyz] at hbc
            by_cases hzy : z < y
            · rw [if_pos hzy] at hbc
              exact absurd hbc (by simp)
            · rw [if_pos (by omega : x < z)]
        · rw [if_neg hxy] at hab
          by_cases hyx : y < x
          · rw [if_pos hyx] at hab
            exact absurd hab (by simp)
          · rw [if_neg hyx] at hab
            by_cases hyz : y < z
            · rw [if_pos hyz] at hbc
              rw [if_pos (by omega : x < z)]
            · rw [if_neg hyz] at hbc
              by_cases hzy : z < y
              · rw [if_pos hzy] at hbc
                exact absurd hbc (by simp)
              · rw [if_neg hzy] at hbc
                have hxz : ¬ x < z := by omega
                have hzx : ¬ z < x := by omega
                rw [if_neg hxz, if_neg hzx]
                exact ih ys zs hab hbc

theorem relLt_of_lt_of_nlt : ∀ (b y x : List Nat),
    relLt b y = true → relLt x y = false → relLt b x = true := by
  intro b
  induction b with
  | nil =>
    intro y x hby hxy
    show anyPos x = true
    by_cases hax : anyPos x = true
    · exact hax
    · have hax2 : anyPos x = false := by
        cases h2 : anyPos x
        · rfl
        · exact absurd h2 hax
      have hay : anyPos y = true := hby
      rw [relLt_zeros_lt hax2 hay] at hxy
      exact absurd hxy (by simp)
  | cons b0 bs ih =>
    intro y x hby hxy
    cases y with
    | nil => exact absurd hby (by simp [relLt])
    | cons y0 ys =>
      cases x with
      | nil =>
        have hay : anyPos (y0 :: ys) = false := hxy
        rw [relLt_to_zeros hay] at hby
        exact absurd hby (by simp)
      | cons x0 xs =>
        unfold relLt at hby hxy ⊢
        by_cases hb0 : b0 < y0
        · rw [if_pos hb0] at hby
          by_cases hx0 : x0 < y0
          · rw [if_pos hx0] at hxy
            exact absurd hxy (by simp)
          · rw [if_pos (by omega : b0 < x0)]
        · rw [if_neg hb0] at hby
          by_cases hyb : y0 < b0
          · rw [if_pos hyb] at hby
            exact absurd hby (by simp)
          · rw [if_neg hyb] at hby
            by_cases hx0 : x0 < y0
            · rw [if_pos hx0] at hxy
              exact absurd hxy (by simp)
            · rw [if_neg hx0] at hxy
              by_cases hyx : y0 < x0
              · rw [if_pos (by omega : b0 < x0)]
              · rw [if_neg hyx] at hxy
                have hne1 : ¬ b0 < x0 := by omega
                have hne2 : ¬ x0 < b0 := by omega
                rw [if_neg hne1, if_neg hne2]
                exact ih ys xs hby hxy

theorem pyMaxFold_spec :
    ∀ (xs : List (List Nat × List Char)) (x : List Nat × List Char),
      (xs.foldl (fun best y => if relLt best.1 y.1 then y else best) x = x ∨
        xs.foldl (fun best y => if relLt best.1 y.1 then y else best) x ∈ xs) ∧
      relLt (xs.foldl (fun best y => if relLt best.1 y.1 then y else best) x).1
        x.1 = false ∧
      (∀ y ∈ xs,
        relLt (xs.foldl (fun best y => if relLt best.1 y.1 then y else best) x).1
          y.1 = false) := by
  intro xs
  induction xs with
  | nil =>
    intro x
    refine ⟨Or.inl rfl, relLt_irrefl x.1, ?_⟩
    intro y hy
    exact absurd hy (List.not_mem_nil y)
  | cons y ys ih =>
    intro x
    have hstep : (y :: ys).foldl
        (fun best y => if relLt best.1 y.1 then y else best) x =
        ys.foldl (fun best y => if relLt best.1 y.1 then y else best)
          (if relLt x.1 y.1 then y else x) := rfl
    obtain ⟨ihm, ihx, ihall⟩ := ih (if relLt x.1 y.1 then y else x)
    rw [hstep]
    by_cases hxy : relLt x.1 y.1 = true
    · rw [if_pos hxy] at ihm ihx ihall ⊢
      refine ⟨?_, ?_, ?_⟩
      · rcases ihm with h | h
        · right; rw [h]; exact List.mem_cons_self _ _
        · right; exact List.mem_cons_of_mem _ h
      · cases hbx : relLt ((ys.foldl
            (fun best y => if relLt best.1 y.1 then y else best) y).1) x.1 with
        | false => rfl
        | true =>
          exfalso
          have h2 := relLt_trans _ _ _ hbx hxy
          rw [ihx] at h2
          exact absurd h2 (by simp)
      · intro z hz
        rcases List.mem_cons.mp hz with h | h
        · rw [h]
          exact ihx
        · exact ihall z h
    · have hxy2 : relLt x.1 y.1 = false := by
        cases h2 : relLt x.1 y.1
        · rfl
        · exact absurd h2 hxy
      rw [if_neg hxy] at ihm ihx ihall ⊢
      refine ⟨?_, ihx, ?_⟩
      · rcases ihm with h | h
        · left; exact h
        · right; exact List.mem_cons_of_mem _ h
      · intro z hz
        rcases List.mem_cons.mp hz with h | h
        · rw [h]
          cases hby : relLt ((ys.foldl
              (fun best y => if relLt best.1 y.1 then y else best) x).1) y.1 with
          | false => rfl
          | true =>
            exfalso
            have h2 := relLt_of_lt_of_nlt _ _ _ hby hxy2
            rw [ihx] at h2
            exact absurd h2 (by simp)
        · exact ihall z h

theorem pyMaxKey_spec {l : List (List Nat × List Char)}
    {b : List Nat × List Char} (h : pyMaxKey l = some b) :
    b ∈ l ∧ ∀ y ∈ l, relLt b.1 y.1 = false := by
  cases l with
  | nil => exact absurd h (by simp [pyMaxKey])
  | cons x xs =>
    have hb : b = xs.foldl (fun best y => if relLt best.1 y.1 then y else best) x := by
      have h2 : some (xs.foldl (fun best y => if relLt best.1 y.1 then y else best) x) =
          some b := h
      exact (Option.some.inj h2).symm
    obtain ⟨hm, hx, hall⟩ := pyMaxFold_spec xs x
    subst hb
    constructor
    · rcases hm with h2 | h2
      · rw [h2]; exact List.mem_cons_self _ _
      · exact List.mem_cons_of_mem _ h2
    · intro y hy
      rcases List.mem_cons.mp hy with h2 | h2
      · rw [h2]; exact hx
      · exact hall y h2

theorem filterMap_all_some {α β : Type} (F : α → Option β) (G : α → β) :
    ∀ l : List α, (∀ a ∈ l, F a = some (G a)) → l.filterMap F = l.map G := by
  intro l
  induction l with
  | nil => intro _; rfl
  | cons a rest ih =>
    intro h
    rw [List.filterMap_cons_some (h a (List.mem_cons_self _ _)),
      List.map_cons, ih (fun a2 ha2 => h a2 (List.mem_cons_of_mem _ ha2))]

theorem group_aux (pkg : List Char) :
    ∀ (deps : List (List Char)) (pre : List DepInfo),
      (∀ d ∈ deps, (parse_dependency d).pkg = pkg) →
      deps.foldl (fun (acc : List (List Char × List DepInfo)) dep =>
        let p := parse_dependency dep
        appendG acc p.pkg ⟨p.op, p.ver, dep⟩) [(pkg, pre)] =
      [(pkg, pre ++ deps.map (fun d =>
        (⟨(parse_dependency d).op, (parse_dependency d).ver, d⟩ : DepInfo)))] := by
  intro deps
  induction deps with
  | nil =>
    intro pre _
    simp
  | cons d ds ih =>
    intro pre hall
    have hd := hall d (List.mem_cons_self _ _)
    rw [List.foldl_cons]
    have hstep : appendG [(pkg, pre)] (parse_dependency d).pkg
        (⟨(parse_dependency d).op, (parse_dependency d).ver, d⟩ : DepInfo) =
        [(pkg, pre ++
          [(⟨(parse_dependency d).op, (parse_dependency d).ver, d⟩ : DepInfo)])] := by
      rw [hd]
      show (if pkg = pkg then
          (pkg, pre ++
            [(⟨(parse_dependency d).op, (parse_dependency d).ver, d⟩ : DepInfo)]) :: []
        else (pkg, pre) :: appendG [] pkg
          (⟨(parse_dependency d).op, (parse_dependency d).ver, d⟩ : DepInfo)) = _
      rw [if_pos rfl]
    rw [hstep, ih _ (fun d2 hd2 => hall d2 (List.mem_cons_of_mem _ hd2))]
    rw [List.map_cons, List.append_assoc]
    rfl

theorem group_all_same (pkg : List Char) (d : List Char) (ds : List (List Char))
    (hall : ∀ x ∈ d :: ds, (parse_dependency x).pkg = pkg) :
    (d :: ds).foldl (fun (acc : List (List Char × List DepInfo)) dep =>
      let p := parse_dependency dep
      appendG acc p.pkg ⟨p.op, p.ver, dep⟩) [] =
    [(pkg, (d :: ds).map (fun x =>
      (⟨(parse_dependency x).op, (parse_dependency x).ver, x⟩ : DepInfo)))] := by
  rw [List.foldl_cons]
  have h1 : appendG ([] : List (List Char × List DepInfo)) (parse_dependency d).pkg
      (⟨(parse_dependency d).op, (parse_dependency d).ver, d⟩ : DepInfo) =
      [((parse_dependency d).pkg,
        [(⟨(parse_dependency d).op, (parse_dependency d).ver, d⟩ : DepInfo)])] := rfl
  rw [h1, hall d (List.mem_cons_self _ _),
    group_aux pkg ds _ (fun d2 hd2 => hall d2 (List.mem_cons_of_mem _ hd2))]
  rw [List.map_cons]
  rfl

theorem cprExact_infoOf {d v : List Char} {k : List Nat}
    (hop : (parse_dependency d).op = some ("==".toList))
    (hv : (parse_dependency d).ver = some v) (hvne : v ≠ [])
    (hk : pyVersionParse v = some k) :
    cprExact (infoOf d) = some (keyOf d, d) := by
  have hkey : keyOf d = k := by
    unfold keyOf
    rw [hv]
    show (pyVersionParse v).getD [] = k
    rw [hk]
    rfl
  show (if (parse_dependency d).op = some ("==".toList) then
      match (parse_dependency d).ver with
      | some v =>
        if v ≠ [] then (pyVersionParse v).map (fun k => (k, d))
        else none
      | none => none
    else none) = some (keyOf d, d)
  rw [if_pos hop, hv]
  show (if v ≠ [] then (pyVersionParse v).map (fun k => (k, d)) else none) = _
  rw [if_pos hvne, hk, hkey]
  rfl

/-- Claim C7: consolidating a profile in which every dependency is an exact
`==` pin of the same package (with parseable versions) retains exactly one
entry for that package — one of the input strings, whose parsed version is
maximal under the modelled PEP 440 release ordering. -/
theorem C7_consolidate_exact_pins (deps : List (List Char)) (pkg : List Char)
    (hne : deps ≠ [])
    (hall : ∀ d ∈ deps, (parse_dependency d).pkg = pkg ∧
      (parse_dependency d).op = some ("==".toList) ∧
      ∃ v k, (parse_dependency d).ver = some v ∧ v ≠ [] ∧
        pyVersionParse v = some k) :
    ∃ o, consolidate_profile_requirements deps = [(pkg, o)] ∧ o ∈ deps ∧
      (∀ d ∈ deps, relLt (keyOf o) (keyOf d) = false) := by
  cases deps with
  | nil => exact absurd rfl hne
  | cons d ds =>
    have hpkg : ∀ x ∈ d :: ds, (parse_dependency x).pkg = pkg :=
      fun x hx => (hall x hx).1
    have hgroup := group_all_same pkg d ds hpkg
    have hcons : consolidate_profile_requirements (d :: ds) =
        [(pkg, cprEntry ((d :: ds).map (fun x =>
          (⟨(parse_dependency x).op, (parse_dependency x).ver, x⟩ : DepInfo))))] := by
      simp only [consolidate_profile_requirements]
      rw [hgroup]
      rfl
    cases ds with
    | nil =>
      refine ⟨d, ?_, List.mem_cons_self _ _, ?_⟩
      · rw [hcons]
        rfl
      · intro x hx
        have hx2 : x = d := by simpa using hx
        rw [hx2]
        exact relLt_irrefl (keyOf d)
    | cons d2 ds2 =>
      have hFall : ∀ x ∈ d :: d2 :: ds2,
          cprExact (infoOf x) = some (keyOf x, x) := by
        intro x hx
        obtain ⟨-, hop, v, k, hv, hvne, hk⟩ := hall x hx
        exact cprExact_infoOf hop hv hvne hk
      have hfm : ((d :: d2 :: ds2).map (fun x =>
          (⟨(parse_dependency x).op, (parse_dependency x).ver, x⟩ : DepInfo))).filterMap
            cprExact =
          (d :: d2 :: ds2).map (fun x => (keyOf x, x)) := by
        rw [List.filterMap_map]
        exact filterMap_all_some _ _ _ hFall
      rcases hmk : pyMaxKey ((d :: d2 :: ds2).map (fun x => (keyOf x, x))) with
        _ | best
      · exact absurd hmk (by simp [pyMaxKey])
      · obtain ⟨hmem, hmax⟩ := pyMaxKey_spec hmk
        obtain ⟨o, ho, hGo⟩ := List.mem_map.mp hmem
        refine ⟨o, ?_, ho, ?_⟩
        · rw [hcons]
          have hentry : cprEntry ((d :: d2 :: ds2).map (fun x =>
              (⟨(parse_dependency x).op, (parse_dependency x).ver, x⟩ : DepInfo))) =
              best.2 := by
            show (match pyMaxKey (((d :: d2 :: ds2).map (fun x =>
                (⟨(parse_dependency x).op, (parse_dependency x).ver, x⟩ : DepInfo))).filterMap
                  cprExact) with
              | some b => b.2
              | none => ((((d :: d2 :: ds2).map (fun x =>
                  (⟨(parse_dependency x).op, (parse_dependency x).ver, x⟩ : DepInfo)))).headD
                    ⟨none, none, []⟩).original) = best.2
            rw [hfm, hmk]
          rw [hentry, ← hGo]
        · intro x hx
          have hin : (keyOf x, x) ∈ (d :: d2 :: ds2).map (fun x => (keyOf x, x)) :=
            List.mem_map.mpr ⟨x, hx, rfl⟩
          have h2 := hmax (keyOf x, x) hin
          have hbo : best.1 = keyOf o := by rw [← hGo]
          rw [← hbo]
          exact h2

/-- Witness for C7: the theorem applied at the concrete list
["requests==2.0", "requests==2.5"], whose consolidation retains exactly
`requests==2.5`. -/
theorem C7_consolidate_exact_pins_witness :
    consolidate_profile_requirements
      [("requests==2.0".toList), ("requests==2.5".toList)] =
      [(("requests".toList), ("requests==2.5".toList))] ∧
    (∃ o, consolidate_profile_requirements
        [("requests==2.0".toList), ("requests==2.5".toList)] =
        [(("requests".toList), o)] ∧
      o ∈ [("requests==2.0".toList), ("requests==2.5".toList)] ∧
      (∀ d ∈ [("requests==2.0".toList), ("requests==2.5".toList)],
        relLt (keyOf o) (keyOf d) = false)) := by
  refine ⟨by decide, C7_consolidate_exact_pins _ _ (by simp) ?_⟩
  intro d hd
  rcases List.mem_cons.mp hd with h | h
  · subst h
    exact ⟨by decide, by decide, ("2.0".toList), [2, 0],
      by decide, by decide, by decide⟩
  · have h2 : d = ("requests==2.5".toList) := by simpa using h
    subst h2
    exact ⟨by decide, by decide, ("2.5".toList), [2, 5],
      by decide, by decide, by decide⟩
